import Mathlib

/-!
# telegramwidget: canonical check string and HMAC verification

A shallow embedding of the Go package `telegramwidget` (root package and `v2`).

* A Go `string` / `[]byte` is the list of its bytes (`GoString`), each byte a `Nat` below 256.
* Go string comparison `<` is byte-wise lexicographic (`strLess`).
* `sort.Slice` is taken through its documented contract (`SliceSorter`): the slice is
  rearranged into some permutation with no inversion for `less`; it is not stable.
* `crypto/sha256` and `crypto/hmac` are the FIPS 180-4 / RFC 2104 functions, executable.
* `url.Parse` of the Go standard library is a parameter of the adapters.
* A `url.Values` map is the list of its entries in the order the `range` loop visits them.
* A `json.Decoder` is the sequence of results its `Token` calls will return (`Decoder`).
* The calls to `log.Printf` write to the process logger and return nothing; they are left out.
* Of package `v2` the files form.go, json.go and user.go are embedded. Its `pair`,
  `constructCheckString` and `ErrInvalidHash` are those of the root package, which the tests
  of `v2` exercise in the same way; its `validate` and `HashBotToken` follow the
  specification.
-/

set_option autoImplicit false

namespace TelegramWidget

/-! ## Strings and bytes -/

/-- A Go string (or byte slice): its bytes in order. -/
abbrev GoString := List Nat

/-- UTF-8 encoding of one code point, as the Go compiler stores string literals. -/
def utf8EncodeNat (c : Nat) : List Nat :=
  if c < 128 then [c]
  else if c < 2048 then [192 + c / 64, 128 + c % 64]
  else if c < 65536 then [224 + c / 4096, 128 + c / 64 % 64, 128 + c % 64]
  else [240 + c / 262144, 128 + c / 4096 % 64, 128 + c / 64 % 64, 128 + c % 64]

/-- The bytes of a Go string literal. -/
def str (s : String) : GoString := s.data.flatMap fun c => utf8EncodeNat c.toNat

/-- Go's `a < b` on strings: lexicographic comparison of the bytes. -/
def strLess : GoString → GoString → Bool
  | [], [] => false
  | [], _ :: _ => true
  | _ :: _, [] => false
  | a :: as, b :: bs => if a < b then true else if b < a then false else strLess as bs

/-! ## pairs.go -/

/-- The Go struct `pair`. -/
structure pair where
  key : GoString
  value : GoString
deriving DecidableEq, Repr

/-- Go `estimateSize`. -/
def estimateSize (ps : List pair) : Nat :=
  let l := ps.length
  if l ≤ 0 then 0
  else ps.foldl (fun s p => s + (p.key.length + p.value.length)) (2 * l - 1)

/-! ## sort.Slice -/

/-- The comparison closure passed to `sort.Slice` in `constructCheckString`:
`r[i].key < r[j].key`. -/
def less (a b : pair) : Bool := strLess a.key b.key

/-- What `sort.Slice(r, less)` does to the contents of `r`, by its documented contract: the
result is a rearrangement of `r` in which no later element is `less` than an earlier one.
Which rearrangement is chosen among elements that compare equal is up to the algorithm. -/
structure SliceSorter where
  run : List pair → List pair
  perm : ∀ r, (run r).Perm r
  sorted : ∀ r, (run r).Pairwise (fun a b => less b a = false)

/-- The inner loop of Go's `insertionSortLessFunc` for one element `x`: the sorted part is
held right to left, and `x` is swapped past each left neighbour it is `less` than. -/
def insertBack (x : pair) : List pair → List pair
  | [] => [x]
  | y :: ys => if less x y then y :: insertBack x ys else x :: y :: ys

/-- Go's `insertionSortLessFunc` over the whole slice, the algorithm `sort.Slice` runs on
slices of at most 12 elements. -/
def insertionSortLess (r : List pair) : List pair :=
  (r.foldl (fun acc x => insertBack x acc) []).reverse

/-! ## login.go -/

/-- Go `constructCheckString`, together with the contents of the slice `r` when it returns
(`sort.Slice` sorts `r` in place). The byte buffer is made with capacity `estimateSize(r)`,
which has no effect on what is appended to it. -/
def constructCheckStringSt (S : SliceSorter) (r : List pair) : GoString × List pair :=
  if r.length ≤ 0 then ([], r)
  else
    match S.run r with
    | [] => ([], [])
    | r0 :: rest =>
      let s := r0.key ++ [61] ++ r0.value
      (rest.foldl (fun s p => s ++ [10] ++ p.key ++ [61] ++ p.value) s, r0 :: rest)

/-- Go `constructCheckString`: the returned string. -/
def constructCheckString (S : SliceSorter) (r : List pair) : GoString :=
  (constructCheckStringSt S r).1

/-! ## crypto/sha256, crypto/hmac, crypto/subtle (Go standard library) -/

/-- Rotate a 32-bit word right by `n` bits. -/
def rotr (x n : Nat) : Nat := ((x >>> n) ||| (x <<< (32 - n))) % 4294967296

/-- The SHA-256 round constants. -/
def sha256K : List Nat := [
  0x428a2f98, 0x71374491, 0xb5c0fbcf, 0xe9b5dba5, 0x3956c25b, 0x59f111f1, 0x923f82a4, 0xab1c5ed5,
  0xd807aa98, 0x12835b01, 0x243185be, 0x550c7dc3, 0x72be5d74, 0x80deb1fe, 0x9bdc06a7, 0xc19bf174,
  0xe49b69c1, 0xefbe4786, 0x0fc19dc6, 0x240ca1cc, 0x2de92c6f, 0x4a7484aa, 0x5cb0a9dc, 0x76f988da,
  0x983e5152, 0xa831c66d, 0xb00327c8, 0xbf597fc7, 0xc6e00bf3, 0xd5a79147, 0x06ca6351, 0x14292967,
  0x27b70a85, 0x2e1b2138, 0x4d2c6dfc, 0x53380d13, 0x650a7354, 0x766a0abb, 0x81c2c92e, 0x92722c85,
  0xa2bfe8a1, 0xa81a664b, 0xc24b8b70, 0xc76c51a3, 0xd192e819, 0xd6990624, 0xf40e3585, 0x106aa070,
  0x19a4c116, 0x1e376c08, 0x2748774c, 0x34b0bcb5, 0x391c0cb3, 0x4ed8aa4a, 0x5b9cca4f, 0x682e6ff3,
  0x748f82ee, 0x78a5636f, 0x84c87814, 0x8cc70208, 0x90befffa, 0xa4506ceb, 0xbef9a3f7, 0xc67178f2]

/-- The eight working words of SHA-256. -/
structure Digest where
  a : Nat
  b : Nat
  c : Nat
  d : Nat
  e : Nat
  f : Nat
  g : Nat
  h : Nat

/-- The initial hash value of SHA-256. -/
def sha256Init : Digest :=
  ⟨0x6a09e667, 0xbb67ae85, 0x3c6ef372, 0xa54ff53a, 0x510e527f, 0x9b05688c, 0x1f83d9ab, 0x5be0cd19⟩

/-- Extend the message schedule by `n` words; `w` holds the words so far, latest first. -/
def sha256Schedule : Nat → List Nat → List Nat
  | 0, w => w
  | n + 1, w =>
    let v1 := w.getD 1 0
    let v0 := w.getD 14 0
    let t1 := rotr v1 17 ^^^ rotr v1 19 ^^^ (v1 >>> 10)
    let t0 := rotr v0 7 ^^^ rotr v0 18 ^^^ (v0 >>> 3)
    sha256Schedule n (((t1 + w.getD 6 0 + t0 + w.getD 15 0) % 4294967296) :: w)

/-- One round of the compression function, on the constant and schedule word `kw`. -/
def sha256Round (s : Digest) (kw : Nat × Nat) : Digest :=
  let t1 := (s.h + (rotr s.e 6 ^^^ rotr s.e 11 ^^^ rotr s.e 25)
    + ((s.e &&& s.f) ^^^ ((4294967295 - s.e) &&& s.g)) + kw.1 + kw.2) % 4294967296
  let t2 := ((rotr s.a 2 ^^^ rotr s.a 13 ^^^ rotr s.a 22)
    + ((s.a &&& s.b) ^^^ (s.a &&& s.c) ^^^ (s.b &&& s.c))) % 4294967296
  ⟨(t1 + t2) % 4294967296, s.a, s.b, s.c, (s.d + t1) % 4294967296, s.e, s.f, s.g⟩

/-- A big-endian 32-bit word from four bytes. -/
def be32 : List Nat → Nat
  | [a, b, c, d] => a * 16777216 + b * 65536 + c * 256 + d
  | _ => 0

/-- The first `n` big-endian words of a byte string. -/
def beWords : Nat → List Nat → List Nat
  | 0, _ => []
  | n + 1, bs => be32 (bs.take 4) :: beWords n (bs.drop 4)

/-- The compression function on one 64-byte block `p`. -/
def sha256Block (h : Digest) (p : List Nat) : Digest :=
  let w := (sha256Schedule 48 (beWords 16 p).reverse).reverse
  let s := (sha256K.zip w).foldl sha256Round h
  ⟨(h.a + s.a) % 4294967296, (h.b + s.b) % 4294967296, (h.c + s.c) % 4294967296,
   (h.d + s.d) % 4294967296, (h.e + s.e) % 4294967296, (h.f + s.f) % 4294967296,
   (h.g + s.g) % 4294967296, (h.h + s.h) % 4294967296⟩

/-- Compress `n` consecutive 64-byte blocks. -/
def sha256Blocks : Nat → Digest → List Nat → Digest
  | 0, h, _ => h
  | n + 1, h, bs => sha256Blocks n (sha256Block h (bs.take 64)) (bs.drop 64)

/-- The `k` low-order bytes of `n`, most significant first. -/
def beBytes (n : Nat) : Nat → List Nat
  | 0 => []
  | k + 1 => (n >>> (8 * k)) % 256 :: beBytes n k

/-- SHA-256 padding: a 1 bit, zeros, and the bit length as a 64-bit big-endian number. -/
def sha256Pad (m : List Nat) : List Nat :=
  m ++ [128] ++ List.replicate ((119 - m.length % 64) % 64) 0
    ++ beBytes ((8 * m.length) % 18446744073709551616) 8

/-- Go `sha256.Sum256`: the 32-byte SHA-256 digest of `m`. -/
def Sum256 (m : List Nat) : List Nat :=
  let p := sha256Pad m
  let s := sha256Blocks (p.length / 64) sha256Init p
  beBytes s.a 4 ++ beBytes s.b 4 ++ beBytes s.c 4 ++ beBytes s.d 4
    ++ beBytes s.e 4 ++ beBytes s.f 4 ++ beBytes s.g 4 ++ beBytes s.h 4

/-- Go `hmac.New(sha256.New, key)`, `Write(msg)`, `Sum(nil)`: HMAC-SHA256 of `msg`. -/
def hmacSHA256 (key msg : List Nat) : List Nat :=
  let k0 := if key.length > 64 then Sum256 key else key
  let k := k0 ++ List.replicate (64 - k0.length) 0
  Sum256 (k.map (fun b => b ^^^ 0x5c) ++ Sum256 (k.map (fun b => b ^^^ 0x36) ++ msg))

/-- Go `subtle.ConstantTimeCompare`: 1 when the slices have equal contents, else 0; when
the lengths are equal every byte pair is visited. -/
def ConstantTimeCompare (x y : List Nat) : Nat :=
  if x.length ≠ y.length then 0
  else
    let v := (x.zip y).foldl (fun v xy => v ||| (xy.1 ^^^ xy.2)) 0
    if v = 0 then 1 else 0

/-- Go `hmac.Equal`. -/
def hmacEqual (mac1 mac2 : List Nat) : Bool := ConstantTimeCompare mac1 mac2 == 1

/-- Go `validate` of `login.go`: the key is the SHA-256 digest of the raw token. -/
def validate (S : SliceSorter) (ps : List pair) (token : GoString) (expectedMAC : List Nat) :
    Bool :=
  let s := constructCheckString S ps
  let key := Sum256 token
  let computedMAC := hmacSHA256 key s
  hmacEqual expectedMAC computedMAC

/-! ## strconv, encoding/hex, net/url, time, encoding/json (Go standard library) -/

/-- The two errors a `*strconv.NumError` can wrap. -/
inductive NumErrKind where
  | ErrSyntax
  | ErrRange
deriving DecidableEq, Repr

/-- The digit loop of Go `strconv.ParseUint(s, 10, 64)` with `n` accumulated so far: the
value and the error. An overflow is reported as soon as it is met, before later bytes are
looked at. -/
def parseUintLoop : List Nat → Nat → Nat × Option NumErrKind
  | [], n => (n, none)
  | c :: cs, n =>
    if 48 ≤ c ∧ c ≤ 57 then
      if n ≥ 1844674407370955162 then (18446744073709551615, some .ErrRange)
      else
        let n1 := n * 10 + (c - 48)
        if n1 > 18446744073709551615 then (18446744073709551615, some .ErrRange)
        else parseUintLoop cs n1
    else (0, some .ErrSyntax)

/-- Go `strconv.ParseUint(s, 10, 64)`. -/
def ParseUint (s : GoString) : Nat × Option NumErrKind :=
  if s = [] then (0, some .ErrSyntax) else parseUintLoop s 0

/-- Go `strconv.ParseInt(s, 10, 64)`: the value returned and the error (`none` is `nil`). -/
def ParseInt (s : GoString) : Int × Option NumErrKind :=
  match s with
  | [] => (0, some .ErrSyntax)
  | c :: cs =>
    let neg := c == 45
    let s1 := if c == 43 || c == 45 then cs else s
    match ParseUint s1 with
    | (_, some .ErrSyntax) => (0, some .ErrSyntax)
    | (un, _) =>
      if !neg && un ≥ 9223372036854775808 then (9223372036854775807, some .ErrRange)
      else if neg && un > 9223372036854775808 then (-9223372036854775808, some .ErrRange)
      else (if neg then -(un : Int) else (un : Int), none)

/-- The errors of Go `hex.Decode`. -/
inductive HexError where
  | InvalidByteError (b : Nat)
  | ErrLength
deriving DecidableEq, Repr

/-- Go `reverseHexTable`: the value of a hexadecimal digit, `none` for any other byte. -/
def fromHexChar (c : Nat) : Option Nat :=
  if 48 ≤ c ∧ c ≤ 57 then some (c - 48)
  else if 97 ≤ c ∧ c ≤ 102 then some (c - 87)
  else if 65 ≤ c ∧ c ≤ 70 then some (c - 55)
  else none

/-- Go `hex.Decode(dst, src)` from output index `i` on: the number of bytes written, `dst`
afterwards, and the error. Bytes decoded before an error stay written. -/
def hexDecodeLoop : List Nat → Nat → List Nat → Nat × List Nat × Option HexError
  | [], i, dst => (i, dst, none)
  | [p], i, dst =>
    match fromHexChar p with
    | none => (i, dst, some (.InvalidByteError p))
    | some _ => (i, dst, some .ErrLength)
  | p :: q :: rest, i, dst =>
    match fromHexChar p with
    | none => (i, dst, some (.InvalidByteError p))
    | some a =>
      match fromHexChar q with
      | none => (i, dst, some (.InvalidByteError q))
      | some b => hexDecodeLoop rest (i + 1) (dst.set i ((a <<< 4) ||| b))

/-- Go `hex.Decode(dst, src)`. -/
def hexDecode (dst src : List Nat) : Nat × List Nat × Option HexError :=
  hexDecodeLoop src 0 dst

/-- Go `hex.DecodedLen`. -/
def hexDecodedLen (x : Nat) : Nat := x / 2

/-- Go `sha256.Size`. -/
def sha256Size : Nat := 32

/-- Go `url.URL`. -/
structure URL where
  Scheme : GoString := []
  OpaquePart : GoString := []
  User : Option (GoString × Option GoString) := none
  Host : GoString := []
  Path : GoString := []
  RawPath : GoString := []
  ForceQuery : Bool := false
  RawQuery : GoString := []
  Fragment : GoString := []
deriving DecidableEq, Repr

/-- Go `time.Time`, as far as the package builds one: the zero value, or `time.Unix(sec, 0)`. -/
inductive Time where
  | zero
  | Unix (sec : Int)
deriving DecidableEq, Repr

/-- Go `json.Token` as `Decoder.Token` returns it after `UseNumber`. -/
inductive Token where
  | delim (c : Nat)
  | bool (b : Bool)
  | number (s : GoString)
  | string (s : GoString)
  | null
deriving DecidableEq, Repr

/-- The error of a failed `Decoder.Token` call: `io.EOF`, or any other error. -/
inductive DecodeError where
  | EOF
  | other (msg : GoString)
deriving DecidableEq, Repr

/-- One future call of `Decoder.Token`: the token it returns, or the error it returns
together with what `Decoder.More` answers just before. -/
inductive TokenStep where
  | tok (t : Token)
  | err (e : DecodeError) (more : Bool)
deriving DecidableEq, Repr

/-- A `json.Decoder` over a reader: the results of its future `Token` calls in order. Once
the list is used up the reader is at its end and `Token` returns `io.EOF`. -/
abbrev Decoder := List TokenStep

/-- Go `Decoder.More`: whether the next byte exists and is neither a closing bracket nor a
closing brace. A closing delimiter is returned only when it is that next byte. -/
def Decoder.More : Decoder → Bool
  | [] => false
  | .tok (.delim c) :: _ => !(c == 93 || c == 125)
  | .tok _ :: _ => true
  | .err _ m :: _ => m

/-- Go `Decoder.Token`: the result and the decoder afterwards. -/
def Decoder.Token : Decoder → Except DecodeError Token × Decoder
  | [] => (.error .EOF, [])
  | .tok t :: d => (.ok t, d)
  | .err e _ :: d => (.error e, d)

/-- The outcome of running a Go function: it returns, or a run-time panic unwinds it. -/
inductive Run (α : Type) where
  | returned (a : α)
  | panicked
deriving DecidableEq, Repr

/-! ## Package v2: user.go, form.go, json.go -/

namespace V2

/-- A value formatted by `%v` in a `fmt.Errorf` message. -/
inductive ErrArg where
  | hexErr (e : HexError)
  | decErr (e : DecodeError)
  | token (t : Token)
deriving DecidableEq, Repr

/-- The Go `error` values the package returns (`nil` is `none` of `Option Error`). -/
inductive Error where
  /-- The sentinel `ErrInvalidHash`. -/
  | ErrInvalidHash
  /-- The sentinel `ErrNotSingleValue`. -/
  | ErrNotSingleValue
  /-- A `*strconv.NumError` of `ParseInt` on the text `num`. -/
  | NumError (num : GoString) (err : NumErrKind)
  /-- The `*url.Error` of `url.Parse` on the text `url`. -/
  | URLError (url : GoString)
  /-- The value of `fmt.Errorf(format, args...)`. -/
  | Errorf (format : String) (args : List ErrArg)
deriving DecidableEq, Repr

/-- The Go struct `User` of package v2. -/
structure User where
  AuthDate : Time
  FirstName : GoString
  ID : Int
  LastName : GoString
  PhotoURL : Option URL
  Username : GoString
deriving DecidableEq, Repr

/-- The zero value of `User` (`var tu User`). -/
def User.zero : User := ⟨.zero, [], 0, [], none, []⟩

/-- Modelled from the spec: `HashBotToken` of package v2, whose file login.go is not among
the sources. The pre-derived key is SHA-256 over the exact bytes of the raw token. -/
def HashBotToken (token : GoString) : List Nat := Sum256 token

/-- Modelled from the spec: `validate` of package v2, whose file login.go is not among the
sources. The caller supplies the derived key, so step 1 of the verifier is skipped:
HMAC-SHA256 of the check string under `tokenHash`, compared with `hmac.Equal`. -/
def validate (S : SliceSorter) (ps : List pair) (tokenHash : List Nat)
    (expectedMAC : List Nat) : Bool :=
  hmacEqual expectedMAC (hmacSHA256 tokenHash (constructCheckString S ps))

/-- The four results of `parseUserFromForm` and `parseUserFromJSON`. A `nil` slice is `[]`. -/
structure ParseResult where
  tu : User
  ps : List pair
  expectedMAC : List Nat
  err : Option Error
deriving DecidableEq, Repr

/-- The local variables `tu`, `ps` and `expectedMAC` of the two parse functions. -/
structure Locals where
  tu : User
  ps : List pair
  expectedMAC : List Nat
deriving DecidableEq, Repr

/-- The locals at the start of both parse functions. -/
def Locals.init : Locals := ⟨User.zero, [], List.replicate sha256Size 0⟩

/-- The locals a parse function held when it returned. -/
def ParseResult.locals (r : ParseResult) : Locals := ⟨r.tu, r.ps, r.expectedMAC⟩

/-- What one pass through a loop body does: go on with new locals, or return. -/
inductive Flow where
  | next (st : Locals)
  | exit (r : ParseResult)
deriving DecidableEq, Repr

/-- The `case "hash"` block, the same in both parse functions. -/
def hashCase (st : Locals) (v : GoString) : Flow :=
  if hexDecodedLen v.length ≠ sha256Size then
    .exit ⟨st.tu, [], st.expectedMAC,
      some (.Errorf "hash must be 64 characters long, but wasn't" [])⟩
  else
    match hexDecode st.expectedMAC v with
    | (_, mac, some e) =>
      .exit ⟨st.tu, [], mac, some (.Errorf "failure to decode incoming hash: %v" [.hexErr e])⟩
    | (_, mac, none) => .next { st with expectedMAC := mac }

/-- The `switch k` of `parseUserFromForm` on key `k` with its single value `v`. -/
def formField (urlParse : GoString → Option URL) (st : Locals) (k v : GoString) : Flow :=
  if k = str "id" then
    let ps := st.ps ++ [⟨str "id", v⟩]
    match ParseInt v with
    | (i, some e) => .exit ⟨{ st.tu with ID := i }, [], st.expectedMAC, some (.NumError v e)⟩
    | (i, none) => .next { st with ps := ps, tu := { st.tu with ID := i } }
  else if k = str "first_name" then
    .next { st with ps := st.ps ++ [⟨str "first_name", v⟩], tu := { st.tu with FirstName := v } }
  else if k = str "last_name" then
    .next { st with ps := st.ps ++ [⟨str "last_name", v⟩], tu := { st.tu with LastName := v } }
  else if k = str "username" then
    .next { st with ps := st.ps ++ [⟨str "username", v⟩], tu := { st.tu with Username := v } }
  else if k = str "photo_url" then
    let ps := st.ps ++ [⟨str "photo_url", v⟩]
    match urlParse v with
    | none =>
      .exit ⟨{ st.tu with PhotoURL := none }, [], st.expectedMAC, some (.URLError v)⟩
    | some u => .next { st with ps := ps, tu := { st.tu with PhotoURL := some u } }
  else if k = str "auth_date" then
    let ps := st.ps ++ [⟨str "auth_date", v⟩]
    match ParseInt v with
    | (_, some e) => .exit ⟨st.tu, [], st.expectedMAC, some (.NumError v e)⟩
    | (seconds, none) => .next { st with ps := ps, tu := { st.tu with AuthDate := .Unix seconds } }
  else if k = str "hash" then
    hashCase st v
  else
    .next st

/-- The `range f` loop of `parseUserFromForm` over the entries still to visit. -/
def formLoop (urlParse : GoString → Option URL) :
    List (GoString × List GoString) → Locals → ParseResult
  | [], st => ⟨st.tu, st.ps, st.expectedMAC, none⟩
  | (k, vs) :: rest, st =>
    match vs with
    | [v] =>
      match formField urlParse st k v with
      | .next st1 => formLoop urlParse rest st1
      | .exit r => r
    | _ => ⟨st.tu, [], st.expectedMAC, some .ErrNotSingleValue⟩

/-- Go `parseUserFromForm`. The form is the `url.Values` map as the list of its entries in
the order the `range` loop visits them. -/
def parseUserFromForm (urlParse : GoString → Option URL)
    (f : List (GoString × List GoString)) : ParseResult :=
  formLoop urlParse f Locals.init

/-- Go `ConvertAndVerifyForm`. -/
def ConvertAndVerifyForm (S : SliceSorter) (urlParse : GoString → Option URL)
    (f : List (GoString × List GoString)) (tokenHash : List Nat) : User × Option Error :=
  let r := parseUserFromForm urlParse f
  match r.err with
  | some err => (r.tu, some err)
  | none =>
    if !validate S r.ps tokenHash r.expectedMAC then (r.tu, some .ErrInvalidHash)
    else (r.tu, none)

/-- The `switch k` of `parseUserFromJSON` on the key token `k` and value token `v`. A type
assertion `v.(T)` on a token of another type panics. -/
def jsonField (urlParse : GoString → Option URL) (st : Locals) (k v : Token) : Run Flow :=
  if k = .string (str "id") then
    match v with
    | .number id =>
      let ps := st.ps ++ [⟨str "id", id⟩]
      match ParseInt id with
      | (i, some e) =>
        .returned (.exit ⟨{ st.tu with ID := i }, [], st.expectedMAC, some (.NumError id e)⟩)
      | (i, none) => .returned (.next { st with ps := ps, tu := { st.tu with ID := i } })
    | _ => .panicked
  else if k = .string (str "first_name") then
    match v with
    | .string firstName =>
      .returned (.next { st with ps := st.ps ++ [⟨str "first_name", firstName⟩],
                                 tu := { st.tu with FirstName := firstName } })
    | _ => .panicked
  else if k = .string (str "last_name") then
    match v with
    | .string lastName =>
      .returned (.next { st with ps := st.ps ++ [⟨str "last_name", lastName⟩],
                                 tu := { st.tu with LastName := lastName } })
    | _ => .panicked
  else if k = .string (str "username") then
    match v with
    | .string username =>
      .returned (.next { st with ps := st.ps ++ [⟨str "username", username⟩],
                                 tu := { st.tu with Username := username } })
    | _ => .panicked
  else if k = .string (str "photo_url") then
    match v with
    | .string photoURL =>
      let ps := st.ps ++ [⟨str "photo_url", photoURL⟩]
      match urlParse photoURL with
      | none =>
        .returned (.exit ⟨{ st.tu with PhotoURL := none }, [], st.expectedMAC,
          some (.URLError photoURL)⟩)
      | some u => .returned (.next { st with ps := ps, tu := { st.tu with PhotoURL := some u } })
    | _ => .panicked
  else if k = .string (str "auth_date") then
    match v with
    | .number authDate =>
      let ps := st.ps ++ [⟨str "auth_date", authDate⟩]
      match ParseInt authDate with
      | (_, some e) => .returned (.exit ⟨st.tu, [], st.expectedMAC, some (.NumError authDate e)⟩)
      | (seconds, none) =>
        .returned (.next { st with ps := ps, tu := { st.tu with AuthDate := .Unix seconds } })
    | _ => .panicked
  else if k = .string (str "hash") then
    match v with
    | .string hash => .returned (hashCase st hash)
    | _ => .panicked
  else
    .returned (.next st)

/-- How the `for d.More()` loop of `parseUserFromJSON` ends. -/
inductive LoopEnd where
  /-- `d.More()` answered false: the locals and the decoder at that point. -/
  | finished (st : Locals) (d : Decoder)
  /-- The function returned from inside the loop. -/
  | exit (r : ParseResult)
  /-- A type assertion panicked. -/
  | panicked
deriving DecidableEq, Repr

/-- The `for d.More()` loop of `parseUserFromJSON`. -/
def jsonLoop (urlParse : GoString → Option URL) : Decoder → Locals → LoopEnd
  | [], st => .finished st []
  | s :: d1, st =>
    if !Decoder.More (s :: d1) then .finished st (s :: d1)
    else
      match (Decoder.Token (s :: d1)).1 with
      | .error e =>
        .exit ⟨st.tu, [], st.expectedMAC, some (.Errorf "expected key, got error: %v" [.decErr e])⟩
      | .ok (.delim c) =>
        .exit ⟨st.tu, [], st.expectedMAC,
          some (.Errorf "expected key, got delimeter: %v" [.token (.delim c)])⟩
      | .ok k =>
        match d1 with
        | [] =>
          .exit ⟨st.tu, [], st.expectedMAC,
            some (.Errorf "expected value, got error: %v" [.decErr .EOF])⟩
        | s2 :: d2 =>
          match (Decoder.Token (s2 :: d2)).1 with
          | .error e =>
            .exit ⟨st.tu, [], st.expectedMAC,
              some (.Errorf "expected value, got error: %v" [.decErr e])⟩
          | .ok (.delim c) =>
            .exit ⟨st.tu, [], st.expectedMAC,
              some (.Errorf "expected value, got delimeter: %v" [.token (.delim c)])⟩
          | .ok v =>
            match jsonField urlParse st k v with
            | .panicked => .panicked
            | .returned (.exit r) => .exit r
            | .returned (.next st1) => jsonLoop urlParse d2 st1

/-- Go `parseUserFromJSON`. The reader is given by the decoder made over it. -/
def parseUserFromJSON (urlParse : GoString → Option URL) (r : Decoder) : Run ParseResult :=
  let st0 := Locals.init
  match Decoder.Token r with
  | (.error .EOF, _) =>
    .returned ⟨st0.tu, [], st0.expectedMAC, some (.Errorf "expected start of object, got EOF" [])⟩
  | (.error e, _) =>
    .returned ⟨st0.tu, [], st0.expectedMAC,
      some (.Errorf "expected start of object, got error: %v" [.decErr e])⟩
  | (.ok t, d) =>
    if t ≠ .delim 123 then
      .returned ⟨st0.tu, [], st0.expectedMAC,
        some (.Errorf "expected start of object, got token: %v" [.token t])⟩
    else
      match jsonLoop urlParse d st0 with
      | .panicked => .panicked
      | .exit res => .returned res
      | .finished st d1 =>
        match Decoder.Token d1 with
        | (.error .EOF, _) =>
          .returned ⟨st.tu, [], st.expectedMAC,
            some (.Errorf "expected end of object, got EOF" [])⟩
        | (.error e, _) =>
          .returned ⟨st.tu, [], st.expectedMAC,
            some (.Errorf "expected end of object, got error: %v" [.decErr e])⟩
        | (.ok t1, d2) =>
          if t1 ≠ .delim 125 then
            .returned ⟨st.tu, [], st.expectedMAC,
              some (.Errorf "expected end of object, got token: %v" [.token t1])⟩
          else
            match (Decoder.Token d2).1 with
            | .ok _ =>
              .returned ⟨st.tu, [], st.expectedMAC,
                some (.Errorf "expected EOF, but got a token" [])⟩
            | .error .EOF => .returned ⟨st.tu, st.ps, st.expectedMAC, none⟩
            | .error e =>
              .returned ⟨st.tu, [], st.expectedMAC,
                some (.Errorf "expected EOF, but got a different error: %v" [.decErr e])⟩

/-- Go `ConvertAndVerifyJSON`. -/
def ConvertAndVerifyJSON (S : SliceSorter) (urlParse : GoString → Option URL)
    (r : Decoder) (tokenHash : List Nat) : Run (User × Option Error) :=
  match parseUserFromJSON urlParse r with
  | .panicked => .panicked
  | .returned res =>
    match res.err with
    | some err => .returned (res.tu, some err)
    | none =>
      if !validate S res.ps tokenHash res.expectedMAC then .returned (res.tu, some .ErrInvalidHash)
      else .returned (res.tu, none)

/-- Go `ConvertAndVerifyForm` with the function it calls as `validate` made explicit. -/
def ConvertAndVerifyFormWith (validate : List pair → List Nat → List Nat → Bool)
    (urlParse : GoString → Option URL) (f : List (GoString × List GoString))
    (tokenHash : List Nat) : User × Option Error :=
  let r := parseUserFromForm urlParse f
  match r.err with
  | some err => (r.tu, some err)
  | none =>
    if !validate r.ps tokenHash r.expectedMAC then (r.tu, some .ErrInvalidHash)
    else (r.tu, none)

/-- Go `ConvertAndVerifyJSON` with the function it calls as `validate` made explicit. -/
def ConvertAndVerifyJSONWith (validate : List pair → List Nat → List Nat → Bool)
    (urlParse : GoString → Option URL) (r : Decoder) (tokenHash : List Nat) :
    Run (User × Option Error) :=
  match parseUserFromJSON urlParse r with
  | .panicked => .panicked
  | .returned res =>
    match res.err with
    | some err => .returned (res.tu, some err)
    | none =>
      if !validate res.ps tokenHash res.expectedMAC then
        .returned (res.tu, some .ErrInvalidHash)
      else .returned (res.tu, none)

end V2

/-! ## The canonical form in the words of the specification -/

/-- One pair rendered as the specification says: the key, `=`, the value. -/
def renderPair (p : pair) : GoString := p.key ++ [61] ++ p.value

/-- The lines joined as the specification says: one `\n` between consecutive lines, none
before the first or after the last. -/
def joinLines : List GoString → GoString
  | [] => []
  | [x] => x
  | x :: y :: rest => x ++ [10] ++ joinLines (y :: rest)

/-- The check string of pairs that already stand in their final order. -/
def specCheckString (l : List pair) : GoString := joinLines (l.map renderPair)

/-- The bytes a text of hexadecimal digits stands for, two digits a byte, high digit first. -/
def hexBytes : List Nat → List Nat
  | p :: q :: rest => (((fromHexChar p).getD 0 <<< 4) ||| (fromHexChar q).getD 0) :: hexBytes rest
  | _ => []

/-- Every byte of the text is a hexadecimal digit. -/
def AllHex (v : GoString) : Prop := ∀ c ∈ v, fromHexChar c ≠ none

instance (v : GoString) : Decidable (AllHex v) := by
  unfold AllHex
  infer_instance

/-- The six field names that enter the check string. -/
def pairKeys : List GoString :=
  [str "id", str "first_name", str "last_name", str "username", str "photo_url", str "auth_date"]

/-- The recognized field vocabulary: the six names of the pairs and `hash`. -/
def recognizedKeys : List GoString := pairKeys ++ [str "hash"]

/-- The pairs a form submits: each single-valued entry under one of the six names, as text. -/
def formPairs (f : List (GoString × List GoString)) : List pair :=
  f.filterMap fun kv =>
    match kv.2 with
    | [v] => if kv.1 ∈ pairKeys then some ⟨kv.1, v⟩ else none
    | _ => none

/-- The keys of a form, in the order of its entries. -/
def formKeys (f : List (GoString × List GoString)) : List GoString := f.map Prod.fst

/-- The tokens a JSON object's members put in key position: every other token. -/
def memberKeys : Decoder → List Token
  | .tok k :: _ :: rest => k :: memberKeys rest
  | _ => []

/-- The tokens of the members of a JSON object, each a key and a value token. -/
def memberSteps (ms : List (Token × Token)) : Decoder :=
  ms.flatMap fun kv => [.tok kv.1, .tok kv.2]

/-- The token sequence of a JSON object with the given members: an opening brace, the key
and value token of each member, a closing brace, and the end of the input. -/
def objectScript (ms : List (Token × Token)) : Decoder :=
  .tok (.delim 123) :: (memberSteps ms ++ [.tok (.delim 125)])

/-- Every key and every value of the members is a scalar token (a string, a number, a
boolean or null), not a delimiter. -/
def ScalarMembers (ms : List (Token × Token)) : Prop :=
  ∀ kv ∈ ms, (∀ c, kv.1 ≠ .delim c) ∧ (∀ c, kv.2 ≠ .delim c)

/-- The number a text of decimal digits denotes. -/
def decimalValue (ds : List Nat) : Nat := ds.foldl (fun n c => n * 10 + (c - 48)) 0

/-- A non-empty text of decimal digits. -/
def IsDigits (ds : List Nat) : Prop := ds ≠ [] ∧ ∀ c ∈ ds, 48 ≤ c ∧ c ≤ 57

instance (ds : List Nat) : Decidable (IsDigits ds) := by
  unfold IsDigits
  infer_instance

/-- The text `v` is the base-10 text of the 64-bit signed integer `n`: decimal digits, with
an optional sign before them, whose value lies in the range of `int64`. -/
def Int64Text (v : GoString) (n : Int) : Prop :=
  (IsDigits v ∧ decimalValue v < 9223372036854775808 ∧ n = decimalValue v)
  ∨ (∃ ds, v = 43 :: ds ∧ IsDigits ds ∧ decimalValue ds < 9223372036854775808
      ∧ n = decimalValue ds)
  ∨ (∃ ds, v = 45 :: ds ∧ IsDigits ds ∧ decimalValue ds ≤ 9223372036854775808
      ∧ n = -(decimalValue ds : Int))

/-- The 64-bit signed integer a base-10 text denotes: decimal digits with an optional sign
before them and a value in the range of `int64`; `none` for any other text. -/
def int64Value (v : GoString) : Option Int :=
  match v with
  | 43 :: ds =>
    if IsDigits ds ∧ decimalValue ds < 9223372036854775808 then some (decimalValue ds) else none
  | 45 :: ds =>
    if IsDigits ds ∧ decimalValue ds ≤ 9223372036854775808 then some (-(decimalValue ds : Int))
    else none
  | ds =>
    if IsDigits ds ∧ decimalValue ds < 9223372036854775808 then some (decimalValue ds) else none

/-- The lines that follow the first one in the check string: each pair behind a `\n`. -/
def lineTail (l : List pair) : GoString := l.flatMap fun p => [10] ++ renderPair p

/-- The lengths of the keys and values of the pairs, summed. -/
def textLength (l : List pair) : Nat := (l.map fun p => p.key.length + p.value.length).sum

/-- Replace the value of the pair with key `k` by `v`. -/
def setValue (k v : GoString) (r : List pair) : List pair :=
  r.map fun q => if q.key = k then ⟨k, v⟩ else q

/-- The pairs a check string is unambiguous for: every key is one of the six field names
and no value holds a `\n`. -/
def PlainPairs (l : List pair) : Prop := ∀ p ∈ l, p.key ∈ pairKeys ∧ 10 ∉ p.value

/-- The pair a JSON member contributes: a number under `id` or `auth_date` with its literal
text, a string under one of the four text fields; nothing otherwise. -/
def memberPair (k v : Token) : Option pair :=
  match k, v with
  | .string key, .number x =>
    if key = str "id" ∨ key = str "auth_date" then some ⟨key, x⟩ else none
  | .string key, .string x =>
    if key = str "first_name" ∨ key = str "last_name" ∨ key = str "username"
        ∨ key = str "photo_url" then some ⟨key, x⟩ else none
  | _, _ => none

/-- The pairs of the members of a JSON object, read from behind the opening brace up to
the first delimiter in key position. -/
def scriptPairs : Decoder → List pair
  | .tok (.delim _) :: _ => []
  | .tok k :: .tok v :: rest => (memberPair k v).toList ++ scriptPairs rest
  | _ => []

/-- A recognized key with a scalar value of another JSON type than the field has: not a
number under `id` or `auth_date`, not a string under the other five names. -/
def WrongType (k v : Token) : Prop :=
  ((k = .string (str "id") ∨ k = .string (str "auth_date")) ∧ ∀ x, v ≠ .number x)
  ∨ ((k = .string (str "first_name") ∨ k = .string (str "last_name")
      ∨ k = .string (str "username") ∨ k = .string (str "photo_url")
      ∨ k = .string (str "hash")) ∧ ∀ x, v ≠ .string x)

/-- Go `strconv.FormatInt(n, 10)`: the canonical decimal text of an integer. -/
def FormatInt (n : Int) : GoString :=
  if n < 0 then 45 :: (Nat.toDigits 10 n.natAbs).map Char.toNat
  else (Nat.toDigits 10 n.natAbs).map Char.toNat

/-! ## Lemmas: digests and constant-time comparison -/

theorem beBytes_length (n k : Nat) : (beBytes n k).length = k := by
  induction k with
  | zero => rfl
  | succ k ih => simp [beBytes, ih]

theorem Sum256_length (m : List Nat) : (Sum256 m).length = 32 := by
  simp [Sum256, beBytes_length]

theorem hmacSHA256_length (key msg : List Nat) : (hmacSHA256 key msg).length = 32 := by
  simp [hmacSHA256, Sum256_length]

theorem lor_eq_zero_iff (a b : Nat) : a ||| b = 0 ↔ a = 0 ∧ b = 0 := by
  constructor
  · intro h
    constructor
    · apply Nat.eq_of_testBit_eq
      intro i
      have := congrArg (fun n => n.testBit i) h
      simp only [Nat.testBit_or, Nat.zero_testBit, Bool.or_eq_false_iff] at this
      simp [this.1]
    · apply Nat.eq_of_testBit_eq
      intro i
      have := congrArg (fun n => n.testBit i) h
      simp only [Nat.testBit_or, Nat.zero_testBit, Bool.or_eq_false_iff] at this
      simp [this.2]
  · rintro ⟨rfl, rfl⟩
    rfl

theorem foldl_lor_xor_eq_zero (l : List (Nat × Nat)) (v : Nat) :
    l.foldl (fun v xy => v ||| (xy.1 ^^^ xy.2)) v = 0 ↔ v = 0 ∧ ∀ xy ∈ l, xy.1 = xy.2 := by
  induction l generalizing v with
  | nil => simp
  | cons xy l ih =>
    simp only [List.foldl_cons, ih, lor_eq_zero_iff, Nat.xor_eq_zero, List.mem_cons,
      forall_eq_or_imp]
    tauto

theorem zip_all_eq_iff (x y : List Nat) (h : x.length = y.length) :
    (∀ xy ∈ x.zip y, xy.1 = xy.2) ↔ x = y := by
  induction x generalizing y with
  | nil =>
    cases y with
    | nil => simp
    | cons b y => simp at h
  | cons a x ih =>
    cases y with
    | nil => simp at h
    | cons b y =>
      have h1 : x.length = y.length := by simpa using h
      simp only [List.zip_cons_cons, List.mem_cons, forall_eq_or_imp, ih y h1, List.cons.injEq]

theorem ConstantTimeCompare_eq_one_iff (x y : List Nat) :
    ConstantTimeCompare x y = 1 ↔ x = y := by
  unfold ConstantTimeCompare
  by_cases h : x.length = y.length
  · simp only [h, ne_eq, not_true_eq_false, if_false]
    rw [← zip_all_eq_iff x y h]
    have := foldl_lor_xor_eq_zero (x.zip y) 0
    by_cases hv : (x.zip y).foldl (fun v xy => v ||| (xy.1 ^^^ xy.2)) 0 = 0
    · simp only [hv, if_true, true_iff]
      exact (this.1 hv).2
    · simp only [hv, if_false]
      constructor
      · intro h0
        exact absurd h0 (by decide)
      · intro hall
        exact absurd (this.2 ⟨rfl, hall⟩) hv
  · simp only [ne_eq, h, not_false_eq_true, if_true]
    constructor
    · intro h0
      exact absurd h0 (by decide)
    · intro hxy
      exact absurd (congrArg List.length hxy) h

theorem hmacEqual_iff (x y : List Nat) : hmacEqual x y = true ↔ x = y := by
  simp [hmacEqual, ConstantTimeCompare_eq_one_iff]

/-! ## Lemmas: the byte-wise order on strings -/

theorem strLess_irrefl (a : GoString) : strLess a a = false := by
  induction a with
  | nil => rfl
  | cons x xs ih => simp [strLess, ih]

theorem strLess_asymm (a b : GoString) (h : strLess a b = true) : strLess b a = false := by
  induction a generalizing b with
  | nil => cases b <;> simp [strLess] at h ⊢
  | cons x xs ih =>
    cases b with
    | nil => simp [strLess] at h
    | cons y ys =>
      simp only [strLess] at h ⊢
      by_cases hxy : x < y
      · have : ¬ y < x := by omega
        simp [this, hxy]
      · by_cases hyx : y < x
        · simp [hxy, hyx] at h
        · simp only [hxy, hyx, if_false] at h ⊢
          exact ih ys h

theorem strLess_trans (a b c : GoString) (hab : strLess a b = true) (hbc : strLess b c = true) :
    strLess a c = true := by
  induction a generalizing b c with
  | nil =>
    cases b with
    | nil => simp [strLess] at hab
    | cons y ys =>
      cases c with
      | nil => simp [strLess] at hbc
      | cons z zs => simp [strLess]
  | cons x xs ih =>
    cases b with
    | nil => simp [strLess] at hab
    | cons y ys =>
      cases c with
      | nil => simp [strLess] at hbc
      | cons z zs =>
        simp only [strLess] at hab hbc ⊢
        by_cases hxy : x < y
        · by_cases hyz : y < z
          · have : x < z := by omega
            simp [this]
          · by_cases hzy : z < y
            · simp [hyz, hzy] at hbc
            · have : x < z := by omega
              simp [this]
        · by_cases hyx : y < x
          · simp [hxy, hyx] at hab
          · simp only [hxy, hyx, if_false] at hab
            have hxy2 : x = y := by omega
            subst hxy2
            by_cases hxz : x < z
            · simp [hxz]
            · by_cases hzx : z < x
              · simp [hxz, hzx] at hbc
              · simp only [hxz, hzx, if_false] at hbc ⊢
                exact ih ys zs hab hbc

theorem strLess_total (a b : GoString) (hab : strLess a b = false) (hba : strLess b a = false) :
    a = b := by
  induction a generalizing b with
  | nil => cases b <;> simp [strLess] at hab ⊢
  | cons x xs ih =>
    cases b with
    | nil => simp [strLess] at hba
    | cons y ys =>
      simp only [strLess] at hab hba
      by_cases hxy : x < y
      · simp [hxy] at hab
      · by_cases hyx : y < x
        · simp [hyx] at hba
        · simp only [hxy, hyx, if_false] at hab hba
          have hxy2 : x = y := by omega
          rw [hxy2, ih ys hab hba]

theorem strLess_negtrans (a b c : GoString) (hab : strLess a b = false)
    (hbc : strLess b c = false) : strLess a c = false := by
  cases hac : strLess a c with
  | false => rfl
  | true =>
    cases hba : strLess b a with
    | false =>
      have := strLess_total a b hab hba
      subst this
      rw [hac] at hbc
      exact absurd hbc (by decide)
    | true =>
      have := strLess_trans b a c hba hac
      rw [this] at hbc
      exact absurd hbc (by decide)

/-! ## Lemmas: sorting pairs by key -/

/-- The keys of a pair list are pairwise distinct. -/
def KeysDistinct (r : List pair) : Prop := (r.map pair.key).Nodup

instance (r : List pair) : Decidable (KeysDistinct r) := by
  unfold KeysDistinct
  infer_instance

/-- The pairs stand in strictly ascending byte-wise order of key. -/
def KeysAscending (r : List pair) : Prop := r.Pairwise (fun a b => less a b = true)

instance (r : List pair) : Decidable (KeysAscending r) := by
  unfold KeysAscending
  infer_instance

theorem keysAscending_unique (l1 l2 : List pair) (hp : l1.Perm l2) (h1 : KeysAscending l1)
    (h2 : KeysAscending l2) : l1 = l2 := by
  haveI : IsAntisymm pair (fun a b => less a b = true) :=
    ⟨fun a b hab hba => by
      have := strLess_asymm a.key b.key hab
      simp only [less] at hba
      rw [this] at hba
      exact absurd hba (by decide)⟩
  exact List.eq_of_perm_of_sorted hp h1 h2

theorem keysAscending_of_sorted (l : List pair) (hd : KeysDistinct l)
    (hs : l.Pairwise (fun a b => less b a = false)) : KeysAscending l := by
  have hd1 : (l.map pair.key).Pairwise (fun x y => x ≠ y) := hd
  have hd2 := List.pairwise_map.1 hd1
  unfold KeysAscending
  have := hd2.and hs
  refine this.imp ?_
  intro a b hab
  cases h : less a b with
  | true => rfl
  | false => exact absurd (strLess_total a.key b.key h hab.2) hab.1

theorem KeysDistinct.perm (l1 l2 : List pair) (hp : l1.Perm l2) (hd : KeysDistinct l1) :
    KeysDistinct l2 := by
  unfold KeysDistinct at *
  exact (hp.map pair.key).nodup_iff.1 hd

theorem sorter_run_ascending (S : SliceSorter) (r : List pair) (hd : KeysDistinct r) :
    KeysAscending (S.run r) :=
  keysAscending_of_sorted _ (KeysDistinct.perm _ _ (S.perm r).symm hd) (S.sorted r)

theorem sorter_run_perm_eq (S : SliceSorter) (r1 r2 : List pair) (hp : r1.Perm r2)
    (hd : KeysDistinct r1) : S.run r1 = S.run r2 :=
  keysAscending_unique _ _ (((S.perm r1).trans hp).trans (S.perm r2).symm)
    (sorter_run_ascending S r1 hd)
    (sorter_run_ascending S r2 (KeysDistinct.perm _ _ hp hd))

/-! ## Go's insertion sort meets the contract of `sort.Slice` -/

theorem insertBack_perm (x : pair) (l : List pair) : (insertBack x l).Perm (x :: l) := by
  induction l with
  | nil => exact List.Perm.refl _
  | cons y ys ih =>
    simp only [insertBack]
    split
    · exact ((List.Perm.cons y ih).trans (List.Perm.swap x y ys))
    · exact List.Perm.refl _

theorem insertBack_sorted (x : pair) (l : List pair)
    (h : l.Pairwise (fun a b => less a b = false)) :
    (insertBack x l).Pairwise (fun a b => less a b = false) := by
  induction l with
  | nil => simp [insertBack]
  | cons y ys ih =>
    rw [List.pairwise_cons] at h
    simp only [insertBack]
    split
    · rename_i hxy
      rw [List.pairwise_cons]
      refine ⟨?_, ih h.2⟩
      intro z hz
      have hz1 := (insertBack_perm x ys).subset hz
      rcases List.mem_cons.1 hz1 with rfl | hz2
      · exact strLess_asymm _ _ hxy
      · exact h.1 z hz2
    · rename_i hxy
      have hxy1 : less x y = false := by simpa using hxy
      rw [List.pairwise_cons]
      refine ⟨?_, List.pairwise_cons.2 h⟩
      intro z hz
      rcases List.mem_cons.1 hz with rfl | hz2
      · exact hxy1
      · exact strLess_negtrans _ _ _ hxy1 (h.1 z hz2)

theorem foldl_insertBack_perm (r acc : List pair) :
    (r.foldl (fun acc x => insertBack x acc) acc).Perm (r.reverse ++ acc) := by
  induction r generalizing acc with
  | nil => exact List.Perm.refl _
  | cons x xs ih =>
    simp only [List.foldl_cons, List.reverse_cons, List.append_assoc, List.singleton_append]
    exact (ih (insertBack x acc)).trans (List.Perm.append_left _ (insertBack_perm x acc))

theorem foldl_insertBack_sorted (r acc : List pair)
    (h : acc.Pairwise (fun a b => less a b = false)) :
    (r.foldl (fun acc x => insertBack x acc) acc).Pairwise (fun a b => less a b = false) := by
  induction r generalizing acc with
  | nil => exact h
  | cons x xs ih => exact ih _ (insertBack_sorted x acc h)

/-- The behaviour of `sort.Slice` when it runs Go's insertion sort. -/
def insertionSorter : SliceSorter where
  run := insertionSortLess
  perm := fun r => by
    have h := foldl_insertBack_perm r []
    simp only [List.append_nil] at h
    exact (List.reverse_perm _).trans (h.trans (List.reverse_perm r))
  sorted := fun r => by
    unfold insertionSortLess
    rw [List.pairwise_reverse]
    exact foldl_insertBack_sorted r [] List.Pairwise.nil

/-! ## Test data of the repository -/

/-- The constant `testBotToken` of the tests. -/
def testBotToken : GoString := str "123456789:abcdefGHIJKLmnopqrSTUVWXyz123456789"

/-- The six pairs of `TestConstructString_WithFullMap`. -/
def testPairs : List pair := [
  ⟨str "id", str "12345678"⟩,
  ⟨str "first_name", str "John 🕶"⟩,
  ⟨str "last_name", str "Smith"⟩,
  ⟨str "username", str "jsmith"⟩,
  ⟨str "photo_url", str "https://t.me/i/userpic/320/jsmith.jpg"⟩,
  ⟨str "auth_date", str "1512345678"⟩]

/-- The check string `TestConstructString_WithFullMap` expects. -/
def testCheckString : GoString :=
  str "auth_date=1512345678\nfirst_name=John 🕶\nid=12345678\nlast_name=Smith\nphoto_url=https://t.me/i/userpic/320/jsmith.jpg\nusername=jsmith"

/-- The constant `testBotTokenHash` of the v2 tests. -/
def testBotTokenHash : List Nat :=
  (hexDecode (List.replicate 32 0)
    (str "395bfa245bcc417a0baec609b4369cb5943ae6519bedfb8949552b5d103a69c0")).2.1

/-- The hash field of the valid test payload. -/
def testHash : GoString :=
  str "25409759c10beb29bd3f3fe1d16ee0605ac82eb2907d886e196d481371b91501"

/-- The hash field of `TestConvertAndVerifyForm_WithIncorrectHash`: 64 characters `0`. -/
def zeroHash : GoString := List.replicate 64 48

/-- The result of `url.Parse` on the photo URL of the tests, as the tests state it. Other
texts are not needed and are reported as unparsable. -/
def testURLParse (v : GoString) : Option URL :=
  if v = str "https://t.me/i/userpic/320/jsmith.jpg" then
    some { Scheme := str "https", Host := str "t.me", Path := str "/i/userpic/320/jsmith.jpg" }
  else none

/-- The form of `TestConvertAndVerifyForm_WithValidCredentials`, with the given hash field. -/
def testForm (hash : GoString) : List (GoString × List GoString) := [
  (str "auth_date", [str "1512345678"]),
  (str "first_name", [str "John 🕶"]),
  (str "hash", [hash]),
  (str "id", [str "12345678"]),
  (str "last_name", [str "Smith"]),
  (str "photo_url", [str "https://t.me/i/userpic/320/jsmith.jpg"]),
  (str "username", [str "jsmith"])]

/-- The token sequence of the JSON text of `TestConvertAndVerifyJSON_WithValidCredentials`,
with the given hash field. -/
def testJSON (hash : GoString) : Decoder := [
  .tok (.delim 123),
  .tok (.string (str "auth_date")), .tok (.number (str "1512345678")),
  .tok (.string (str "first_name")), .tok (.string (str "John 🕶")),
  .tok (.string (str "hash")), .tok (.string hash),
  .tok (.string (str "id")), .tok (.number (str "12345678")),
  .tok (.string (str "last_name")), .tok (.string (str "Smith")),
  .tok (.string (str "photo_url")), .tok (.string (str "https://t.me/i/userpic/320/jsmith.jpg")),
  .tok (.string (str "username")), .tok (.string (str "jsmith")),
  .tok (.delim 125)]

/-- The `User` the tests expect from the valid payload. -/
def testUser : V2.User where
  AuthDate := .Unix 1512345678
  FirstName := str "John 🕶"
  ID := 12345678
  LastName := str "Smith"
  PhotoURL := some { Scheme := str "https", Host := str "t.me", Path := str "/i/userpic/320/jsmith.jpg" }
  Username := str "jsmith"

/-- The token sequence of the JSON text of `TestConvertAndVerifyJSON_MarksMissingFields`. -/
def testJSONMissing : Decoder := [
  .tok (.delim 123),
  .tok (.string (str "auth_date")), .tok (.number (str "1512345678")),
  .tok (.string (str "id")), .tok (.number (str "12345678")),
  .tok (.string (str "hash")),
  .tok (.string (str "180f7d26839de06e6ecb26148f181553d24e1c62153400da55ae31483ee62ad3")),
  .tok (.delim 125)]

/-- The token sequence of the JSON text `{"id":"x","hash":"zz"}`. -/
def wrongTypeThenBadHash : Decoder := [
  .tok (.delim 123),
  .tok (.string (str "id")), .tok (.string (str "x")),
  .tok (.string (str "hash")), .tok (.string (str "zz")),
  .tok (.delim 125)]

/-- Two pairs out of key order, as a caller's slice. -/
def unsortedPairs : List pair := [⟨str "id", str "12345678"⟩, ⟨str "auth_date", str "1512345678"⟩]

/-- The token sequence of the JSON text `{"id":"x"}`. -/
def wrongTypeID : Decoder := objectScript [(.string (str "id"), .string (str "x"))]

/-- The token sequence of the JSON text `{"id":"x","auth_date":{}}`. -/
def wrongTypeThenNested : Decoder :=
  [.tok (.delim 123), .tok (.string (str "id")), .tok (.string (str "x")),
    .tok (.string (str "auth_date")), .tok (.delim 123), .tok (.delim 125), .tok (.delim 125)]

/-- The token sequence of the JSON text `{"id":1,"id":2}`. -/
def duplicateID : Decoder :=
  objectScript [(.string (str "id"), .number (str "1")), (.string (str "id"), .number (str "2"))]

/-- The test form without its `hash` entry, as in `TestConvertAndVerifyForm_WithoutHash`. -/
def testFormNoHash : List (GoString × List GoString) := [
  (str "auth_date", [str "1512345678"]),
  (str "first_name", [str "John 🕶"]),
  (str "id", [str "12345678"]),
  (str "last_name", [str "Smith"]),
  (str "photo_url", [str "https://t.me/i/userpic/320/jsmith.jpg"]),
  (str "username", [str "jsmith"])]

/-- The token sequence of the JSON text `{"id":-0}`. -/
def negativeZeroID : Decoder := objectScript [(.string (str "id"), .number (str "-0"))]

/-- A form whose `auth_date` has a fractional part. -/
def fractionalAuthDate : List (GoString × List GoString) :=
  [(str "auth_date", [str "1512345678.5"])]

/-! ## The check string -/

theorem foldl_append_lines (rest : List pair) (s : GoString) :
    rest.foldl (fun s p => s ++ [10] ++ p.key ++ [61] ++ p.value) s
      = s ++ rest.flatMap (fun p => [10] ++ renderPair p) := by
  induction rest generalizing s with
  | nil => simp
  | cons p rest ih =>
    rw [List.foldl_cons, ih]
    simp [renderPair, List.append_assoc]

theorem joinLines_cons (x : GoString) (xs : List GoString) :
    joinLines (x :: xs) = x ++ xs.flatMap (fun y => [10] ++ y) := by
  induction xs generalizing x with
  | nil => simp [joinLines]
  | cons y ys ih => simp [joinLines, ih]

theorem constructCheckString_eq_spec (S : SliceSorter) (r : List pair) :
    constructCheckString S r = specCheckString (S.run r) := by
  unfold constructCheckString constructCheckStringSt
  cases r with
  | nil =>
    have h := (S.perm []).eq_nil
    simp [h, specCheckString, joinLines]
  | cons a r =>
    have hne : ¬ (a :: r).length ≤ 0 := by simp
    simp only [hne, if_false]
    cases hrun : S.run (a :: r) with
    | nil => simp [specCheckString, joinLines]
    | cons r0 rest =>
      simp only [specCheckString, List.map_cons, joinLines_cons, foldl_append_lines]
      simp [renderPair, List.flatMap_def, List.map_map, Function.comp_def]

/-! ## Lemmas: hex.Decode -/

theorem hexDecodeLoop_length (src : List Nat) (i : Nat) (dst : List Nat) :
    (hexDecodeLoop src i dst).2.1.length = dst.length := by
  induction src, i, dst using hexDecodeLoop.induct with
  | case1 i dst => simp [hexDecodeLoop]
  | case2 p i dst h => simp [hexDecodeLoop, h]
  | case3 p i dst a h => simp [hexDecodeLoop, h]
  | case4 p q rest i dst h => simp [hexDecodeLoop, h]
  | case5 p q rest i dst a h1 h2 => simp [hexDecodeLoop, h1, h2]
  | case6 p q rest i dst a h1 b h2 ih => simp [hexDecodeLoop, h1, h2, ih]

theorem hexBytes_length (src : List Nat) : (hexBytes src).length = src.length / 2 := by
  induction src using hexBytes.induct with
  | case1 p q rest ih =>
    simp only [hexBytes, List.length_cons, ih]
    omega
  | case2 src h =>
    match src, h with
    | [], _ => rfl
    | [_], _ => simp [hexBytes]
    | p :: q :: rest, h => exact absurd rfl (h p q rest)

theorem hexDecodeLoop_err (src : List Nat) (i : Nat) (dst : List Nat) :
    (hexDecodeLoop src i dst).2.2 = none ↔ (src.length % 2 = 0 ∧ AllHex src) := by
  induction src, i, dst using hexDecodeLoop.induct with
  | case1 i dst => simp [hexDecodeLoop, AllHex]
  | case2 p i dst h => simp [hexDecodeLoop, h]
  | case3 p i dst a h => simp [hexDecodeLoop, h]
  | case4 p q rest i dst h => simp [hexDecodeLoop, h, AllHex]
  | case5 p q rest i dst a h1 h2 => simp [hexDecodeLoop, h1, h2, AllHex]
  | case6 p q rest i dst a h1 b h2 ih =>
    simp only [hexDecodeLoop, h1, h2, ih, List.length_cons, AllHex, List.mem_cons,
      forall_eq_or_imp]
    constructor
    · rintro ⟨hl, hall⟩
      refine ⟨by omega, by simp, by simp, hall⟩
    · rintro ⟨hl, _, _, hall⟩
      exact ⟨by omega, hall⟩

theorem hexDecodeLoop_ok (src : List Nat) (i : Nat) (dst : List Nat) :
    ∀ (pre mid post : List Nat) (n : Nat) (mac : List Nat), i = pre.length →
      dst = pre ++ mid ++ post → mid.length = src.length / 2 →
      hexDecodeLoop src i dst = (n, mac, none) → mac = pre ++ hexBytes src ++ post := by
  induction src, i, dst using hexDecodeLoop.induct with
  | case1 i dst =>
    intro pre mid post n mac _ hdst hmid h
    simp only [hexDecodeLoop, Prod.mk.injEq] at h
    have : mid = [] := by
      apply List.eq_nil_of_length_eq_zero
      simpa using hmid
    rw [← h.2.1, hdst, this]
    simp [hexBytes]
  | case2 p i dst h0 =>
    intro pre mid post n mac _ _ _ h
    simp [hexDecodeLoop, h0] at h
  | case3 p i dst a h0 =>
    intro pre mid post n mac _ _ _ h
    simp [hexDecodeLoop, h0] at h
  | case4 p q rest i dst h0 =>
    intro pre mid post n mac _ _ _ h
    simp [hexDecodeLoop, h0] at h
  | case5 p q rest i dst a h1 h2 =>
    intro pre mid post n mac _ _ _ h
    simp [hexDecodeLoop, h1, h2] at h
  | case6 p q rest i dst a h1 b h2 ih =>
    intro pre mid post n mac hi hdst hmid h
    simp only [hexDecodeLoop, h1, h2] at h
    cases mid with
    | nil =>
      simp only [List.length_nil, List.length_cons] at hmid
      omega
    | cons m mid1 =>
      have hmid1 : mid1.length = rest.length / 2 := by
        simp only [List.length_cons] at hmid
        omega
      have hset : dst.set i ((a <<< 4) ||| b) = (pre ++ [(a <<< 4) ||| b]) ++ mid1 ++ post := by
        rw [hdst, hi]
        simp
      have := ih (pre ++ [(a <<< 4) ||| b]) mid1 post n mac (by simp [hi]) hset hmid1 h
      rw [this]
      simp [hexBytes, h1, h2]

theorem hexDecode_full (v dst : List Nat) (hv : v.length = 64) (hhex : AllHex v)
    (hdst : dst.length = 32) :
    ∃ n, hexDecode dst v = (n, hexBytes v, none) := by
  have herr := (hexDecodeLoop_err v 0 dst).2 ⟨by omega, hhex⟩
  have hlen := hexDecodeLoop_length v 0 dst
  unfold hexDecode
  rcases hres : hexDecodeLoop v 0 dst with ⟨n, mac, e⟩
  rw [hres] at herr hlen
  simp only at herr hlen
  subst herr
  have hmac := hexDecodeLoop_ok v 0 dst [] dst [] n mac rfl (by simp) (by omega) hres
  simp only [List.nil_append, List.append_nil] at hmac
  subst hmac
  exact ⟨n, rfl⟩

/-! ## The adapters: how a parse can end -/

namespace V2

/-- The parse function returned an error, and it is not the sentinel `ErrInvalidHash`. -/
def ParseFailure (r : ParseResult) : Prop := ∃ e, r.err = some e ∧ e ≠ .ErrInvalidHash

theorem hashCase_exit (st : Locals) (v : GoString) (r : ParseResult)
    (h : hashCase st v = .exit r) :
    ParseFailure r ∧ r.expectedMAC.length = st.expectedMAC.length := by
  unfold hashCase at h
  split at h
  · cases h
    exact ⟨⟨_, rfl, by simp⟩, rfl⟩
  · split at h
    · rename_i n mac e heq
      cases h
      refine ⟨⟨_, rfl, by simp⟩, ?_⟩
      have := hexDecodeLoop_length v 0 st.expectedMAC
      unfold hexDecode at heq
      rw [heq] at this
      exact this
    · cases h

theorem hashCase_next (st st1 : Locals) (v : GoString) (h : hashCase st v = .next st1) :
    st1.tu = st.tu ∧ st1.ps = st.ps ∧ st1.expectedMAC.length = st.expectedMAC.length := by
  unfold hashCase at h
  split at h
  · cases h
  · split at h
    · cases h
    · rename_i n mac heq
      cases h
      refine ⟨rfl, rfl, ?_⟩
      have := hexDecodeLoop_length v 0 st.expectedMAC
      unfold hexDecode at heq
      rw [heq] at this
      exact this

theorem formField_exit (P : GoString → Option URL) (st : Locals) (k v : GoString)
    (r : ParseResult) (h : formField P st k v = .exit r) :
    ParseFailure r ∧ r.expectedMAC.length = st.expectedMAC.length := by
  unfold formField at h
  split_ifs at h <;>
    first
    | exact hashCase_exit st v r h
    | (split at h <;>
        first
        | (cases h; exact ⟨⟨_, rfl, by simp⟩, rfl⟩)
        | cases h)

theorem formField_next_mac (P : GoString → Option URL) (st st1 : Locals) (k v : GoString)
    (h : formField P st k v = .next st1) :
    st1.expectedMAC.length = st.expectedMAC.length := by
  unfold formField at h
  split_ifs at h <;>
    first
    | exact (hashCase_next st st1 v h).2.2
    | (split at h <;>
        first
        | (cases h; rfl)
        | cases h)
    | (cases h; rfl)

theorem formLoop_end (P : GoString → Option URL) (f : List (GoString × List GoString))
    (st : Locals) :
    ((formLoop P f st).err = none ∨ ParseFailure (formLoop P f st))
    ∧ (formLoop P f st).expectedMAC.length = st.expectedMAC.length := by
  induction f generalizing st with
  | nil => exact ⟨Or.inl rfl, rfl⟩
  | cons kv rest ih =>
    obtain ⟨k, vs⟩ := kv
    unfold formLoop
    split
    · rename_i v
      split
      · rename_i st1 hnext
        have := ih st1
        rw [formField_next_mac P st st1 k v hnext] at this
        exact this
      · rename_i r hexit
        have := formField_exit P st k v r hexit
        exact ⟨Or.inr this.1, this.2⟩
    · exact ⟨Or.inr ⟨_, rfl, by simp⟩, rfl⟩

theorem parseUserFromForm_end (P : GoString → Option URL)
    (f : List (GoString × List GoString)) :
    ((parseUserFromForm P f).err = none ∨ ParseFailure (parseUserFromForm P f))
    ∧ (parseUserFromForm P f).expectedMAC.length = 32 := by
  have := formLoop_end P f Locals.init
  simpa [parseUserFromForm, Locals.init, sha256Size] using this

theorem jsonField_exit (P : GoString → Option URL) (st : Locals) (k v : Token)
    (r : ParseResult) (h : jsonField P st k v = .returned (.exit r)) :
    ParseFailure r ∧ r.expectedMAC.length = st.expectedMAC.length := by
  unfold jsonField at h
  split_ifs at h <;> (try split at h) <;> (try split at h) <;>
    first
    | exact hashCase_exit _ _ _ (Run.returned.inj h)
    | (cases h; exact ⟨⟨_, rfl, by simp⟩, rfl⟩)
    | cases h

theorem jsonField_next_mac (P : GoString → Option URL) (st st1 : Locals) (k v : Token)
    (h : jsonField P st k v = .returned (.next st1)) :
    st1.expectedMAC.length = st.expectedMAC.length := by
  unfold jsonField at h
  split_ifs at h <;> (try split at h) <;> (try split at h) <;>
    first
    | exact (hashCase_next _ _ _ (Run.returned.inj h)).2.2
    | (cases h; rfl)
    | cases h

theorem jsonLoop_key_only (P : GoString → Option URL) (k : Token) (st : Locals)
    (hk : ∀ c, k ≠ .delim c) :
    jsonLoop P [.tok k] st = .exit ⟨st.tu, [], st.expectedMAC,
      some (.Errorf "expected value, got error: %v" [.decErr .EOF])⟩ := by
  cases k with
  | delim c => exact absurd rfl (hk c)
  | bool b => simp [jsonLoop, Decoder.Token, Decoder.More]
  | number x => simp [jsonLoop, Decoder.Token, Decoder.More]
  | string x => simp [jsonLoop, Decoder.Token, Decoder.More]
  | null => simp [jsonLoop, Decoder.Token, Decoder.More]

theorem jsonLoop_value_err (P : GoString → Option URL) (k : Token) (e : DecodeError)
    (m : Bool) (d2 : Decoder) (st : Locals) (hk : ∀ c, k ≠ .delim c) :
    jsonLoop P (.tok k :: .err e m :: d2) st = .exit ⟨st.tu, [], st.expectedMAC,
      some (.Errorf "expected value, got error: %v" [.decErr e])⟩ := by
  cases k with
  | delim c => exact absurd rfl (hk c)
  | bool b => simp [jsonLoop, Decoder.Token, Decoder.More]
  | number x => simp [jsonLoop, Decoder.Token, Decoder.More]
  | string x => simp [jsonLoop, Decoder.Token, Decoder.More]
  | null => simp [jsonLoop, Decoder.Token, Decoder.More]

theorem jsonLoop_value_delim (P : GoString → Option URL) (k : Token) (c : Nat)
    (d2 : Decoder) (st : Locals) (hk : ∀ c, k ≠ .delim c) :
    jsonLoop P (.tok k :: .tok (.delim c) :: d2) st = .exit ⟨st.tu, [], st.expectedMAC,
      some (.Errorf "expected value, got delimeter: %v" [.token (.delim c)])⟩ := by
  cases k with
  | delim c => exact absurd rfl (hk c)
  | bool b => simp [jsonLoop, Decoder.Token, Decoder.More]
  | number x => simp [jsonLoop, Decoder.Token, Decoder.More]
  | string x => simp [jsonLoop, Decoder.Token, Decoder.More]
  | null => simp [jsonLoop, Decoder.Token, Decoder.More]

theorem jsonLoop_step (P : GoString → Option URL) (k v : Token) (d2 : Decoder) (st : Locals)
    (hk : ∀ c, k ≠ .delim c) (hv : ∀ c, v ≠ .delim c) :
    jsonLoop P (.tok k :: .tok v :: d2) st =
      match jsonField P st k v with
      | .panicked => .panicked
      | .returned (.exit r) => .exit r
      | .returned (.next st1) => jsonLoop P d2 st1 := by
  cases k with
  | delim c => exact absurd rfl (hk c)
  | bool b =>
    cases v with
    | delim c => exact absurd rfl (hv c)
    | bool b => simp [jsonLoop, Decoder.Token, Decoder.More]
    | number x => simp [jsonLoop, Decoder.Token, Decoder.More]
    | string x => simp [jsonLoop, Decoder.Token, Decoder.More]
    | null => simp [jsonLoop, Decoder.Token, Decoder.More]
  | number x =>
    cases v with
    | delim c => exact absurd rfl (hv c)
    | bool b => simp [jsonLoop, Decoder.Token, Decoder.More]
    | number x => simp [jsonLoop, Decoder.Token, Decoder.More]
    | string x => simp [jsonLoop, Decoder.Token, Decoder.More]
    | null => simp [jsonLoop, Decoder.Token, Decoder.More]
  | string x =>
    cases v with
    | delim c => exact absurd rfl (hv c)
    | bool b => simp [jsonLoop, Decoder.Token, Decoder.More]
    | number x => simp [jsonLoop, Decoder.Token, Decoder.More]
    | string x => simp [jsonLoop, Decoder.Token, Decoder.More]
    | null => simp [jsonLoop, Decoder.Token, Decoder.More]
  | null =>
    cases v with
    | delim c => exact absurd rfl (hv c)
    | bool b => simp [jsonLoop, Decoder.Token, Decoder.More]
    | number x => simp [jsonLoop, Decoder.Token, Decoder.More]
    | string x => simp [jsonLoop, Decoder.Token, Decoder.More]
    | null => simp [jsonLoop, Decoder.Token, Decoder.More]

/-- The shape of every run of the `for d.More()` loop: it stops where `More` answers
false, or returns a formatted error, or runs the `switch` on a key and a value token that
are not delimiters and goes on behind them. -/
theorem jsonLoop_cases (P : GoString → Option URL)
    (motive : Decoder → Locals → LoopEnd → Prop)
    (fin : ∀ d st, Decoder.More d = false → motive d st (.finished st d))
    (bad : ∀ d st fmt args,
      motive d st (.exit ⟨st.tu, [], st.expectedMAC, some (.Errorf fmt args)⟩))
    (field : ∀ k v d2 st, (∀ c, k ≠ .delim c) → (∀ c, v ≠ .delim c) →
      (jsonField P st k v = .panicked → motive (.tok k :: .tok v :: d2) st .panicked)
      ∧ (∀ r, jsonField P st k v = .returned (.exit r) →
          motive (.tok k :: .tok v :: d2) st (.exit r))
      ∧ (∀ st1, jsonField P st k v = .returned (.next st1) →
          ∀ e, motive d2 st1 e → motive (.tok k :: .tok v :: d2) st e)) :
    ∀ (n : Nat) (d : Decoder) (st : Locals), d.length ≤ n → motive d st (jsonLoop P d st) := by
  intro n
  induction n with
  | zero =>
    intro d st hlen
    cases d with
    | nil => exact fin [] st rfl
    | cons s d1 => simp at hlen
  | succ n ih =>
    intro d st hlen
    cases d with
    | nil => exact fin [] st rfl
    | cons s d1 =>
      by_cases hmore : Decoder.More (s :: d1) = false
      · have : jsonLoop P (s :: d1) st = .finished st (s :: d1) := by
          simp [jsonLoop, hmore]
        rw [this]
        exact fin _ st hmore
      · have hmore1 : Decoder.More (s :: d1) = true := by simpa using hmore
        cases s with
        | err e m =>
          have : jsonLoop P (.err e m :: d1) st = .exit ⟨st.tu, [], st.expectedMAC,
              some (.Errorf "expected key, got error: %v" [.decErr e])⟩ := by
            simp [jsonLoop, hmore1, Decoder.Token]
          rw [this]
          exact bad _ st _ _
        | tok k =>
          by_cases hk : ∃ c, k = .delim c
          · obtain ⟨c, rfl⟩ := hk
            have : jsonLoop P (.tok (.delim c) :: d1) st = .exit ⟨st.tu, [], st.expectedMAC,
                some (.Errorf "expected key, got delimeter: %v" [.token (.delim c)])⟩ := by
              simp [jsonLoop, hmore1, Decoder.Token]
            rw [this]
            exact bad _ st _ _
          · have hk1 : ∀ c, k ≠ .delim c := fun c hc => hk ⟨c, hc⟩
            cases d1 with
            | nil =>
              rw [jsonLoop_key_only P k st hk1]
              exact bad _ st _ _
            | cons s2 d2 =>
              cases s2 with
              | err e m =>
                rw [jsonLoop_value_err P k e m d2 st hk1]
                exact bad _ st _ _
              | tok v =>
                by_cases hv : ∃ c, v = .delim c
                · obtain ⟨c, rfl⟩ := hv
                  rw [jsonLoop_value_delim P k c d2 st hk1]
                  exact bad _ st _ _
                · have hv1 : ∀ c, v ≠ .delim c := fun c hc => hv ⟨c, hc⟩
                  have hlen2 : d2.length ≤ n := by
                    simp only [List.length_cons] at hlen
                    omega
                  have hstep := jsonLoop_step P k v d2 st hk1 hv1
                  obtain ⟨hp, he, hn⟩ := field k v d2 st hk1 hv1
                  rw [hstep]
                  cases hjf : jsonField P st k v with
                  | panicked => exact hp hjf
                  | returned fl =>
                    cases fl with
                    | exit r => exact he r hjf
                    | next st1 => exact hn st1 hjf _ (ih d2 st1 hlen2)

theorem jsonLoop_end (P : GoString → Option URL) (d : Decoder) (st : Locals) :
    (∀ r, jsonLoop P d st = .exit r →
      ParseFailure r ∧ r.expectedMAC.length = st.expectedMAC.length)
    ∧ (∀ st1 d1, jsonLoop P d st = .finished st1 d1 →
      st1.expectedMAC.length = st.expectedMAC.length) := by
  refine jsonLoop_cases P
    (fun _ st e =>
      (∀ r, e = .exit r → ParseFailure r ∧ r.expectedMAC.length = st.expectedMAC.length)
      ∧ (∀ st1 d1, e = .finished st1 d1 → st1.expectedMAC.length = st.expectedMAC.length))
    ?_ ?_ ?_ d.length d st (Nat.le_refl _)
  · intro d st _
    refine ⟨fun r h => (by cases h), fun st1 d1 h => ?_⟩
    cases h
    rfl
  · intro d st fmt args
    refine ⟨fun r h => ?_, fun st1 d1 h => (by cases h)⟩
    cases h
    exact ⟨⟨_, rfl, by simp⟩, rfl⟩
  · intro k v d2 st _ _
    refine ⟨fun _ => ⟨fun r h => (by cases h), fun st1 d1 h => (by cases h)⟩, ?_, ?_⟩
    · intro r hr
      refine ⟨fun r1 h => ?_, fun st1 d1 h => (by cases h)⟩
      cases h
      exact jsonField_exit P st k v r hr
    · intro st1 hn e ⟨h1, h2⟩
      rw [← jsonField_next_mac P st st1 k v hn]
      exact ⟨h1, h2⟩

theorem parseUserFromJSON_end (P : GoString → Option URL) (d : Decoder) (r : ParseResult)
    (h : parseUserFromJSON P d = .returned r) :
    (r.err = none ∨ ParseFailure r) ∧ r.expectedMAC.length = 32 := by
  have hinit : Locals.init.expectedMAC.length = 32 := by simp [Locals.init, sha256Size]
  unfold parseUserFromJSON at h
  simp only at h
  split at h
  · cases h
    exact ⟨Or.inr ⟨_, rfl, by simp⟩, hinit⟩
  · cases h
    exact ⟨Or.inr ⟨_, rfl, by simp⟩, hinit⟩
  · split at h
    · cases h
      exact ⟨Or.inr ⟨_, rfl, by simp⟩, hinit⟩
    · split at h
      · cases h
      · rename_i res hloop
        cases h
        have := (jsonLoop_end P _ Locals.init).1 r hloop
        exact ⟨Or.inr this.1, this.2.trans hinit⟩
      · rename_i st d1 hloop
        have hlen := ((jsonLoop_end P _ Locals.init).2 st d1 hloop).trans hinit
        split at h
        · cases h
          exact ⟨Or.inr ⟨_, rfl, by simp⟩, hlen⟩
        · cases h
          exact ⟨Or.inr ⟨_, rfl, by simp⟩, hlen⟩
        · split at h
          · cases h
            exact ⟨Or.inr ⟨_, rfl, by simp⟩, hlen⟩
          · split at h
            · cases h
              exact ⟨Or.inr ⟨_, rfl, by simp⟩, hlen⟩
            · cases h
              exact ⟨Or.inl rfl, hlen⟩
            · cases h
              exact ⟨Or.inr ⟨_, rfl, by simp⟩, hlen⟩

theorem ConvertAndVerifyForm_of_parse (S : SliceSorter) (P : GoString → Option URL)
    (f : List (GoString × List GoString)) (key : List Nat) :
    ConvertAndVerifyForm S P f key =
      match (parseUserFromForm P f).err with
      | some e => ((parseUserFromForm P f).tu, some e)
      | none =>
        ((parseUserFromForm P f).tu,
          if (parseUserFromForm P f).expectedMAC
              = hmacSHA256 key (constructCheckString S (parseUserFromForm P f).ps)
          then none else some .ErrInvalidHash) := by
  unfold ConvertAndVerifyForm
  simp only
  cases herr : (parseUserFromForm P f).err with
  | some e => rfl
  | none =>
    by_cases hm : (parseUserFromForm P f).expectedMAC
        = hmacSHA256 key (constructCheckString S (parseUserFromForm P f).ps)
    · have : validate S (parseUserFromForm P f).ps key (parseUserFromForm P f).expectedMAC
          = true := by
        unfold validate
        exact (hmacEqual_iff _ _).2 hm
      rw [this]
      simp [hm]
    · have : validate S (parseUserFromForm P f).ps key (parseUserFromForm P f).expectedMAC
          = false := by
        cases hv : validate S (parseUserFromForm P f).ps key
            (parseUserFromForm P f).expectedMAC with
        | false => rfl
        | true =>
          unfold validate at hv
          exact absurd ((hmacEqual_iff _ _).1 hv) hm
      simp [this, hm]

theorem ConvertAndVerifyJSON_of_parse (S : SliceSorter) (P : GoString → Option URL)
    (d : Decoder) (key : List Nat) :
    ConvertAndVerifyJSON S P d key =
      match parseUserFromJSON P d with
      | .panicked => .panicked
      | .returned r =>
        match r.err with
        | some e => .returned (r.tu, some e)
        | none =>
          .returned (r.tu,
            if r.expectedMAC = hmacSHA256 key (constructCheckString S r.ps)
            then none else some .ErrInvalidHash) := by
  unfold ConvertAndVerifyJSON
  cases hp : parseUserFromJSON P d with
  | panicked => rfl
  | returned r =>
    simp only
    cases herr : r.err with
    | some e => rfl
    | none =>
      by_cases hm : r.expectedMAC = hmacSHA256 key (constructCheckString S r.ps)
      · have : validate S r.ps key r.expectedMAC = true := by
          unfold validate
          exact (hmacEqual_iff _ _).2 hm
        rw [this]
        simp [hm]
      · have : validate S r.ps key r.expectedMAC = false := by
          cases hv : validate S r.ps key r.expectedMAC with
          | false => rfl
          | true =>
            unfold validate at hv
            exact absurd ((hmacEqual_iff _ _).1 hv) hm
        simp [this, hm]

end V2

/-! ## Lemmas: one pass through the `switch` of `parseUserFromForm` -/

namespace V2

theorem formField_id (P : GoString → Option URL) (st : Locals) (v : GoString) :
    formField P st (str "id") v =
      match ParseInt v with
      | (i, some e) => .exit ⟨{ st.tu with ID := i }, [], st.expectedMAC, some (.NumError v e)⟩
      | (i, none) =>
        .next { st with ps := st.ps ++ [⟨str "id", v⟩], tu := { st.tu with ID := i } } := by
  unfold formField
  rw [if_pos rfl]

theorem formField_first_name (P : GoString → Option URL) (st : Locals) (v : GoString) :
    formField P st (str "first_name") v =
      .next { st with ps := st.ps ++ [⟨str "first_name", v⟩],
                      tu := { st.tu with FirstName := v } } := by
  unfold formField
  rw [if_neg (by decide), if_pos rfl]

theorem formField_last_name (P : GoString → Option URL) (st : Locals) (v : GoString) :
    formField P st (str "last_name") v =
      .next { st with ps := st.ps ++ [⟨str "last_name", v⟩],
                      tu := { st.tu with LastName := v } } := by
  unfold formField
  rw [if_neg (by decide), if_neg (by decide), if_pos rfl]

theorem formField_username (P : GoString → Option URL) (st : Locals) (v : GoString) :
    formField P st (str "username") v =
      .next { st with ps := st.ps ++ [⟨str "username", v⟩],
                      tu := { st.tu with Username := v } } := by
  unfold formField
  rw [if_neg (by decide), if_neg (by decide), if_neg (by decide), if_pos rfl]

theorem formField_photo_url (P : GoString → Option URL) (st : Locals) (v : GoString) :
    formField P st (str "photo_url") v =
      match P v with
      | none => .exit ⟨{ st.tu with PhotoURL := none }, [], st.expectedMAC, some (.URLError v)⟩
      | some u =>
        .next { st with ps := st.ps ++ [⟨str "photo_url", v⟩],
                        tu := { st.tu with PhotoURL := some u } } := by
  unfold formField
  rw [if_neg (by decide), if_neg (by decide), if_neg (by decide), if_neg (by decide),
    if_pos rfl]

theorem formField_auth_date (P : GoString → Option URL) (st : Locals) (v : GoString) :
    formField P st (str "auth_date") v =
      match ParseInt v with
      | (_, some e) => .exit ⟨st.tu, [], st.expectedMAC, some (.NumError v e)⟩
      | (seconds, none) =>
        .next { st with ps := st.ps ++ [⟨str "auth_date", v⟩],
                        tu := { st.tu with AuthDate := .Unix seconds } } := by
  unfold formField
  rw [if_neg (by decide), if_neg (by decide), if_neg (by decide), if_neg (by decide),
    if_neg (by decide), if_pos rfl]

theorem formField_hash (P : GoString → Option URL) (st : Locals) (v : GoString) :
    formField P st (str "hash") v = hashCase st v := by
  unfold formField
  rw [if_neg (by decide), if_neg (by decide), if_neg (by decide), if_neg (by decide),
    if_neg (by decide), if_neg (by decide), if_pos rfl]

theorem formField_other (P : GoString → Option URL) (st : Locals) (k v : GoString)
    (hk : k ∉ recognizedKeys) : formField P st k v = .next st := by
  simp only [recognizedKeys, pairKeys, List.cons_append, List.nil_append, List.mem_cons,
    List.mem_singleton, not_or, List.not_mem_nil, or_false] at hk
  obtain ⟨h1, h2, h3, h4, h5, h6, h7⟩ := hk
  unfold formField
  rw [if_neg h1, if_neg h2, if_neg h3, if_neg h4, if_neg h5, if_neg h6, if_neg h7]

/-- What a pass through the `switch` of `parseUserFromForm` that does not return has done,
by the key. -/
theorem formField_next_cases (P : GoString → Option URL) (st st1 : Locals) (k v : GoString)
    (h : formField P st k v = .next st1) :
    (k = str "id" ∧ (ParseInt v).2 = none
      ∧ st1 = ⟨{ st.tu with ID := (ParseInt v).1 }, st.ps ++ [⟨k, v⟩], st.expectedMAC⟩)
    ∨ (k = str "first_name"
      ∧ st1 = ⟨{ st.tu with FirstName := v }, st.ps ++ [⟨k, v⟩], st.expectedMAC⟩)
    ∨ (k = str "last_name"
      ∧ st1 = ⟨{ st.tu with LastName := v }, st.ps ++ [⟨k, v⟩], st.expectedMAC⟩)
    ∨ (k = str "username"
      ∧ st1 = ⟨{ st.tu with Username := v }, st.ps ++ [⟨k, v⟩], st.expectedMAC⟩)
    ∨ (k = str "photo_url" ∧ (P v).isSome
      ∧ st1 = ⟨{ st.tu with PhotoURL := P v }, st.ps ++ [⟨k, v⟩], st.expectedMAC⟩)
    ∨ (k = str "auth_date" ∧ (ParseInt v).2 = none
      ∧ st1 = ⟨{ st.tu with AuthDate := .Unix (ParseInt v).1 }, st.ps ++ [⟨k, v⟩],
          st.expectedMAC⟩)
    ∨ (k = str "hash" ∧ hexDecodedLen v.length = sha256Size
      ∧ (hexDecode st.expectedMAC v).2.2 = none
      ∧ st1 = ⟨st.tu, st.ps, (hexDecode st.expectedMAC v).2.1⟩)
    ∨ (k ∉ recognizedKeys ∧ st1 = st) := by
  by_cases h1 : k = str "id"
  · subst h1
    rw [formField_id] at h
    rcases hp : ParseInt v with ⟨i, e⟩
    rw [hp] at h
    cases e with
    | some e => cases h
    | none =>
      cases h
      exact Or.inl ⟨rfl, rfl, rfl⟩
  by_cases h2 : k = str "first_name"
  · subst h2
    rw [formField_first_name] at h
    cases h
    exact Or.inr (Or.inl ⟨rfl, rfl⟩)
  by_cases h3 : k = str "last_name"
  · subst h3
    rw [formField_last_name] at h
    cases h
    exact Or.inr (Or.inr (Or.inl ⟨rfl, rfl⟩))
  by_cases h4 : k = str "username"
  · subst h4
    rw [formField_username] at h
    cases h
    exact Or.inr (Or.inr (Or.inr (Or.inl ⟨rfl, rfl⟩)))
  by_cases h5 : k = str "photo_url"
  · subst h5
    rw [formField_photo_url] at h
    cases hp : P v with
    | none => rw [hp] at h; cases h
    | some u =>
      rw [hp] at h
      cases h
      exact Or.inr (Or.inr (Or.inr (Or.inr (Or.inl ⟨rfl, rfl, rfl⟩))))
  by_cases h6 : k = str "auth_date"
  · subst h6
    rw [formField_auth_date] at h
    rcases hp : ParseInt v with ⟨i, e⟩
    rw [hp] at h
    cases e with
    | some e => cases h
    | none =>
      cases h
      exact Or.inr (Or.inr (Or.inr (Or.inr (Or.inr (Or.inl ⟨rfl, rfl, rfl⟩)))))
  by_cases h7 : k = str "hash"
  · subst h7
    rw [formField_hash] at h
    unfold hashCase at h
    split at h
    · cases h
    · rename_i hlen
      rcases hd : hexDecode st.expectedMAC v with ⟨n, mac, e⟩
      rw [hd] at h
      cases e with
      | some e => cases h
      | none =>
        cases h
        refine Or.inr (Or.inr (Or.inr (Or.inr (Or.inr (Or.inr (Or.inl ⟨rfl, ?_, rfl, rfl⟩))))))
        simpa using hlen
  · have hk : k ∉ recognizedKeys := by
      simp [recognizedKeys, pairKeys, h1, h2, h3, h4, h5, h6, h7]
    rw [formField_other P st k v hk] at h
    cases h
    exact Or.inr (Or.inr (Or.inr (Or.inr (Or.inr (Or.inr (Or.inr ⟨hk, rfl⟩))))))

theorem formLoop_cons_ok (P : GoString → Option URL) (k : GoString) (vs : List GoString)
    (rest : List (GoString × List GoString)) (st : Locals)
    (h : (formLoop P ((k, vs) :: rest) st).err = none) :
    ∃ v st1, vs = [v] ∧ formField P st k v = .next st1
      ∧ formLoop P ((k, vs) :: rest) st = formLoop P rest st1 := by
  match vs, h with
  | [], h => simp [formLoop] at h
  | _ :: _ :: _, h => simp [formLoop] at h
  | [v], h =>
    cases hf : formField P st k v with
    | next st1 => exact ⟨v, st1, rfl, hf, by simp [formLoop, hf]⟩
    | exit r =>
      obtain ⟨e, he, _⟩ := (formField_exit P st k v r hf).1
      simp [formLoop, hf, he] at h

/-- Tracking one component `X` of the locals through a successful `range` loop: it keeps
its value when the key `K` that sets it is absent, and holds `g v` when `K` is submitted
with the value `v` in a form with distinct keys. -/
theorem formLoop_track {α : Type} (P : GoString → Option URL) (K : GoString)
    (X : Locals → α) (g : GoString → α)
    (frame : ∀ st k v st1, st.expectedMAC.length = 32 → formField P st k v = .next st1 →
      k ≠ K → X st1 = X st)
    (set : ∀ st v st1, st.expectedMAC.length = 32 → formField P st K v = .next st1 →
      X st1 = g v) :
    ∀ (f : List (GoString × List GoString)) (st : Locals), st.expectedMAC.length = 32 →
      (formLoop P f st).err = none →
      (K ∉ formKeys f → X (formLoop P f st).locals = X st)
      ∧ ((formKeys f).Nodup → ∀ v, (K, [v]) ∈ f → X (formLoop P f st).locals = g v) := by
  intro f
  induction f with
  | nil =>
    intro st _ _
    exact ⟨fun _ => rfl, fun _ v hv => by simp at hv⟩
  | cons kv rest ih =>
    obtain ⟨k, vs⟩ := kv
    intro st hlen hok
    obtain ⟨v, st1, hvs, hf, hloop⟩ := formLoop_cons_ok P k vs rest st hok
    have hlen1 : st1.expectedMAC.length = 32 := (formField_next_mac P st st1 k v hf).trans hlen
    rw [hloop] at hok ⊢
    obtain ⟨ih1, ih2⟩ := ih st1 hlen1 hok
    constructor
    · intro hK
      simp only [formKeys, List.map_cons, List.mem_cons, not_or] at hK
      rw [ih1 hK.2]
      exact frame st k v st1 hlen hf (fun h => hK.1 h.symm)
    · intro hnd w hw
      simp only [formKeys, List.map_cons, List.nodup_cons] at hnd
      rcases List.mem_cons.1 hw with heq | hmem
      · simp only [Prod.mk.injEq] at heq
        obtain ⟨hKk, hwv⟩ := heq
        subst hKk
        rw [hvs] at hwv
        cases hwv
        rw [ih1 hnd.1]
        exact set st v st1 hlen hf
      · exact ih2 hnd.2 w hmem

theorem formField_next_ps (P : GoString → Option URL) (st st1 : Locals) (k v : GoString)
    (h : formField P st k v = .next st1) :
    st1.ps = st.ps ++ (if k ∈ pairKeys then [⟨k, v⟩] else []) := by
  rcases formField_next_cases P st st1 k v h with
    ⟨rfl, _, rfl⟩ | ⟨rfl, rfl⟩ | ⟨rfl, rfl⟩ | ⟨rfl, rfl⟩ | ⟨rfl, _, rfl⟩ | ⟨rfl, _, rfl⟩
    | ⟨rfl, _, _, rfl⟩ | ⟨hk, rfl⟩
  · rw [if_pos (by decide)]
  · rw [if_pos (by decide)]
  · rw [if_pos (by decide)]
  · rw [if_pos (by decide)]
  · rw [if_pos (by decide)]
  · rw [if_pos (by decide)]
  · rw [if_neg (by decide)]; simp
  · have : k ∉ pairKeys := fun hmem => hk (by simp [recognizedKeys, hmem])
    rw [if_neg this]; simp

theorem formPairs_cons_single (k v : GoString) (rest : List (GoString × List GoString)) :
    formPairs ((k, [v]) :: rest) = (if k ∈ pairKeys then [⟨k, v⟩] else []) ++ formPairs rest := by
  unfold formPairs
  by_cases hk : k ∈ pairKeys <;> simp [List.filterMap_cons, hk]

theorem formLoop_ps (P : GoString → Option URL) (f : List (GoString × List GoString)) :
    ∀ st : Locals, (formLoop P f st).err = none →
      (formLoop P f st).ps = st.ps ++ formPairs f := by
  induction f with
  | nil =>
    intro st _
    simp [formLoop, formPairs]
  | cons kv rest ih =>
    obtain ⟨k, vs⟩ := kv
    intro st hok
    obtain ⟨v, st1, hvs, hf, hloop⟩ := formLoop_cons_ok P k vs rest st hok
    rw [hloop] at hok ⊢
    rw [ih st1 hok, formField_next_ps P st st1 k v hf, hvs, formPairs_cons_single,
      List.append_assoc]

theorem formLoop_single_valued (P : GoString → Option URL)
    (f : List (GoString × List GoString)) :
    ∀ st : Locals, (formLoop P f st).err = none → ∀ kv ∈ f, kv.2.length = 1 := by
  induction f with
  | nil => intro st _ kv hkv; simp at hkv
  | cons kv rest ih =>
    obtain ⟨k, vs⟩ := kv
    intro st hok kv1 hkv1
    obtain ⟨v, st1, hvs, hf, hloop⟩ := formLoop_cons_ok P k vs rest st hok
    rw [hloop] at hok
    rcases List.mem_cons.1 hkv1 with rfl | hmem
    · simp [hvs]
    · exact ih st1 hok kv1 hmem

/-- The value of each `User` field and of the expected tag after a successful parse of a
form: the zero value when the field's key is absent, and the parsed value of the submitted
text when the keys are distinct. -/
theorem parseUserFromForm_fields (P : GoString → Option URL)
    (f : List (GoString × List GoString)) (hok : (parseUserFromForm P f).err = none) :
    ((str "id" ∉ formKeys f → (parseUserFromForm P f).tu.ID = 0)
      ∧ (str "first_name" ∉ formKeys f → (parseUserFromForm P f).tu.FirstName = [])
      ∧ (str "last_name" ∉ formKeys f → (parseUserFromForm P f).tu.LastName = [])
      ∧ (str "username" ∉ formKeys f → (parseUserFromForm P f).tu.Username = [])
      ∧ (str "photo_url" ∉ formKeys f → (parseUserFromForm P f).tu.PhotoURL = none)
      ∧ (str "auth_date" ∉ formKeys f → (parseUserFromForm P f).tu.AuthDate = .zero)
      ∧ (str "hash" ∉ formKeys f →
          (parseUserFromForm P f).expectedMAC = List.replicate 32 0))
    ∧ ((formKeys f).Nodup →
      (∀ v, (str "id", [v]) ∈ f → (parseUserFromForm P f).tu.ID = (ParseInt v).1)
      ∧ (∀ v, (str "first_name", [v]) ∈ f → (parseUserFromForm P f).tu.FirstName = v)
      ∧ (∀ v, (str "last_name", [v]) ∈ f → (parseUserFromForm P f).tu.LastName = v)
      ∧ (∀ v, (str "username", [v]) ∈ f → (parseUserFromForm P f).tu.Username = v)
      ∧ (∀ v, (str "photo_url", [v]) ∈ f → (parseUserFromForm P f).tu.PhotoURL = P v)
      ∧ (∀ v, (str "auth_date", [v]) ∈ f →
          (parseUserFromForm P f).tu.AuthDate = .Unix (ParseInt v).1)
      ∧ (∀ v, (str "hash", [v]) ∈ f →
          (parseUserFromForm P f).expectedMAC = hexBytes v)) := by
  have hinit : Locals.init.expectedMAC.length = 32 := by simp [Locals.init, sha256Size]
  have tID := formLoop_track P (str "id") (fun st => st.tu.ID) (fun v => (ParseInt v).1)
    (by
      intro st k v st1 _ h hk
      rcases formField_next_cases P st st1 k v h with
        ⟨rfl, _, rfl⟩ | ⟨rfl, rfl⟩ | ⟨rfl, rfl⟩ | ⟨rfl, rfl⟩ | ⟨rfl, _, rfl⟩ | ⟨rfl, _, rfl⟩
        | ⟨rfl, _, _, rfl⟩ | ⟨_, rfl⟩
      all_goals first | rfl | exact absurd rfl hk)
    (by
      intro st v st1 _ h
      rcases formField_next_cases P st st1 _ v h with
        ⟨_, _, rfl⟩ | ⟨hk, _⟩ | ⟨hk, _⟩ | ⟨hk, _⟩
        | ⟨hk, _⟩ | ⟨hk, _⟩ | ⟨hk, _⟩ | ⟨hk, _⟩
      all_goals first | rfl | exact absurd hk (by decide))
    f Locals.init hinit hok
  have tFirst := formLoop_track P (str "first_name") (fun st => st.tu.FirstName) (fun v => v)
    (by
      intro st k v st1 _ h hk
      rcases formField_next_cases P st st1 k v h with
        ⟨rfl, _, rfl⟩ | ⟨rfl, rfl⟩ | ⟨rfl, rfl⟩ | ⟨rfl, rfl⟩ | ⟨rfl, _, rfl⟩ | ⟨rfl, _, rfl⟩
        | ⟨rfl, _, _, rfl⟩ | ⟨_, rfl⟩
      all_goals first | rfl | exact absurd rfl hk)
    (by
      intro st v st1 _ h
      rcases formField_next_cases P st st1 _ v h with
        ⟨hk, _⟩ | ⟨_, rfl⟩ | ⟨hk, _⟩ | ⟨hk, _⟩
        | ⟨hk, _⟩ | ⟨hk, _⟩ | ⟨hk, _⟩ | ⟨hk, _⟩
      all_goals first | rfl | exact absurd hk (by decide))
    f Locals.init hinit hok
  have tLast := formLoop_track P (str "last_name") (fun st => st.tu.LastName) (fun v => v)
    (by
      intro st k v st1 _ h hk
      rcases formField_next_cases P st st1 k v h with
        ⟨rfl, _, rfl⟩ | ⟨rfl, rfl⟩ | ⟨rfl, rfl⟩ | ⟨rfl, rfl⟩ | ⟨rfl, _, rfl⟩ | ⟨rfl, _, rfl⟩
        | ⟨rfl, _, _, rfl⟩ | ⟨_, rfl⟩
      all_goals first | rfl | exact absurd rfl hk)
    (by
      intro st v st1 _ h
      rcases formField_next_cases P st st1 _ v h with
        ⟨hk, _⟩ | ⟨hk, _⟩ | ⟨_, rfl⟩ | ⟨hk, _⟩
        | ⟨hk, _⟩ | ⟨hk, _⟩ | ⟨hk, _⟩ | ⟨hk, _⟩
      all_goals first | rfl | exact absurd hk (by decide))
    f Locals.init hinit hok
  have tUser := formLoop_track P (str "username") (fun st => st.tu.Username) (fun v => v)
    (by
      intro st k v st1 _ h hk
      rcases formField_next_cases P st st1 k v h with
        ⟨rfl, _, rfl⟩ | ⟨rfl, rfl⟩ | ⟨rfl, rfl⟩ | ⟨rfl, rfl⟩ | ⟨rfl, _, rfl⟩ | ⟨rfl, _, rfl⟩
        | ⟨rfl, _, _, rfl⟩ | ⟨_, rfl⟩
      all_goals first | rfl | exact absurd rfl hk)
    (by
      intro st v st1 _ h
      rcases formField_next_cases P st st1 _ v h with
        ⟨hk, _⟩ | ⟨hk, _⟩ | ⟨hk, _⟩ | ⟨_, rfl⟩
        | ⟨hk, _⟩ | ⟨hk, _⟩ | ⟨hk, _⟩ | ⟨hk, _⟩
      all_goals first | rfl | exact absurd hk (by decide))
    f Locals.init hinit hok
  have tPhoto := formLoop_track P (str "photo_url") (fun st => st.tu.PhotoURL) (fun v => P v)
    (by
      intro st k v st1 _ h hk
      rcases formField_next_cases P st st1 k v h with
        ⟨rfl, _, rfl⟩ | ⟨rfl, rfl⟩ | ⟨rfl, rfl⟩ | ⟨rfl, rfl⟩ | ⟨rfl, _, rfl⟩ | ⟨rfl, _, rfl⟩
        | ⟨rfl, _, _, rfl⟩ | ⟨_, rfl⟩
      all_goals first | rfl | exact absurd rfl hk)
    (by
      intro st v st1 _ h
      rcases formField_next_cases P st st1 _ v h with
        ⟨hk, _⟩ | ⟨hk, _⟩ | ⟨hk, _⟩ | ⟨hk, _⟩
        | ⟨_, _, rfl⟩ | ⟨hk, _⟩ | ⟨hk, _⟩ | ⟨hk, _⟩
      all_goals first | rfl | exact absurd hk (by decide))
    f Locals.init hinit hok
  have tAuth := formLoop_track P (str "auth_date") (fun st => st.tu.AuthDate) (fun v => Time.Unix (ParseInt v).1)
    (by
      intro st k v st1 _ h hk
      rcases formField_next_cases P st st1 k v h with
        ⟨rfl, _, rfl⟩ | ⟨rfl, rfl⟩ | ⟨rfl, rfl⟩ | ⟨rfl, rfl⟩ | ⟨rfl, _, rfl⟩ | ⟨rfl, _, rfl⟩
        | ⟨rfl, _, _, rfl⟩ | ⟨_, rfl⟩
      all_goals first | rfl | exact absurd rfl hk)
    (by
      intro st v st1 _ h
      rcases formField_next_cases P st st1 _ v h with
        ⟨hk, _⟩ | ⟨hk, _⟩ | ⟨hk, _⟩ | ⟨hk, _⟩
        | ⟨hk, _⟩ | ⟨_, _, rfl⟩ | ⟨hk, _⟩ | ⟨hk, _⟩
      all_goals first | rfl | exact absurd hk (by decide))
    f Locals.init hinit hok
  have tMac := formLoop_track P (str "hash") (fun st => st.expectedMAC) hexBytes
    (by
      intro st k v st1 _ h hk
      rcases formField_next_cases P st st1 k v h with
        ⟨rfl, _, rfl⟩ | ⟨rfl, rfl⟩ | ⟨rfl, rfl⟩ | ⟨rfl, rfl⟩ | ⟨rfl, _, rfl⟩ | ⟨rfl, _, rfl⟩
        | ⟨rfl, _, _, rfl⟩ | ⟨_, rfl⟩
      all_goals first | rfl | exact absurd rfl hk)
    (by
      intro st v st1 hlen h
      rcases formField_next_cases P st st1 _ v h with
        ⟨hk, _⟩ | ⟨hk, _⟩ | ⟨hk, _⟩ | ⟨hk, _⟩
        | ⟨hk, _⟩ | ⟨hk, _⟩ | ⟨_, hl, herr, rfl⟩ | ⟨hk, _⟩
      all_goals first | exact absurd hk (by decide) | skip
      · have h2 := (hexDecodeLoop_err v 0 st.expectedMAC).1 herr
        have hl2 : v.length / 2 = 32 := hl
        obtain ⟨n, hfull⟩ := hexDecode_full v st.expectedMAC (by omega) h2.2 hlen
        simp [hfull])
    f Locals.init hinit hok
  exact ⟨⟨tID.1, tFirst.1, tLast.1, tUser.1, tPhoto.1, tAuth.1, tMac.1⟩,
    fun hnd => ⟨tID.2 hnd, tFirst.2 hnd, tLast.2 hnd, tUser.2 hnd, tPhoto.2 hnd, tAuth.2 hnd,
      tMac.2 hnd⟩⟩

theorem formLoop_failure_of_mem (P : GoString → Option URL) (kv : GoString × List GoString)
    (hbad : ∀ st rest, ParseFailure (formLoop P (kv :: rest) st)) :
    ∀ (f : List (GoString × List GoString)) (st : Locals), kv ∈ f →
      ParseFailure (formLoop P f st) := by
  intro f
  induction f with
  | nil => intro st h; simp at h
  | cons kv1 rest ih =>
    intro st hmem
    rcases List.mem_cons.1 hmem with rfl | hrest
    · exact hbad st rest
    · rcases (formLoop_end P (kv1 :: rest) st).1 with hok | hfail
      · obtain ⟨k, vs⟩ := kv1
        obtain ⟨v, st1, _, _, hloop⟩ := formLoop_cons_ok P k vs rest st hok
        rw [hloop]
        exact ih st1 hrest
      · exact hfail

theorem formLoop_not_single (P : GoString → Option URL) (k : GoString) (vs : List GoString)
    (hvs : vs.length ≠ 1) (st : Locals) (rest : List (GoString × List GoString)) :
    formLoop P ((k, vs) :: rest) st = ⟨st.tu, [], st.expectedMAC, some .ErrNotSingleValue⟩ := by
  match vs, hvs with
  | [], _ => rfl
  | [_], h => simp at h
  | _ :: _ :: _, _ => rfl

theorem hashCase_malformed (st : Locals) (v : GoString) (hv : v.length ≠ 64 ∨ ¬ AllHex v) :
    ∃ r, hashCase st v = .exit r := by
  unfold hashCase
  by_cases hl : hexDecodedLen v.length ≠ sha256Size
  · rw [if_pos hl]
    exact ⟨_, rfl⟩
  · rw [if_neg hl]
    have hl2 : v.length / 2 = 32 := by simpa [hexDecodedLen, sha256Size] using hl
    have herr : (hexDecode st.expectedMAC v).2.2 ≠ none := by
      intro h
      have h2 := (hexDecodeLoop_err v 0 st.expectedMAC).1 h
      rcases hv with hlen | hhex
      · omega
      · exact hhex h2.2
    rcases hd : hexDecode st.expectedMAC v with ⟨n, mac, e⟩
    rw [hd] at herr
    cases e with
    | none => exact absurd rfl herr
    | some e => exact ⟨_, rfl⟩

theorem formLoop_malformed_hash (P : GoString → Option URL) (v : GoString)
    (hv : v.length ≠ 64 ∨ ¬ AllHex v) (st : Locals)
    (rest : List (GoString × List GoString)) :
    ParseFailure (formLoop P ((str "hash", [v]) :: rest) st) := by
  obtain ⟨r, hr⟩ := hashCase_malformed st v hv
  have hf : formField P st (str "hash") v = .exit r := by rw [formField_hash, hr]
  have : formLoop P ((str "hash", [v]) :: rest) st = r := by simp [formLoop, hf]
  rw [this]
  exact (formField_exit P st _ v r hf).1

theorem ConvertAndVerifyForm_of_failure (S : SliceSorter) (P : GoString → Option URL)
    (f : List (GoString × List GoString)) (key : List Nat)
    (h : ParseFailure (parseUserFromForm P f)) :
    ∃ e, ConvertAndVerifyForm S P f key = ((parseUserFromForm P f).tu, some e)
      ∧ e ≠ .ErrInvalidHash := by
  obtain ⟨e, he, hne⟩ := h
  refine ⟨e, ?_, hne⟩
  rw [ConvertAndVerifyForm_of_parse, he]

theorem formField_next_of_good (P : GoString → Option URL) (st : Locals) (k v : GoString)
    (hlen : st.expectedMAC.length = 32)
    (hid : k = str "id" → (ParseInt v).2 = none)
    (hauth : k = str "auth_date" → (ParseInt v).2 = none)
    (hphoto : k = str "photo_url" → (P v).isSome)
    (hhash : k = str "hash" → v.length = 64 ∧ AllHex v) :
    ∃ st1, formField P st k v = .next st1 := by
  by_cases h1 : k = str "id"
  · subst h1
    rw [formField_id]
    rcases hp : ParseInt v with ⟨i, e⟩
    have := hid rfl
    rw [hp] at this
    simp only at this
    subst this
    exact ⟨_, rfl⟩
  by_cases h2 : k = str "first_name"
  · subst h2; exact ⟨_, formField_first_name P st v⟩
  by_cases h3 : k = str "last_name"
  · subst h3; exact ⟨_, formField_last_name P st v⟩
  by_cases h4 : k = str "username"
  · subst h4; exact ⟨_, formField_username P st v⟩
  by_cases h5 : k = str "photo_url"
  · subst h5
    rw [formField_photo_url]
    cases hp : P v with
    | none =>
      have := hphoto rfl
      rw [hp] at this
      exact absurd this (by decide)
    | some u => exact ⟨_, rfl⟩
  by_cases h6 : k = str "auth_date"
  · subst h6
    rw [formField_auth_date]
    rcases hp : ParseInt v with ⟨i, e⟩
    have := hauth rfl
    rw [hp] at this
    simp only at this
    subst this
    exact ⟨_, rfl⟩
  by_cases h7 : k = str "hash"
  · subst h7
    obtain ⟨hl, hhex⟩ := hhash rfl
    obtain ⟨n, hfull⟩ := hexDecode_full v st.expectedMAC hl hhex hlen
    rw [formField_hash]
    unfold hashCase
    rw [if_neg (by simp [hexDecodedLen, sha256Size, hl]), hfull]
    exact ⟨_, rfl⟩
  · have hk : k ∉ recognizedKeys := by
      simp [recognizedKeys, pairKeys, h1, h2, h3, h4, h5, h6, h7]
    exact ⟨st, formField_other P st k v hk⟩

theorem formLoop_ok_of_good (P : GoString → Option URL)
    (f : List (GoString × List GoString))
    (hsingle : ∀ kv ∈ f, kv.2.length = 1)
    (hid : ∀ v, (str "id", [v]) ∈ f → (ParseInt v).2 = none)
    (hauth : ∀ v, (str "auth_date", [v]) ∈ f → (ParseInt v).2 = none)
    (hphoto : ∀ v, (str "photo_url", [v]) ∈ f → (P v).isSome)
    (hhash : ∀ v, (str "hash", [v]) ∈ f → v.length = 64 ∧ AllHex v) :
    ∀ st : Locals, st.expectedMAC.length = 32 → (formLoop P f st).err = none := by
  induction f with
  | nil => intro st _; rfl
  | cons kv rest ih =>
    obtain ⟨k, vs⟩ := kv
    intro st hlen
    have h1 := hsingle (k, vs) (List.mem_cons_self _ _)
    obtain ⟨v, rfl⟩ : ∃ v, vs = [v] := by
      match vs, h1 with
      | [v], _ => exact ⟨v, rfl⟩
    obtain ⟨st1, hf⟩ := formField_next_of_good P st k v hlen
      (fun hk => hid v (by rw [← hk]; exact List.mem_cons_self _ _))
      (fun hk => hauth v (by rw [← hk]; exact List.mem_cons_self _ _))
      (fun hk => hphoto v (by rw [← hk]; exact List.mem_cons_self _ _))
      (fun hk => hhash v (by rw [← hk]; exact List.mem_cons_self _ _))
    have hloop : formLoop P ((k, [v]) :: rest) st = formLoop P rest st1 := by
      simp [formLoop, hf]
    rw [hloop]
    exact ih (fun kv h => hsingle kv (List.mem_cons_of_mem _ h))
      (fun w h => hid w (List.mem_cons_of_mem _ h))
      (fun w h => hauth w (List.mem_cons_of_mem _ h))
      (fun w h => hphoto w (List.mem_cons_of_mem _ h))
      (fun w h => hhash w (List.mem_cons_of_mem _ h))
      st1 ((formField_next_mac P st st1 k v hf).trans hlen)

end V2

/-! ## Lemmas: strconv.ParseInt on base-10 texts -/

theorem foldl_digits_ge (ds : List Nat) (n : Nat) :
    n ≤ ds.foldl (fun n c => n * 10 + (c - 48)) n := by
  induction ds generalizing n with
  | nil => exact Nat.le_refl _
  | cons c cs ih =>
    have := ih (n * 10 + (c - 48))
    simp only [List.foldl_cons]
    omega

theorem parseUintLoop_digits (ds : List Nat) (n : Nat) (hd : ∀ c ∈ ds, 48 ≤ c ∧ c ≤ 57)
    (hmax : ds.foldl (fun n c => n * 10 + (c - 48)) n ≤ 18446744073709551615) :
    parseUintLoop ds n = (ds.foldl (fun n c => n * 10 + (c - 48)) n, none) := by
  induction ds generalizing n with
  | nil => rfl
  | cons c cs ih =>
    have hc := hd c (List.mem_cons_self _ _)
    simp only [List.foldl_cons] at hmax ⊢
    have hge := foldl_digits_ge cs (n * 10 + (c - 48))
    unfold parseUintLoop
    rw [if_pos hc, if_neg (by omega)]
    simp only
    rw [if_neg (by omega)]
    exact ih _ (fun c hc => hd c (List.mem_cons_of_mem _ hc)) hmax

theorem ParseUint_digits (ds : List Nat) (hd : IsDigits ds)
    (hmax : decimalValue ds ≤ 18446744073709551615) :
    ParseUint ds = (decimalValue ds, none) := by
  unfold ParseUint
  rw [if_neg hd.1]
  exact parseUintLoop_digits ds 0 hd.2 hmax

theorem ParseInt_of_int64Text (v : GoString) (n : Int) (h : Int64Text v n) :
    ParseInt v = (n, none) := by
  rcases h with ⟨hd, hlt, rfl⟩ | ⟨ds, rfl, hd, hlt, rfl⟩ | ⟨ds, rfl, hd, hle, rfl⟩
  · match v, hd with
    | [], hd => exact absurd rfl hd.1
    | c :: cs, hd =>
      have hc := hd.2 c (List.mem_cons_self _ _)
      have h43 : (c == 43) = false := by simp; omega
      have h45 : (c == 45) = false := by simp; omega
      have hu := ParseUint_digits (c :: cs) hd (by omega)
      simp only [ParseInt, h43, h45, Bool.or_self, Bool.false_eq_true, if_false, hu]
      simp only [Bool.not_false, Bool.true_and, Bool.false_and, decide_eq_true_eq]
      rw [if_neg (by omega)]
      simp
  · have hu := ParseUint_digits ds hd (by omega)
    simp only [ParseInt, beq_self_eq_true, Bool.true_or, if_true, hu]
    have h45 : ((43 : Nat) == 45) = false := by decide
    simp only [h45, Bool.not_false, Bool.true_and, Bool.false_and, decide_eq_true_eq]
    rw [if_neg (by omega)]
    simp
  · have hu := ParseUint_digits ds hd (by omega)
    simp only [ParseInt, beq_self_eq_true, Bool.or_true, if_true, hu]
    simp only [Bool.not_true, Bool.false_and, Bool.true_and, decide_eq_true_eq]
    simp only [Bool.false_eq_true, if_false]
    rw [if_neg (by omega)]

theorem int64Text_of_value (v : GoString) (n : Int) (h : int64Value v = some n) :
    Int64Text v n := by
  unfold int64Value at h
  split at h
  · rename_i ds
    split at h
    · rename_i hc
      cases h
      exact Or.inr (Or.inl ⟨ds, rfl, hc.1, hc.2, rfl⟩)
    · cases h
  · rename_i ds
    split at h
    · rename_i hc
      cases h
      exact Or.inr (Or.inr ⟨ds, rfl, hc.1, hc.2, rfl⟩)
    · cases h
  · split at h
    · rename_i hc
      cases h
      exact Or.inl ⟨hc.1, hc.2, rfl⟩
    · cases h

theorem ParseInt_of_value (v : GoString) (n : Int) (h : int64Value v = some n) :
    ParseInt v = (n, none) :=
  ParseInt_of_int64Text v n (int64Text_of_value v n h)

namespace V2

theorem formKeys_unique (f : List (GoString × List GoString)) (hnd : (formKeys f).Nodup)
    (k : GoString) (a b : List GoString) (ha : (k, a) ∈ f) (hb : (k, b) ∈ f) : a = b := by
  induction f with
  | nil => simp at ha
  | cons kv rest ih =>
    simp only [formKeys, List.map_cons, List.nodup_cons] at hnd
    have hkey : ∀ c, (k, c) ∈ rest → k ∈ List.map Prod.fst rest :=
      fun c hc => List.mem_map.2 ⟨(k, c), hc, rfl⟩
    rcases List.mem_cons.1 ha with rfl | ha1
    · rcases List.mem_cons.1 hb with hb0 | hb1
      · exact (Prod.mk.inj hb0).2.symm
      · exact absurd (hkey b hb1) hnd.1
    · rcases List.mem_cons.1 hb with rfl | hb1
      · exact absurd (hkey a ha1) hnd.1
      · exact ih hnd.2 ha1 hb1

theorem formLoop_skip_unrecognized (P : GoString → Option URL) (k v : GoString)
    (hk : k ∉ recognizedKeys) (f1 f2 : List (GoString × List GoString)) :
    ∀ st : Locals, formLoop P (f1 ++ (k, [v]) :: f2) st = formLoop P (f1 ++ f2) st := by
  induction f1 with
  | nil =>
    intro st
    simp [formLoop, formField_other P st k v hk]
  | cons kv rest ih =>
    obtain ⟨k1, vs1⟩ := kv
    intro st
    match vs1 with
    | [] => rfl
    | _ :: _ :: _ => rfl
    | [v1] =>
      simp only [List.cons_append, formLoop]
      cases formField P st k1 v1 with
      | next st1 => exact ih st1
      | exit r => rfl

/-- What a pass through the `switch` of `parseUserFromJSON` that does not return has left
unchanged, by the key token: every `User` field but the one the key names. -/
theorem jsonField_next_frame (P : GoString → Option URL) (st st1 : Locals) (k v : Token)
    (h : jsonField P st k v = .returned (.next st1)) :
    (k ≠ .string (str "first_name") → st1.tu.FirstName = st.tu.FirstName)
    ∧ (k ≠ .string (str "last_name") → st1.tu.LastName = st.tu.LastName)
    ∧ (k ≠ .string (str "username") → st1.tu.Username = st.tu.Username)
    ∧ (k ≠ .string (str "photo_url") → st1.tu.PhotoURL = st.tu.PhotoURL) := by
  unfold jsonField at h
  split_ifs at h with h1 h2 h3 h4 h5 h6 h7
  · split at h
    · split at h
      · cases h
      · cases h
        exact ⟨fun _ => rfl, fun _ => rfl, fun _ => rfl, fun _ => rfl⟩
    · cases h
  · split at h
    · cases h
      exact ⟨fun hk => absurd h2 hk, fun _ => rfl, fun _ => rfl, fun _ => rfl⟩
    · cases h
  · split at h
    · cases h
      exact ⟨fun _ => rfl, fun hk => absurd h3 hk, fun _ => rfl, fun _ => rfl⟩
    · cases h
  · split at h
    · cases h
      exact ⟨fun _ => rfl, fun _ => rfl, fun hk => absurd h4 hk, fun _ => rfl⟩
    · cases h
  · split at h
    · split at h
      · cases h
      · cases h
        exact ⟨fun _ => rfl, fun _ => rfl, fun _ => rfl, fun hk => absurd h5 hk⟩
    · cases h
  · split at h
    · split at h
      · cases h
      · cases h
        exact ⟨fun _ => rfl, fun _ => rfl, fun _ => rfl, fun _ => rfl⟩
    · cases h
  · split at h
    · have := hashCase_next _ _ _ (Run.returned.inj h)
      rw [this.1]
      exact ⟨fun _ => rfl, fun _ => rfl, fun _ => rfl, fun _ => rfl⟩
    · cases h
  · cases h
    exact ⟨fun _ => rfl, fun _ => rfl, fun _ => rfl, fun _ => rfl⟩

/-- Tracking one component `X` of the locals through the `for d.More()` loop: when the
loop ends normally and the key token `K` that sets `X` is not among the member keys, `X`
has kept its value. -/
theorem jsonLoop_frame {α : Type} (P : GoString → Option URL) (K : Token) (X : Locals → α)
    (frame : ∀ st k v st1, jsonField P st k v = .returned (.next st1) → k ≠ K → X st1 = X st)
    (d : Decoder) (st st1 : Locals) (d1 : Decoder)
    (h : jsonLoop P d st = .finished st1 d1) (hK : K ∉ memberKeys d) : X st1 = X st := by
  refine jsonLoop_cases P
    (fun d st e => ∀ st1 d1, e = .finished st1 d1 → K ∉ memberKeys d → X st1 = X st)
    ?_ ?_ ?_ d.length d st (Nat.le_refl _) st1 d1 h hK
  · intro d st _ st1 d1 he _
    cases he
    rfl
  · intro d st fmt args st1 d1 he _
    cases he
  · intro k v d2 st _ _
    refine ⟨?_, ?_, ?_⟩
    · intro _ st1 d1 he _
      cases he
    · intro r _ st1 d1 he _
      cases he
    · intro st2 hn e ih st1 d1 he hK
      simp only [memberKeys, List.mem_cons, not_or] at hK
      rw [ih st1 d1 he hK.2]
      exact frame st k v st2 hn (fun hk => hK.1 hk.symm)

/-- A parse of JSON that returns without error went through the whole function: an opening
brace, the loop to its normal end, and the locals returned as they stood. -/
theorem parseUserFromJSON_ok (P : GoString → Option URL) (d : Decoder) (r : ParseResult)
    (h : parseUserFromJSON P d = .returned r) (hok : r.err = none) :
    ∃ st1 d1, jsonLoop P d.tail Locals.init = .finished st1 d1
      ∧ r = ⟨st1.tu, st1.ps, st1.expectedMAC, none⟩ := by
  unfold parseUserFromJSON at h
  simp only at h
  split at h
  · cases h; cases hok
  · cases h; cases hok
  · rename_i t d0 htok
    have hd0 : d0 = d.tail := by
      cases d with
      | nil => simp [Decoder.Token] at htok
      | cons s d2 =>
        cases s with
        | tok t1 =>
          simp only [Decoder.Token, Prod.mk.injEq] at htok
          simp [htok.2]
        | err e m => simp [Decoder.Token] at htok
    subst hd0
    split at h
    · cases h; cases hok
    · split at h
      · cases h
      · rename_i res hloop
        cases h
        obtain ⟨e, he, _⟩ := ((jsonLoop_end P _ Locals.init).1 r hloop).1
        rw [he] at hok
        cases hok
      · rename_i st d1 hloop
        refine ⟨st, d1, hloop, ?_⟩
        split at h
        · cases h; cases hok
        · cases h; cases hok
        · split at h
          · cases h; cases hok
          · split at h
            · cases h; cases hok
            · cases h; rfl
            · cases h; cases hok

theorem jsonLoop_malformed_hash (P : GoString → Option URL) (v : GoString)
    (hv : v.length ≠ 64 ∨ ¬ AllHex v) (rest : Decoder) :
    ∀ (ms : List (Token × Token)) (st : Locals), ScalarMembers ms →
      (Token.string (str "hash"), Token.string v) ∈ ms →
      jsonLoop P (memberSteps ms ++ rest) st = .panicked
      ∨ ∃ r, jsonLoop P (memberSteps ms ++ rest) st = .exit r := by
  intro ms
  induction ms with
  | nil => intro st _ h; simp at h
  | cons kv ms1 ih =>
    obtain ⟨k, w⟩ := kv
    intro st hsc hmem
    have hkw := hsc (k, w) (List.mem_cons_self _ _)
    have hstep : jsonLoop P (memberSteps ((k, w) :: ms1) ++ rest) st =
        match jsonField P st k w with
        | .panicked => .panicked
        | .returned (.exit r) => .exit r
        | .returned (.next st1) => jsonLoop P (memberSteps ms1 ++ rest) st1 := by
      have := jsonLoop_step P k w (memberSteps ms1 ++ rest) st hkw.1 hkw.2
      simpa [memberSteps] using this
    rw [hstep]
    cases hjf : jsonField P st k w with
    | panicked => exact Or.inl rfl
    | returned fl =>
      cases fl with
      | exit r => exact Or.inr ⟨r, rfl⟩
      | next st1 =>
        simp only
        rcases List.mem_cons.1 hmem with heq | hrest
        · simp only [Prod.mk.injEq] at heq
          obtain ⟨rfl, rfl⟩ := heq
          obtain ⟨r, hr⟩ := hashCase_malformed st v hv
          have : jsonField P st (.string (str "hash")) (.string v) = .returned (.exit r) := by
            unfold jsonField
            rw [if_neg (by decide), if_neg (by decide), if_neg (by decide),
              if_neg (by decide), if_neg (by decide), if_neg (by decide), if_pos rfl]
            simp [hr]
          rw [this] at hjf
          cases hjf
        · exact ih st1 (fun kv h => hsc kv (List.mem_cons_of_mem _ h)) hrest

theorem parseUserFromJSON_malformed_hash (P : GoString → Option URL) (v : GoString)
    (hv : v.length ≠ 64 ∨ ¬ AllHex v) (ms : List (Token × Token)) (hsc : ScalarMembers ms)
    (hmem : (Token.string (str "hash"), Token.string v) ∈ ms) :
    parseUserFromJSON P (objectScript ms) = .panicked
    ∨ ∃ r, parseUserFromJSON P (objectScript ms) = .returned r ∧ ParseFailure r := by
  have hloop := jsonLoop_malformed_hash P v hv [.tok (.delim 125)] ms Locals.init hsc hmem
  cases hp : parseUserFromJSON P (objectScript ms) with
  | panicked => exact Or.inl rfl
  | returned r =>
    refine Or.inr ⟨r, rfl, ?_⟩
    rcases (parseUserFromJSON_end P _ r hp).1 with hok | hfail
    · obtain ⟨st1, d1, hfin, _⟩ := parseUserFromJSON_ok P _ r hp hok
      have htail : (objectScript ms).tail = memberSteps ms ++ [.tok (.delim 125)] := rfl
      rw [htail] at hfin
      rcases hloop with h1 | ⟨r1, h1⟩
      · rw [h1] at hfin; cases hfin
      · rw [h1] at hfin; cases hfin
    · exact hfail

end V2

/-! ## Lemmas: the check string as a text, pair lists, and how the JSON loop stops -/

theorem specCheckString_cons (p : pair) (l : List pair) :
    specCheckString (p :: l) = renderPair p ++ lineTail l := by
  simp [specCheckString, joinLines_cons, lineTail, List.flatMap_def, List.map_map,
    Function.comp_def]

theorem lineTail_cons (p : pair) (l : List pair) :
    lineTail (p :: l) = [10] ++ (renderPair p ++ lineTail l) := by
  simp [lineTail]

theorem constructCheckStringSt_snd (S : SliceSorter) (r : List pair) :
    (constructCheckStringSt S r).2 = S.run r := by
  unfold constructCheckStringSt
  cases r with
  | nil => simp [(S.perm []).eq_nil]
  | cons a r =>
    have hne : ¬ (a :: r).length ≤ 0 := by simp
    simp only [hne, if_false]
    cases hrun : S.run (a :: r) with
    | nil => rfl
    | cons r0 rest => rfl

theorem keysDistinct_of_ascending (r : List pair) (h : KeysAscending r) : KeysDistinct r := by
  unfold KeysDistinct
  have : (r.map pair.key).Pairwise (fun x y => x ≠ y) := by
    rw [List.pairwise_map]
    refine h.imp ?_
    intro a b hab heq
    unfold less at hab
    rw [heq, strLess_irrefl] at hab
    exact absurd hab (by decide)
  exact this

theorem estimateSize_eq (l : List pair) :
    estimateSize l = if l = [] then 0 else 2 * l.length - 1 + textLength l := by
  have hfold : ∀ (l : List pair) (n : Nat),
      l.foldl (fun s p => s + (p.key.length + p.value.length)) n = n + textLength l := by
    intro l
    induction l with
    | nil => intro n; simp [textLength]
    | cons p l ih =>
      intro n
      simp only [List.foldl_cons, ih, textLength, List.map_cons, List.sum_cons]
      omega
  unfold estimateSize
  cases l with
  | nil => simp
  | cons p l => simp [hfold]

theorem lineTail_length (l : List pair) : (lineTail l).length = 2 * l.length + textLength l := by
  induction l with
  | nil => simp [lineTail, textLength]
  | cons p l ih =>
    simp only [lineTail_cons, List.length_append, ih, renderPair, List.length_cons,
      List.length_nil, textLength, List.map_cons, List.sum_cons]
    omega

theorem specCheckString_length (l : List pair) :
    (specCheckString l).length = estimateSize l := by
  rw [estimateSize_eq]
  cases l with
  | nil => simp [specCheckString, joinLines]
  | cons p l =>
    simp only [specCheckString_cons, List.length_append, lineTail_length, renderPair,
      List.length_cons, List.length_nil, textLength, List.map_cons, List.sum_cons]
    simp
    omega

theorem estimateSize_perm (l1 l2 : List pair) (h : l1.Perm l2) :
    estimateSize l1 = estimateSize l2 := by
  rw [estimateSize_eq, estimateSize_eq]
  have hlen := h.length_eq
  have hsum : textLength l1 = textLength l2 := by
    unfold textLength
    exact (h.map _).sum_eq
  have hnil : l1 = [] ↔ l2 = [] := by
    constructor
    · intro h1; subst h1; exact h.nil_eq.symm
    · intro h2; subst h2; exact h.eq_nil
  by_cases h1 : l1 = []
  · rw [if_pos h1, if_pos (hnil.1 h1)]
  · rw [if_neg h1, if_neg (fun h2 => h1 (hnil.2 h2)), hlen, hsum]

theorem setValue_keys (k v : GoString) (r : List pair) :
    (setValue k v r).map pair.key = r.map pair.key := by
  unfold setValue
  rw [List.map_map]
  apply List.map_congr_left
  intro q _
  by_cases h : q.key = k <;> simp [h]

theorem setValue_absent (k v : GoString) (r : List pair) (h : k ∉ r.map pair.key) :
    setValue k v r = r := by
  unfold setValue
  conv => rhs; rw [← List.map_id r]
  apply List.map_congr_left
  intro q hq
  have : q.key ≠ k := fun he => h (List.mem_map.2 ⟨q, hq, he⟩)
  simp [this]

theorem lineTail_setValue_ne (k v w : GoString) (hvw : v ≠ w) (l : List pair)
    (hd : KeysDistinct l) (hmem : (⟨k, v⟩ : pair) ∈ l) :
    lineTail (setValue k w l) ≠ lineTail l := by
  induction l with
  | nil => simp at hmem
  | cons q rest ih =>
    unfold KeysDistinct at hd
    simp only [List.map_cons, List.nodup_cons] at hd
    have hcons : setValue k w (q :: rest) = (if q.key = k then ⟨k, w⟩ else q) :: setValue k w rest :=
      rfl
    rw [hcons, lineTail_cons, lineTail_cons]
    intro heq
    have heq1 := List.append_cancel_left heq
    by_cases hq : q.key = k
    · have hrest : setValue k w rest = rest := setValue_absent k w rest (hq ▸ hd.1)
      have hqv : q = ⟨k, v⟩ := by
        rcases List.mem_cons.1 hmem with h1 | h1
        · exact h1.symm
        · exact absurd (List.mem_map.2 ⟨⟨k, v⟩, h1, rfl⟩) (hq ▸ hd.1)
      rw [if_pos hq, hrest, hqv] at heq1
      have h2 := List.append_cancel_right heq1
      simp only [renderPair, List.append_assoc] at h2
      have h3 := List.append_cancel_left h2
      have h4 := List.append_cancel_left h3
      exact hvw h4.symm
    · rw [if_neg hq] at heq1
      have h2 := List.append_cancel_left heq1
      have hmem1 : (⟨k, v⟩ : pair) ∈ rest := by
        rcases List.mem_cons.1 hmem with h1 | h1
        · exact absurd (by rw [← h1]) hq
        · exact h1
      exact ih hd.2 hmem1 h2

theorem specCheckString_setValue_ne (k v w : GoString) (hvw : v ≠ w) (l : List pair)
    (hd : KeysDistinct l) (hmem : (⟨k, v⟩ : pair) ∈ l) :
    specCheckString (setValue k w l) ≠ specCheckString l := by
  have h := lineTail_setValue_ne k v w hvw l hd hmem
  intro heq
  apply h
  have h1 : ∀ l : List pair, lineTail l = l.flatMap fun p => [10] ++ renderPair p := fun _ => rfl
  cases l with
  | nil => rfl
  | cons q rest =>
    have hcons : setValue k w (q :: rest)
        = (if q.key = k then ⟨k, w⟩ else q) :: setValue k w rest := rfl
    rw [hcons, specCheckString_cons, specCheckString_cons] at heq
    rw [hcons, lineTail_cons, lineTail_cons, heq]

theorem pairKeys_plain : ∀ k ∈ pairKeys, 61 ∉ k ∧ 10 ∉ k := by decide

theorem split_at_first (s : Nat) (a a1 b b1 : List Nat) (ha : s ∉ a) (ha1 : s ∉ a1)
    (h : a ++ s :: b = a1 ++ s :: b1) : a = a1 ∧ b = b1 := by
  induction a generalizing a1 with
  | nil =>
    cases a1 with
    | nil => simpa using h
    | cons x xs =>
      simp only [List.nil_append, List.cons_append, List.cons.injEq] at h
      exact absurd (by simp [h.1]) ha1
  | cons y ys ih =>
    cases a1 with
    | nil =>
      simp only [List.nil_append, List.cons_append, List.cons.injEq] at h
      exact absurd (by simp [h.1]) ha
    | cons x xs =>
      simp only [List.cons_append, List.cons.injEq] at h
      have := ih xs (fun hm => ha (List.mem_cons_of_mem _ hm))
        (fun hm => ha1 (List.mem_cons_of_mem _ hm)) h.2
      exact ⟨by rw [h.1, this.1], this.2⟩

theorem lineTail_nil_or_newline (l : List pair) :
    lineTail l = [] ∨ ∃ t, lineTail l = 10 :: t := by
  cases l with
  | nil => exact Or.inl rfl
  | cons p l => exact Or.inr ⟨_, by rw [lineTail_cons]; rfl⟩

theorem split_before_tail (a a1 x x1 : List Nat) (ha : 10 ∉ a) (ha1 : 10 ∉ a1)
    (hx : x = [] ∨ ∃ t, x = 10 :: t) (hx1 : x1 = [] ∨ ∃ t, x1 = 10 :: t)
    (h : a ++ x = a1 ++ x1) : a = a1 ∧ x = x1 := by
  rcases hx with rfl | ⟨t, rfl⟩ <;> rcases hx1 with rfl | ⟨t1, rfl⟩
  · simpa using h
  · simp only [List.append_nil] at h
    exact absurd (by rw [h]; simp) ha
  · simp only [List.append_nil] at h
    exact absurd (by rw [← h]; simp) ha1
  · have := split_at_first 10 a a1 t t1 ha ha1 h
    exact ⟨this.1, by rw [this.2]⟩

theorem render_lineTail_inj (p q : pair) (l1 l2 : List pair)
    (hp : p.key ∈ pairKeys ∧ 10 ∉ p.value) (hq : q.key ∈ pairKeys ∧ 10 ∉ q.value)
    (h : renderPair p ++ lineTail l1 = renderPair q ++ lineTail l2) :
    p = q ∧ lineTail l1 = lineTail l2 := by
  simp only [renderPair, List.append_assoc, List.singleton_append] at h
  have h1 := split_at_first 61 p.key q.key _ _ (pairKeys_plain _ hp.1).1
    (pairKeys_plain _ hq.1).1 h
  have h2 := split_before_tail p.value q.value _ _ hp.2 hq.2 (lineTail_nil_or_newline l1)
    (lineTail_nil_or_newline l2) h1.2
  refine ⟨?_, h2.2⟩
  cases p
  cases q
  simp only at h1 h2
  rw [h1.1, h2.1]

theorem lineTail_inj (l1 l2 : List pair) (h1 : PlainPairs l1) (h2 : PlainPairs l2)
    (h : lineTail l1 = lineTail l2) : l1 = l2 := by
  induction l1 generalizing l2 with
  | nil =>
    cases l2 with
    | nil => rfl
    | cons q l2 => rw [lineTail_cons] at h; simp [lineTail] at h
  | cons p l1 ih =>
    cases l2 with
    | nil => rw [lineTail_cons] at h; simp [lineTail] at h
    | cons q l2 =>
      rw [lineTail_cons, lineTail_cons] at h
      have h3 := List.append_cancel_left h
      have h4 := render_lineTail_inj p q l1 l2 (h1 p (List.mem_cons_self _ _))
        (h2 q (List.mem_cons_self _ _)) h3
      rw [h4.1, ih l2 (fun x hx => h1 x (List.mem_cons_of_mem _ hx))
        (fun x hx => h2 x (List.mem_cons_of_mem _ hx)) h4.2]

theorem specCheckString_inj (l1 l2 : List pair) (h1 : PlainPairs l1) (h2 : PlainPairs l2)
    (h : specCheckString l1 = specCheckString l2) : l1 = l2 := by
  apply lineTail_inj l1 l2 h1 h2
  cases l1 with
  | nil =>
    cases l2 with
    | nil => rfl
    | cons q l2 =>
      rw [specCheckString_cons] at h
      simp [specCheckString, joinLines, renderPair] at h
  | cons p l1 =>
    cases l2 with
    | nil =>
      rw [specCheckString_cons] at h
      simp [specCheckString, joinLines, renderPair] at h
    | cons q l2 =>
      rw [specCheckString_cons, specCheckString_cons] at h
      rw [lineTail_cons, lineTail_cons, h]

namespace V2

theorem jsonField_wrongType (P : GoString → Option URL) (st : Locals) (k v : Token)
    (h : WrongType k v) : jsonField P st k v = .panicked := by
  rcases h with ⟨hk, hv⟩ | ⟨hk, hv⟩
  · rcases hk with rfl | rfl
    · unfold jsonField
      rw [if_pos rfl]
      cases v with
      | number x => exact absurd rfl (hv x)
      | delim c => rfl
      | bool b => rfl
      | string x => rfl
      | null => rfl
    · unfold jsonField
      rw [if_neg (by decide), if_neg (by decide), if_neg (by decide), if_neg (by decide),
        if_neg (by decide), if_pos rfl]
      cases v with
      | number x => exact absurd rfl (hv x)
      | delim c => rfl
      | bool b => rfl
      | string x => rfl
      | null => rfl
  · rcases hk with rfl | rfl | rfl | rfl | rfl
    · unfold jsonField
      rw [if_neg (by decide), if_pos rfl]
      cases v with
      | string x => exact absurd rfl (hv x)
      | delim c => rfl
      | bool b => rfl
      | number x => rfl
      | null => rfl
    · unfold jsonField
      rw [if_neg (by decide), if_neg (by decide), if_pos rfl]
      cases v with
      | string x => exact absurd rfl (hv x)
      | delim c => rfl
      | bool b => rfl
      | number x => rfl
      | null => rfl
    · unfold jsonField
      rw [if_neg (by decide), if_neg (by decide), if_neg (by decide), if_pos rfl]
      cases v with
      | string x => exact absurd rfl (hv x)
      | delim c => rfl
      | bool b => rfl
      | number x => rfl
      | null => rfl
    · unfold jsonField
      rw [if_neg (by decide), if_neg (by decide), if_neg (by decide), if_neg (by decide),
        if_pos rfl]
      cases v with
      | string x => exact absurd rfl (hv x)
      | delim c => rfl
      | bool b => rfl
      | number x => rfl
      | null => rfl
    · unfold jsonField
      rw [if_neg (by decide), if_neg (by decide), if_neg (by decide), if_neg (by decide),
        if_neg (by decide), if_neg (by decide), if_pos rfl]
      cases v with
      | string x => exact absurd rfl (hv x)
      | delim c => rfl
      | bool b => rfl
      | number x => rfl
      | null => rfl

theorem jsonField_exit_ps (P : GoString → Option URL) (st : Locals) (k v : Token)
    (r : ParseResult) (h : jsonField P st k v = .returned (.exit r)) : r.ps = [] := by
  unfold jsonField at h
  split_ifs at h <;> (try split at h) <;> (try split at h) <;>
    first
    | (cases h; rfl)
    | cases h
    | skip
  all_goals
    have h1 := Run.returned.inj h
    unfold hashCase at h1
    split at h1
    · cases h1; rfl
    · split at h1
      · cases h1; rfl
      · cases h1

theorem formField_exit_ps (P : GoString → Option URL) (st : Locals) (k v : GoString)
    (r : ParseResult) (h : formField P st k v = .exit r) : r.ps = [] := by
  unfold formField at h
  split_ifs at h <;> (try split at h) <;>
    first
    | (cases h; rfl)
    | cases h
    | skip
  all_goals
    unfold hashCase at h
    split at h
    · cases h; rfl
    · split at h
      · cases h; rfl
      · cases h

theorem jsonField_next_ps (P : GoString → Option URL) (st st1 : Locals) (k v : Token)
    (h : jsonField P st k v = .returned (.next st1)) :
    st1.ps = st.ps ++ (memberPair k v).toList := by
  unfold jsonField at h
  split_ifs at h with h1 h2 h3 h4 h5 h6 h7
  · subst h1
    split at h
    · split at h
      · cases h
      · cases h
        simp [memberPair]
    · cases h
  · subst h2
    split at h
    · cases h
      simp [memberPair]
    · cases h
  · subst h3
    split at h
    · cases h
      simp [memberPair]
    · cases h
  · subst h4
    split at h
    · cases h
      simp [memberPair]
    · cases h
  · subst h5
    split at h
    · split at h
      · cases h
      · cases h
        simp [memberPair]
    · cases h
  · subst h6
    split at h
    · split at h
      · cases h
      · cases h
        simp [memberPair]
    · cases h
  · subst h7
    split at h
    · have := hashCase_next _ _ _ (Run.returned.inj h)
      rw [this.2.1]
      have hd : ∀ x, memberPair (.string (str "hash")) (.string x) = none := by
        intro x
        have hn : ¬ (str "hash" = str "first_name" ∨ str "hash" = str "last_name"
            ∨ str "hash" = str "username" ∨ str "hash" = str "photo_url") := by decide
        simp only [memberPair, if_neg hn]
      simp [hd]
    · cases h
  · cases h
    have : memberPair k v = none := by
      unfold memberPair
      split
      · rename_i key x
        rw [if_neg]
        rintro (rfl | rfl)
        · exact h1 rfl
        · exact h6 rfl
      · rename_i key x
        rw [if_neg]
        rintro (rfl | rfl | rfl | rfl)
        · exact h2 rfl
        · exact h3 rfl
        · exact h4 rfl
        · exact h5 rfl
      · rfl
    simp [this]

theorem scriptPairs_of_not_more (d : Decoder) (h : Decoder.More d = false) :
    scriptPairs d = [] := by
  cases d with
  | nil => rfl
  | cons s d1 =>
    cases s with
    | err e m => simp [scriptPairs]
    | tok t =>
      cases t with
      | delim c => simp [scriptPairs]
      | bool b => simp [Decoder.More] at h
      | number x => simp [Decoder.More] at h
      | string x => simp [Decoder.More] at h
      | null => simp [Decoder.More] at h

theorem scriptPairs_step (k v : Token) (d2 : Decoder) (hk : ∀ c, k ≠ .delim c) :
    scriptPairs (.tok k :: .tok v :: d2) = (memberPair k v).toList ++ scriptPairs d2 := by
  cases k with
  | delim c => exact absurd rfl (hk c)
  | bool b => simp [scriptPairs]
  | number x => simp [scriptPairs]
  | string x => simp [scriptPairs]
  | null => simp [scriptPairs]

theorem jsonLoop_ps (P : GoString → Option URL) (d : Decoder) (st : Locals) :
    (∀ r, jsonLoop P d st = .exit r → r.ps = [])
    ∧ (∀ st1 d1, jsonLoop P d st = .finished st1 d1 → st1.ps = st.ps ++ scriptPairs d) := by
  refine jsonLoop_cases P
    (fun d st e => (∀ r, e = .exit r → r.ps = [])
      ∧ (∀ st1 d1, e = .finished st1 d1 → st1.ps = st.ps ++ scriptPairs d))
    ?_ ?_ ?_ d.length d st (Nat.le_refl _)
  · intro d st hmore
    refine ⟨fun r h => (by cases h), fun st1 d1 h => ?_⟩
    cases h
    simp [scriptPairs_of_not_more d hmore]
  · intro d st fmt args
    refine ⟨fun r h => ?_, fun st1 d1 h => (by cases h)⟩
    cases h
    rfl
  · intro k v d2 st hk _
    refine ⟨fun _ => ⟨fun r h => (by cases h), fun st1 d1 h => (by cases h)⟩, ?_, ?_⟩
    · intro r hr
      refine ⟨fun r1 h => ?_, fun st1 d1 h => (by cases h)⟩
      cases h
      exact jsonField_exit_ps P st k v r hr
    · intro st2 hn e ⟨h1, h2⟩
      refine ⟨h1, fun st1 d1 h => ?_⟩
      rw [h2 st1 d1 h, jsonField_next_ps P st st2 k v hn, scriptPairs_step k v d2 hk,
        List.append_assoc]

theorem parseUserFromJSON_ps (P : GoString → Option URL) (d : Decoder) (r : ParseResult)
    (h : parseUserFromJSON P d = .returned r) :
    (r.err = none → r.ps = scriptPairs d.tail) ∧ (r.err ≠ none → r.ps = []) := by
  constructor
  · intro hok
    obtain ⟨st1, d1, hloop, rfl⟩ := parseUserFromJSON_ok P d r h hok
    have := (jsonLoop_ps P d.tail Locals.init).2 st1 d1 hloop
    simpa [Locals.init] using this
  · intro herr
    unfold parseUserFromJSON at h
    simp only at h
    split at h
    · cases h; rfl
    · cases h; rfl
    · split at h
      · cases h; rfl
      · split at h
        · cases h
        · rename_i res hloop
          cases h
          exact (jsonLoop_ps P _ Locals.init).1 r hloop
        · split at h
          · cases h; rfl
          · cases h; rfl
          · split at h
            · cases h; rfl
            · split at h
              · cases h; rfl
              · cases h; exact absurd rfl herr
              · cases h; rfl

theorem formLoop_failure_ps (P : GoString → Option URL)
    (f : List (GoString × List GoString)) :
    ∀ st : Locals, (formLoop P f st).err ≠ none → (formLoop P f st).ps = [] := by
  induction f with
  | nil => intro st h; exact absurd rfl h
  | cons kv rest ih =>
    obtain ⟨k, vs⟩ := kv
    intro st h
    match vs, h with
    | [], _ => rfl
    | _ :: _ :: _, _ => rfl
    | [v], h =>
      cases hf : formField P st k v with
      | next st1 =>
        have hloop : formLoop P ((k, [v]) :: rest) st = formLoop P rest st1 := by
          simp [formLoop, hf]
        rw [hloop] at h ⊢
        exact ih st1 h
      | exit r =>
        have hloop : formLoop P ((k, [v]) :: rest) st = r := by simp [formLoop, hf]
        rw [hloop]
        exact formField_exit_ps P st k v r hf

theorem mem_formPairs (f : List (GoString × List GoString)) (p : pair) (h : p ∈ formPairs f) :
    p.key ∈ pairKeys ∧ (p.key, [p.value]) ∈ f := by
  unfold formPairs at h
  rw [List.mem_filterMap] at h
  obtain ⟨⟨k, vs⟩, hmem, hsome⟩ := h
  match vs, hmem, hsome with
  | [v], hmem, hsome =>
    simp only at hsome
    split_ifs at hsome with hk
    cases hsome
    exact ⟨hk, hmem⟩

theorem formPairs_mem (f : List (GoString × List GoString)) (k v : GoString)
    (hk : k ∈ pairKeys) (h : (k, [v]) ∈ f) : (⟨k, v⟩ : pair) ∈ formPairs f := by
  unfold formPairs
  rw [List.mem_filterMap]
  exact ⟨(k, [v]), h, by simp [hk]⟩

theorem formPairs_keys_sublist (f : List (GoString × List GoString)) :
    ((formPairs f).map pair.key).Sublist (formKeys f) := by
  induction f with
  | nil => simp [formPairs, formKeys]
  | cons kv rest ih =>
    obtain ⟨k, vs⟩ := kv
    have hcons : formPairs ((k, vs) :: rest) = formPairs rest
        ∨ formPairs ((k, vs) :: rest) = ⟨k, vs.headD []⟩ :: formPairs rest := by
      unfold formPairs
      match vs with
      | [] => left; simp [List.filterMap_cons]
      | _ :: _ :: _ => left; simp [List.filterMap_cons]
      | [v] =>
        by_cases hk : k ∈ pairKeys
        · right; simp [List.filterMap_cons, hk]
        · left; simp [List.filterMap_cons, hk]
    rcases hcons with h | h
    · rw [h]
      exact List.Sublist.cons _ ih
    · rw [h]
      exact List.Sublist.cons₂ _ ih

theorem scriptPairs_keys_sublist :
    ∀ (n : Nat) (d : Decoder), d.length ≤ n →
      ((scriptPairs d).map fun p => Token.string p.key).Sublist (memberKeys d) := by
  intro n
  induction n with
  | zero =>
    intro d h
    cases d with
    | nil => simp [scriptPairs, memberKeys]
    | cons s d1 => simp at h
  | succ n ih =>
    intro d h
    match d, h with
    | [], _ => simp [scriptPairs, memberKeys]
    | [s], _ => cases s with
      | err e m => simp [scriptPairs, memberKeys]
      | tok t => cases t <;> simp [scriptPairs, memberKeys]
    | .err e m :: s2 :: rest, _ => simp [scriptPairs]
    | .tok k :: .err e m :: rest, _ => cases k <;> simp [scriptPairs]
    | .tok k :: .tok v :: rest, h =>
      have hlen : rest.length ≤ n := by
        simp only [List.length_cons] at h
        omega
      have ih1 := ih rest hlen
      by_cases hk : ∃ c, k = .delim c
      · obtain ⟨c, rfl⟩ := hk
        simp [scriptPairs]
      · rw [scriptPairs_step k v rest (fun c hc => hk ⟨c, hc⟩)]
        have hmk : memberKeys (.tok k :: .tok v :: rest) = k :: memberKeys rest := rfl
        rw [hmk]
        cases hmp : memberPair k v with
        | none =>
          simp only [Option.toList, List.nil_append]
          exact List.Sublist.cons _ ih1
        | some p =>
          have hp : Token.string p.key = k := by
            unfold memberPair at hmp
            split at hmp
            · split_ifs at hmp
              cases hmp
              rfl
            · split_ifs at hmp
              cases hmp
              rfl
            · cases hmp
          simp only [Option.toList, List.singleton_append, List.map_cons, hp]
          exact List.Sublist.cons₂ _ ih1

theorem mem_scriptPairs_key :
    ∀ (n : Nat) (d : Decoder), d.length ≤ n → ∀ p ∈ scriptPairs d, p.key ∈ pairKeys := by
  intro n
  induction n with
  | zero =>
    intro d h p hp
    cases d with
    | nil => simp [scriptPairs] at hp
    | cons s d1 => simp at h
  | succ n ih =>
    intro d h p hp
    match d, h, hp with
    | [], _, hp => simp [scriptPairs] at hp
    | [s], _, hp => cases s with
      | err e m => simp [scriptPairs] at hp
      | tok t => cases t <;> simp [scriptPairs] at hp
    | .err e m :: s2 :: rest, _, hp => simp [scriptPairs] at hp
    | .tok k :: .err e m :: rest, _, hp => cases k <;> simp [scriptPairs] at hp
    | .tok k :: .tok v :: rest, h, hp =>
      have hlen : rest.length ≤ n := by
        simp only [List.length_cons] at h
        omega
      by_cases hk : ∃ c, k = .delim c
      · obtain ⟨c, rfl⟩ := hk
        simp [scriptPairs] at hp
      · rw [scriptPairs_step k v rest (fun c hc => hk ⟨c, hc⟩)] at hp
        rcases List.mem_append.1 hp with h1 | h1
        · have hmp : memberPair k v = some p := by
            cases hm : memberPair k v with
            | none => rw [hm] at h1; simp at h1
            | some q =>
              rw [hm] at h1
              simp only [Option.toList, List.mem_singleton] at h1
              rw [h1]
          unfold memberPair at hmp
          split at hmp
          · split_ifs at hmp with hkey
            cases hmp
            rcases hkey with rfl | rfl
            · exact (by decide : str "id" ∈ pairKeys)
            · exact (by decide : str "auth_date" ∈ pairKeys)
          · split_ifs at hmp with hkey
            cases hmp
            rcases hkey with rfl | rfl | rfl | rfl
            · exact (by decide : str "first_name" ∈ pairKeys)
            · exact (by decide : str "last_name" ∈ pairKeys)
            · exact (by decide : str "username" ∈ pairKeys)
            · exact (by decide : str "photo_url" ∈ pairKeys)
          · cases hmp
        · exact ih rest hlen p h1

end V2

theorem parseUintLoop_cons (c : Nat) (cs : List Nat) (n : Nat) :
    parseUintLoop (c :: cs) n =
      if 48 ≤ c ∧ c ≤ 57 then
        if n ≥ 1844674407370955162 then (18446744073709551615, some .ErrRange)
        else if n * 10 + (c - 48) > 18446744073709551615 then
          (18446744073709551615, some .ErrRange)
        else parseUintLoop cs (n * 10 + (c - 48))
      else (0, some .ErrSyntax) := rfl

theorem parseUintLoop_dot (cs : List Nat) (n : Nat) (h : 46 ∈ cs) :
    (parseUintLoop cs n).2 ≠ none := by
  induction cs generalizing n with
  | nil => simp at h
  | cons c cs ih =>
    rw [parseUintLoop_cons]
    split_ifs with h1 h2 h3
    · simp
    · simp
    · rcases List.mem_cons.1 h with h4 | h4
      · omega
      · exact ih _ h4
    · simp

theorem parseUintLoop_err (cs : List Nat) (n : Nat) :
    (parseUintLoop cs n).2 = some .ErrSyntax
    ∨ parseUintLoop cs n = (18446744073709551615, some .ErrRange)
    ∨ (parseUintLoop cs n).2 = none := by
  induction cs generalizing n with
  | nil => right; right; rfl
  | cons c cs ih =>
    rw [parseUintLoop_cons]
    split_ifs with h1 h2 h3
    · right; left; rfl
    · right; left; rfl
    · exact ih _
    · left; rfl

theorem ParseInt_dot (v : GoString) (h : 46 ∈ v) : (ParseInt v).2 ≠ none := by
  match v, h with
  | c :: cs, h =>
    have hs1 : 46 ∈ (if (c == 43 || c == 45) = true then cs else c :: cs) := by
      split_ifs with hc
      · rcases List.mem_cons.1 h with h1 | h1
        · subst h1
          simp at hc
        · exact h1
      · exact h
    have hne : (if (c == 43 || c == 45) = true then cs else c :: cs) ≠ [] :=
      List.ne_nil_of_mem hs1
    have hdot := parseUintLoop_dot _ 0 hs1
    have herr := parseUintLoop_err (if (c == 43 || c == 45) = true then cs else c :: cs) 0
    unfold ParseInt
    simp only
    unfold ParseUint
    rw [if_neg hne]
    rcases herr with h1 | h1 | h1
    · rcases hp : parseUintLoop (if (c == 43 || c == 45) = true then cs else c :: cs) 0 with
        ⟨un, e⟩
      rw [hp] at h1
      simp only at h1
      subst h1
      simp
    · rw [h1]
      simp only
      by_cases hneg : (c == 45) = true
      · simp [hneg]
      · simp [hneg]
    · exact absurd h1 hdot

namespace V2

theorem jsonLoop_stops_at (P : GoString → Option URL) (k v : Token)
    (hbad : ∀ st st1, jsonField P st k v ≠ .returned (.next st1)) (rest : Decoder) :
    ∀ (ms : List (Token × Token)) (st : Locals), ScalarMembers ms → (k, v) ∈ ms →
      jsonLoop P (memberSteps ms ++ rest) st = .panicked
      ∨ ∃ r, jsonLoop P (memberSteps ms ++ rest) st = .exit r := by
  intro ms
  induction ms with
  | nil => intro st _ h; simp at h
  | cons kv ms1 ih =>
    obtain ⟨k1, w⟩ := kv
    intro st hsc hmem
    have hkw := hsc (k1, w) (List.mem_cons_self _ _)
    have hstep : jsonLoop P (memberSteps ((k1, w) :: ms1) ++ rest) st =
        match jsonField P st k1 w with
        | .panicked => .panicked
        | .returned (.exit r) => .exit r
        | .returned (.next st1) => jsonLoop P (memberSteps ms1 ++ rest) st1 := by
      have := jsonLoop_step P k1 w (memberSteps ms1 ++ rest) st hkw.1 hkw.2
      simpa [memberSteps] using this
    rw [hstep]
    cases hjf : jsonField P st k1 w with
    | panicked => exact Or.inl rfl
    | returned fl =>
      cases fl with
      | exit r => exact Or.inr ⟨r, rfl⟩
      | next st1 =>
        simp only
        rcases List.mem_cons.1 hmem with heq | hrest
        · simp only [Prod.mk.injEq] at heq
          obtain ⟨rfl, rfl⟩ := heq
          exact absurd hjf (hbad st st1)
        · exact ih st1 (fun kv h => hsc kv (List.mem_cons_of_mem _ h)) hrest

theorem jsonLoop_stops_at_delim (P : GoString → Option URL) (k : Token) (c : Nat)
    (hk : ∀ c, k ≠ .delim c) (rest : Decoder) :
    ∀ (ms : List (Token × Token)) (st : Locals), ScalarMembers ms →
      jsonLoop P (memberSteps ms ++ .tok k :: .tok (.delim c) :: rest) st = .panicked
      ∨ ∃ r, jsonLoop P (memberSteps ms ++ .tok k :: .tok (.delim c) :: rest) st = .exit r := by
  intro ms
  induction ms with
  | nil =>
    intro st _
    right
    exact ⟨_, by simpa [memberSteps] using jsonLoop_value_delim P k c rest st hk⟩
  | cons kv ms1 ih =>
    obtain ⟨k1, w⟩ := kv
    intro st hsc
    have hkw := hsc (k1, w) (List.mem_cons_self _ _)
    have hstep : jsonLoop P (memberSteps ((k1, w) :: ms1) ++ .tok k :: .tok (.delim c) :: rest)
        st =
        match jsonField P st k1 w with
        | .panicked => .panicked
        | .returned (.exit r) => .exit r
        | .returned (.next st1) =>
          jsonLoop P (memberSteps ms1 ++ .tok k :: .tok (.delim c) :: rest) st1 := by
      have := jsonLoop_step P k1 w (memberSteps ms1 ++ .tok k :: .tok (.delim c) :: rest) st
        hkw.1 hkw.2
      simpa [memberSteps] using this
    rw [hstep]
    cases hjf : jsonField P st k1 w with
    | panicked => exact Or.inl rfl
    | returned fl =>
      cases fl with
      | exit r => exact Or.inr ⟨r, rfl⟩
      | next st1 => exact ih st1 (fun kv h => hsc kv (List.mem_cons_of_mem _ h))

/-- A call of `ConvertAndVerifyJSON` whose loop does not end normally panics or returns a
parse error, never nil and never `ErrInvalidHash`. -/
theorem ConvertAndVerifyJSON_of_loop_stop (S : SliceSorter) (P : GoString → Option URL)
    (d : Decoder) (key : List Nat)
    (h : jsonLoop P d.tail Locals.init = .panicked
      ∨ ∃ r, jsonLoop P d.tail Locals.init = .exit r) :
    ConvertAndVerifyJSON S P d key = .panicked
    ∨ ∃ u e, ConvertAndVerifyJSON S P d key = .returned (u, some e) ∧ e ≠ .ErrInvalidHash := by
  rw [ConvertAndVerifyJSON_of_parse]
  cases hp : parseUserFromJSON P d with
  | panicked => exact Or.inl rfl
  | returned r =>
    right
    rcases (parseUserFromJSON_end P d r hp).1 with hok | ⟨e, he, hne⟩
    · obtain ⟨st1, d1, hfin, _⟩ := parseUserFromJSON_ok P d r hp hok
      rcases h with h1 | ⟨r1, h1⟩
      · rw [h1] at hfin; cases hfin
      · rw [h1] at hfin; cases hfin
    · exact ⟨r.tu, e, by simp only [he], hne⟩

theorem formLoop_zero_hash (P : GoString → Option URL)
    (f1 f2 : List (GoString × List GoString)) (hno : str "hash" ∉ formKeys f1) :
    ∀ st : Locals, st.expectedMAC = List.replicate 32 0 →
      formLoop P (f1 ++ (str "hash", [zeroHash]) :: f2) st = formLoop P (f1 ++ f2) st := by
  induction f1 with
  | nil =>
    intro st hmac
    have hdec : hexDecode (List.replicate 32 0) zeroHash = (32, List.replicate 32 0, none) := by
      decide
    have hf : formField P st (str "hash") zeroHash = .next st := by
      rw [formField_hash]
      unfold hashCase
      rw [if_neg (by decide), hmac, hdec]
      simp only
      rw [← hmac]
    simp [formLoop, hf]
  | cons kv rest ih =>
    obtain ⟨k1, vs1⟩ := kv
    intro st hmac
    simp only [formKeys, List.map_cons, List.mem_cons, not_or] at hno
    match vs1 with
    | [] => rfl
    | _ :: _ :: _ => rfl
    | [v1] =>
      simp only [List.cons_append, formLoop]
      cases hf : formField P st k1 v1 with
      | exit r => rfl
      | next st1 =>
        simp only
        have hmac1 : st1.expectedMAC = st.expectedMAC := by
          rcases formField_next_cases P st st1 k1 v1 hf with
            ⟨_, _, rfl⟩ | ⟨_, rfl⟩ | ⟨_, rfl⟩ | ⟨_, rfl⟩ | ⟨_, _, rfl⟩ | ⟨_, _, rfl⟩
            | ⟨hk, _⟩ | ⟨_, rfl⟩
          all_goals first | rfl | exact absurd hk.symm hno.1
        exact ih hno.2 st1 (hmac1.trans hmac)

theorem objectScript_tail (ms : List (Token × Token)) :
    (objectScript ms).tail = memberSteps ms ++ [.tok (.delim 125)] := rfl

theorem parseUserFromJSON_of_loop_panic (P : GoString → Option URL) (d0 : Decoder)
    (h : jsonLoop P d0 Locals.init = .panicked) :
    parseUserFromJSON P (.tok (.delim 123) :: d0) = .panicked := by
  simp [parseUserFromJSON, Decoder.Token, h]

theorem parseUserFromJSON_of_loop_exit (P : GoString → Option URL) (d0 : Decoder)
    (r : ParseResult) (h : jsonLoop P d0 Locals.init = .exit r) :
    parseUserFromJSON P (.tok (.delim 123) :: d0) = .returned r := by
  simp [parseUserFromJSON, Decoder.Token, h]

theorem jsonField_auth_date_number (P : GoString → Option URL) (st : Locals) (x : GoString) :
    jsonField P st (.string (str "auth_date")) (.number x) =
      match ParseInt x with
      | (_, some e) => .returned (.exit ⟨st.tu, [], st.expectedMAC, some (.NumError x e)⟩)
      | (seconds, none) =>
        .returned (.next { st with ps := st.ps ++ [⟨str "auth_date", x⟩],
                                   tu := { st.tu with AuthDate := .Unix seconds } }) := by
  unfold jsonField
  rw [if_neg (by decide), if_neg (by decide), if_neg (by decide), if_neg (by decide),
    if_neg (by decide), if_pos rfl]

theorem formPairs_append (a b : List (GoString × List GoString)) :
    formPairs (a ++ b) = formPairs a ++ formPairs b := by
  unfold formPairs
  exact List.filterMap_append _ _ _

theorem formPairs_cons_hash (vs : List GoString) (rest : List (GoString × List GoString)) :
    formPairs ((str "hash", vs) :: rest) = formPairs rest := by
  have hhash : str "hash" ∉ pairKeys := by decide
  unfold formPairs
  match vs with
  | [] => simp [List.filterMap_cons]
  | [v] => simp [List.filterMap_cons, hhash]
  | _ :: _ :: _ => simp [List.filterMap_cons]

end V2

/-! ## The properties of the specification -/

/-- C1: `validate` of login.go returns true exactly when the expected tag equals the
HMAC-SHA256 of the check string of the pairs under the key SHA-256(token); that HMAC has 32
bytes, so an expected tag of any other length is rejected. -/
theorem validate_iff_hmac (S : SliceSorter) (ps : List pair) (token : GoString)
    (m : List Nat) :
    (validate S ps token m = true
      ↔ m = hmacSHA256 (Sum256 token) (constructCheckString S ps))
    ∧ (m.length ≠ 32 → validate S ps token m = false) := by
  have h1 : validate S ps token m = true
      ↔ m = hmacSHA256 (Sum256 token) (constructCheckString S ps) := by
    simp [validate, hmacEqual_iff]
  refine ⟨h1, ?_⟩
  intro hlen
  cases hv : validate S ps token m with
  | false => rfl
  | true =>
    have := h1.1 hv
    rw [this, hmacSHA256_length] at hlen
    exact absurd rfl hlen

/-- C2: for pairs with pairwise distinct keys, `constructCheckString` returns the same
string for a list and for any permutation of it. -/
theorem constructCheckString_perm (S : SliceSorter) (r1 r2 : List pair)
    (hd : KeysDistinct r1) (hp : r1.Perm r2) :
    constructCheckString S r1 = constructCheckString S r2 := by
  rw [constructCheckString_eq_spec, constructCheckString_eq_spec,
    sorter_run_perm_eq S r1 r2 hp hd]

theorem constructCheckString_perm_witness :
    KeysDistinct testPairs ∧ testPairs.Perm testPairs.reverse
    ∧ constructCheckString insertionSorter testPairs
      = constructCheckString insertionSorter testPairs.reverse :=
  ⟨by decide, (List.reverse_perm testPairs).symm,
    constructCheckString_perm insertionSorter testPairs testPairs.reverse (by decide)
      (List.reverse_perm testPairs).symm⟩

/-- C3: for pairs with pairwise distinct keys, `constructCheckString` returns the pairs in
strictly ascending byte-wise order of key, each rendered as key, `=`, value, with exactly one
`\n` between consecutive pairs and none at either end. -/
theorem constructCheckString_sorted_lines (S : SliceSorter) (r : List pair)
    (hd : KeysDistinct r) :
    ∃ l : List pair, l.Perm r ∧ KeysAscending l
      ∧ constructCheckString S r = specCheckString l :=
  ⟨S.run r, S.perm r, sorter_run_ascending S r hd, constructCheckString_eq_spec S r⟩

theorem constructCheckString_sorted_lines_witness :
    KeysDistinct testPairs
    ∧ constructCheckString insertionSorter testPairs = testCheckString
    ∧ ∃ l : List pair, l.Perm testPairs ∧ KeysAscending l
      ∧ constructCheckString insertionSorter testPairs = specCheckString l :=
  ⟨by decide, by decide, constructCheckString_sorted_lines insertionSorter testPairs (by decide)⟩

/-- C19, as amended: `constructCheckString` sorts the caller's slice in place. When it
returns, `r` holds the same pairs rearranged so that no pair stands behind one with a
greater key; `r` is unchanged when it already stood in strictly ascending key order. -/
theorem constructCheckString_sorts_in_place (S : SliceSorter) (r : List pair) :
    (constructCheckStringSt S r).2.Perm r
    ∧ (constructCheckStringSt S r).2.Pairwise (fun a b => less b a = false)
    ∧ (KeysAscending r → (constructCheckStringSt S r).2 = r) := by
  rw [constructCheckStringSt_snd]
  refine ⟨S.perm r, S.sorted r, fun h => ?_⟩
  exact keysAscending_unique _ _ (S.perm r)
    (sorter_run_ascending S r (keysDistinct_of_ascending r h)) h

/-- Counterexample to C19 as stated: after `constructCheckString` on the slice
`[id, auth_date]` the slice holds `[auth_date, id]`. -/
theorem constructCheckString_reorders_slice :
    (constructCheckStringSt insertionSorter unsortedPairs).2
      = [⟨str "auth_date", str "1512345678"⟩, ⟨str "id", str "12345678"⟩]
    ∧ decide ((constructCheckStringSt insertionSorter unsortedPairs).2 = unsortedPairs)
      = false := by
  decide

/-- C20: `constructCheckString` returns the empty string for the empty pair list and, for a
single pair, its key, `=` and its value with no newline. -/
theorem constructCheckString_empty_single (S : SliceSorter) :
    constructCheckString S [] = []
    ∧ ∀ k v : GoString, constructCheckString S [⟨k, v⟩] = k ++ [61] ++ v := by
  constructor
  · rfl
  · intro k v
    rw [constructCheckString_eq_spec, (List.perm_singleton.1 (S.perm [⟨k, v⟩]))]
    rfl

theorem constructCheckString_empty_single_witness :
    constructCheckString insertionSorter [] = str ""
    ∧ constructCheckString insertionSorter [⟨str "id", str "12345678"⟩] = str "id=12345678" :=
  ⟨(constructCheckString_empty_single insertionSorter).1, by
    rw [(constructCheckString_empty_single insertionSorter).2]
    decide⟩

/-- C21: the two entry points agree. Verification with the raw token `t` by `validate` of
login.go gives the same boolean as verification by `validate` of package v2 with the
pre-derived key `HashBotToken(t)`. -/
theorem validate_token_eq_validate_key (S : SliceSorter) (ps : List pair) (t : GoString)
    (m : List Nat) :
    validate S ps t m = V2.validate S ps (V2.HashBotToken t) m
    ∧ V2.HashBotToken t = Sum256 t := ⟨rfl, rfl⟩

set_option maxRecDepth 100000 in
theorem validate_token_eq_validate_key_witness :
    V2.HashBotToken testBotToken
      = hexBytes (str "395bfa245bcc417a0baec609b4369cb5943ae6519bedfb8949552b5d103a69c0")
    ∧ V2.HashBotToken testBotToken = testBotTokenHash
    ∧ validate insertionSorter testPairs testBotToken (hexBytes testHash)
      = V2.validate insertionSorter testPairs (V2.HashBotToken testBotToken)
          (hexBytes testHash) :=
  ⟨by decide, by decide,
    (validate_token_eq_validate_key insertionSorter testPairs testBotToken
      (hexBytes testHash)).1⟩

/-- C22: in a pair list with pairwise distinct keys, replacing the value of one pair by a
different string, all other pairs unchanged, changes the string `constructCheckString`
returns. -/
theorem constructCheckString_tamper (S : SliceSorter) (r : List pair) (k v w : GoString)
    (hd : KeysDistinct r) (hmem : (⟨k, v⟩ : pair) ∈ r) (hvw : w ≠ v) :
    constructCheckString S (setValue k w r) ≠ constructCheckString S r := by
  rw [constructCheckString_eq_spec, constructCheckString_eq_spec]
  have hd1 : KeysDistinct (S.run r) := KeysDistinct.perm _ _ (S.perm r).symm hd
  have hasc : KeysAscending (setValue k w (S.run r)) := by
    have h0 := sorter_run_ascending S r hd
    unfold KeysAscending setValue at *
    rw [List.pairwise_map]
    refine h0.imp ?_
    intro a b hab
    have hk : ∀ q : pair, (if q.key = k then (⟨k, w⟩ : pair) else q).key = q.key := by
      intro q
      by_cases h : q.key = k <;> simp [h]
    unfold less at *
    rw [hk a, hk b]
    exact hab
  have hdset : KeysDistinct (setValue k w r) := by
    unfold KeysDistinct
    rw [setValue_keys]
    exact hd
  have hperm : (setValue k w (S.run r)).Perm (S.run (setValue k w r)) :=
    (((S.perm r).map _).trans (S.perm (setValue k w r)).symm)
  have heq : S.run (setValue k w r) = setValue k w (S.run r) :=
    (keysAscending_unique _ _ hperm hasc (sorter_run_ascending S _ hdset)).symm
  rw [heq]
  exact specCheckString_setValue_ne k v w (fun h => hvw h.symm) (S.run r) hd1
    ((S.perm r).symm.subset hmem)

theorem constructCheckString_tamper_witness :
    KeysDistinct testPairs ∧ (⟨str "last_name", str "Smith"⟩ : pair) ∈ testPairs
    ∧ constructCheckString insertionSorter (setValue (str "last_name") (str "Smyth") testPairs)
      ≠ constructCheckString insertionSorter testPairs :=
  ⟨by decide, by decide,
    constructCheckString_tamper insertionSorter testPairs (str "last_name") (str "Smith")
      (str "Smyth") (by decide) (by decide) (by decide)⟩

/-- C24: for two pair lists whose keys are among the six field names and whose values hold
no `\n`, equal check strings mean the same pairs: the lists are permutations of each other
and have the same members. -/
theorem constructCheckString_determines_pairs (S : SliceSorter) (r1 r2 : List pair)
    (h1 : PlainPairs r1) (h2 : PlainPairs r2)
    (h : constructCheckString S r1 = constructCheckString S r2) :
    r1.Perm r2 ∧ ∀ p, p ∈ r1 ↔ p ∈ r2 := by
  rw [constructCheckString_eq_spec, constructCheckString_eq_spec] at h
  have hs1 : PlainPairs (S.run r1) := fun p hp => h1 p ((S.perm r1).subset hp)
  have hs2 : PlainPairs (S.run r2) := fun p hp => h2 p ((S.perm r2).subset hp)
  have heq := specCheckString_inj _ _ hs1 hs2 h
  have hperm : r1.Perm r2 := (S.perm r1).symm.trans (heq ▸ S.perm r2)
  exact ⟨hperm, fun p => hperm.mem_iff⟩

theorem constructCheckString_determines_pairs_witness :
    PlainPairs testPairs ∧ PlainPairs testPairs.reverse
    ∧ testPairs.Perm testPairs.reverse ∧ ∀ p, p ∈ testPairs ↔ p ∈ testPairs.reverse :=
  have h1 : PlainPairs testPairs := by unfold PlainPairs; decide
  have h2 : PlainPairs testPairs.reverse := by unfold PlainPairs; decide
  ⟨h1, h2, constructCheckString_determines_pairs insertionSorter testPairs testPairs.reverse
    h1 h2 (by decide)⟩

/-- C25: for every pair list, `estimateSize` is the exact byte length of the string
`constructCheckString` returns: 0 for the empty list, otherwise `2*len(r) - 1` plus the
lengths of all keys and values. -/
theorem estimateSize_exact (S : SliceSorter) (r : List pair) :
    estimateSize r = (constructCheckString S r).length
    ∧ estimateSize r = if r = [] then 0 else 2 * r.length - 1 + textLength r := by
  refine ⟨?_, estimateSize_eq r⟩
  rw [constructCheckString_eq_spec, specCheckString_length]
  exact (estimateSize_perm _ _ (S.perm r)).symm

namespace V2

/-- C4: when the parse succeeds, the outcome of `ConvertAndVerifyForm` is decided by the
expected tag alone. The tag has 32 bytes, in a form with distinct keys it is the bytes the
`hash` value stands for, and the error is nil when the tag equals the HMAC-SHA256 of the
check string of the parsed pairs under the given key and is exactly `ErrInvalidHash` when
it differs; the `User` returned is the parsed one. The same holds for
`ConvertAndVerifyJSON`. -/
theorem convertAndVerify_hash_decides (S : SliceSorter) (P : GoString → Option URL)
    (key : List Nat) :
    (∀ f : List (GoString × List GoString), (parseUserFromForm P f).err = none →
      (parseUserFromForm P f).expectedMAC.length = 32
      ∧ ((formKeys f).Nodup → ∀ v, (str "hash", [v]) ∈ f →
          (parseUserFromForm P f).expectedMAC = hexBytes v)
      ∧ ConvertAndVerifyForm S P f key =
          ((parseUserFromForm P f).tu,
            if (parseUserFromForm P f).expectedMAC
                = hmacSHA256 key (constructCheckString S (parseUserFromForm P f).ps)
            then none else some .ErrInvalidHash))
    ∧ (∀ (d : Decoder) (r : ParseResult), parseUserFromJSON P d = .returned r →
      r.err = none →
      r.expectedMAC.length = 32
      ∧ ConvertAndVerifyJSON S P d key =
          .returned (r.tu,
            if r.expectedMAC = hmacSHA256 key (constructCheckString S r.ps)
            then none else some .ErrInvalidHash)) := by
  constructor
  · intro f hok
    refine ⟨(parseUserFromForm_end P f).2, ?_, ?_⟩
    · intro hnd
      exact ((parseUserFromForm_fields P f hok).2 hnd).2.2.2.2.2.2
    · rw [ConvertAndVerifyForm_of_parse, hok]
  · intro d r h hok
    refine ⟨(parseUserFromJSON_end P d r h).2, ?_⟩
    rw [ConvertAndVerifyJSON_of_parse, h]
    simp only [hok]

set_option maxRecDepth 100000 in
theorem convertAndVerify_hash_decides_witness :
    (parseUserFromForm testURLParse (testForm zeroHash)).err = none
    ∧ ConvertAndVerifyForm insertionSorter testURLParse (testForm zeroHash) testBotTokenHash
      = (testUser, some .ErrInvalidHash)
    ∧ ConvertAndVerifyJSON insertionSorter testURLParse (testJSON zeroHash) testBotTokenHash
      = .returned (testUser, some .ErrInvalidHash)
    ∧ ConvertAndVerifyForm insertionSorter testURLParse (testForm zeroHash) testBotTokenHash
      = ((parseUserFromForm testURLParse (testForm zeroHash)).tu,
          if (parseUserFromForm testURLParse (testForm zeroHash)).expectedMAC
              = hmacSHA256 testBotTokenHash
                  (constructCheckString insertionSorter
                    (parseUserFromForm testURLParse (testForm zeroHash)).ps)
          then none else some .ErrInvalidHash) :=
  ⟨by decide, by decide, by decide,
    ((convertAndVerify_hash_decides insertionSorter testURLParse testBotTokenHash).1
      (testForm zeroHash) (by decide)).2.2⟩

/-- C6: a form (a map, so with distinct keys) in which every entry has exactly one value,
`id` and `auth_date` are base-10 int64 texts, `photo_url` is accepted by `url.Parse` and
`hash` is 64 hexadecimal digits standing for the HMAC-SHA256 of the check string of the
submitted pairs, is verified: `ConvertAndVerifyForm` returns a nil error and a `User` whose
fields are the integer value of `id`, the time that many seconds after the epoch for
`auth_date`, the submitted names, and the parsed `photo_url`. -/
theorem form_valid_user (S : SliceSorter) (P : GoString → Option URL)
    (f : List (GoString × List GoString)) (key : List Nat)
    (hnd : (formKeys f).Nodup)
    (hsingle : ∀ kv ∈ f, kv.2.length = 1)
    (hid : ∀ kv ∈ f, kv.1 = str "id" → ∀ v ∈ kv.2, (int64Value v).isSome)
    (hauth : ∀ kv ∈ f, kv.1 = str "auth_date" → ∀ v ∈ kv.2, (int64Value v).isSome)
    (hphoto : ∀ kv ∈ f, kv.1 = str "photo_url" → ∀ v ∈ kv.2, (P v).isSome)
    (hhash : ∃ kv ∈ f, kv.1 = str "hash" ∧ ∃ h ∈ kv.2, h.length = 64 ∧ AllHex h
      ∧ hexBytes h = hmacSHA256 key (constructCheckString S (formPairs f))) :
    ∃ u : User, ConvertAndVerifyForm S P f key = (u, none)
      ∧ (∀ v, (str "id", [v]) ∈ f → some u.ID = int64Value v)
      ∧ (∀ v, (str "auth_date", [v]) ∈ f → some u.AuthDate = (int64Value v).map Time.Unix)
      ∧ (∀ v, (str "first_name", [v]) ∈ f → u.FirstName = v)
      ∧ (∀ v, (str "last_name", [v]) ∈ f → u.LastName = v)
      ∧ (∀ v, (str "username", [v]) ∈ f → u.Username = v)
      ∧ (∀ v, (str "photo_url", [v]) ∈ f → u.PhotoURL = P v ∧ (P v).isSome) := by
  have hinit : Locals.init.expectedMAC.length = 32 := by simp [Locals.init, sha256Size]
  have hidP : ∀ v, (str "id", [v]) ∈ f → ParseInt v = (((int64Value v).getD 0), none) := by
    intro v hv
    have h1 := hid (str "id", [v]) hv rfl v (by simp)
    obtain ⟨n, hn⟩ := Option.isSome_iff_exists.1 h1
    rw [hn]
    exact ParseInt_of_value v n hn
  have hauthP : ∀ v, (str "auth_date", [v]) ∈ f →
      ParseInt v = (((int64Value v).getD 0), none) := by
    intro v hv
    have h1 := hauth (str "auth_date", [v]) hv rfl v (by simp)
    obtain ⟨n, hn⟩ := Option.isSome_iff_exists.1 h1
    rw [hn]
    exact ParseInt_of_value v n hn
  obtain ⟨⟨hk, hvs⟩, hkv, hkey, h, hh, hlen, hhex, hmac⟩ := hhash
  simp only at hkey
  subst hkey
  have hvs1 : hvs = [h] := by
    have := hsingle _ hkv
    match hvs, this, hh with
    | [x], _, hh =>
      simp only [List.mem_singleton] at hh
      rw [hh]
  subst hvs1
  have hok : (parseUserFromForm P f).err = none :=
    formLoop_ok_of_good P f hsingle
      (fun v hv => by rw [hidP v hv])
      (fun v hv => by rw [hauthP v hv])
      (fun v hv => hphoto _ hv rfl v (by simp))
      (fun v hv => by
        have := formKeys_unique f hnd _ _ _ hv hkv
        simp only [List.cons.injEq, and_true] at this
        rw [this]
        exact ⟨hlen, hhex⟩)
      Locals.init hinit
  have hfields := (parseUserFromForm_fields P f hok).2 hnd
  obtain ⟨fID, fFirst, fLast, fUser, fPhoto, fAuth, fMac⟩ := hfields
  have hps : (parseUserFromForm P f).ps = formPairs f := by
    have := formLoop_ps P f Locals.init hok
    simpa [parseUserFromForm, Locals.init] using this
  refine ⟨(parseUserFromForm P f).tu, ?_, ?_, ?_, fFirst, fLast, fUser, ?_⟩
  · rw [ConvertAndVerifyForm_of_parse, hok]
    simp only
    rw [if_pos (by rw [fMac h hkv, hps, hmac])]
  · intro v hv
    have h1 := hid (str "id", [v]) hv rfl v (by simp)
    obtain ⟨n, hn⟩ := Option.isSome_iff_exists.1 h1
    rw [fID v hv, hidP v hv, hn]
    rfl
  · intro v hv
    have h1 := hauth (str "auth_date", [v]) hv rfl v (by simp)
    obtain ⟨n, hn⟩ := Option.isSome_iff_exists.1 h1
    rw [fAuth v hv, hauthP v hv, hn]
    rfl
  · intro v hv
    exact ⟨fPhoto v hv, hphoto _ hv rfl v (by simp)⟩

set_option maxRecDepth 100000 in
theorem form_valid_user_witness :
    ConvertAndVerifyForm insertionSorter testURLParse (testForm testHash) testBotTokenHash
      = (testUser, none)
    ∧ ∃ u : User, ConvertAndVerifyForm insertionSorter testURLParse (testForm testHash)
          testBotTokenHash = (u, none)
      ∧ (∀ v, (str "id", [v]) ∈ testForm testHash → some u.ID = int64Value v)
      ∧ (∀ v, (str "auth_date", [v]) ∈ testForm testHash →
          some u.AuthDate = (int64Value v).map Time.Unix)
      ∧ (∀ v, (str "first_name", [v]) ∈ testForm testHash → u.FirstName = v)
      ∧ (∀ v, (str "last_name", [v]) ∈ testForm testHash → u.LastName = v)
      ∧ (∀ v, (str "username", [v]) ∈ testForm testHash → u.Username = v)
      ∧ (∀ v, (str "photo_url", [v]) ∈ testForm testHash →
          u.PhotoURL = testURLParse v ∧ (testURLParse v).isSome) :=
  ⟨by decide,
    form_valid_user insertionSorter testURLParse (testForm testHash) testBotTokenHash
      (by decide) (by decide) (by decide) (by decide) (by decide) (by decide)⟩

/-- C7: after a parse that is accepted, each optional field whose key does not occur in the
input holds its zero value in the `User`: the empty string for `FirstName`, `LastName` and
`Username`, nil for `PhotoURL`. For a form the keys are those of the map; for JSON they are
the tokens in key position behind the opening brace. -/
theorem absent_optional_fields_zero (P : GoString → Option URL) :
    (∀ f : List (GoString × List GoString), (parseUserFromForm P f).err = none →
      (str "first_name" ∉ formKeys f → (parseUserFromForm P f).tu.FirstName = [])
      ∧ (str "last_name" ∉ formKeys f → (parseUserFromForm P f).tu.LastName = [])
      ∧ (str "username" ∉ formKeys f → (parseUserFromForm P f).tu.Username = [])
      ∧ (str "photo_url" ∉ formKeys f → (parseUserFromForm P f).tu.PhotoURL = none))
    ∧ (∀ (d : Decoder) (r : ParseResult), parseUserFromJSON P d = .returned r →
      r.err = none →
      (.string (str "first_name") ∉ memberKeys d.tail → r.tu.FirstName = [])
      ∧ (.string (str "last_name") ∉ memberKeys d.tail → r.tu.LastName = [])
      ∧ (.string (str "username") ∉ memberKeys d.tail → r.tu.Username = [])
      ∧ (.string (str "photo_url") ∉ memberKeys d.tail → r.tu.PhotoURL = none)) := by
  constructor
  · intro f hok
    obtain ⟨⟨_, h1, h2, h3, h4, _, _⟩, _⟩ := parseUserFromForm_fields P f hok
    exact ⟨h1, h2, h3, h4⟩
  · intro d r h hok
    obtain ⟨st1, d1, hloop, rfl⟩ := parseUserFromJSON_ok P d r h hok
    refine ⟨fun hK => ?_, fun hK => ?_, fun hK => ?_, fun hK => ?_⟩
    · exact jsonLoop_frame P _ (fun st => st.tu.FirstName)
        (fun st k v st2 hn hk => (jsonField_next_frame P st st2 k v hn).1 hk)
        d.tail Locals.init st1 d1 hloop hK
    · exact jsonLoop_frame P _ (fun st => st.tu.LastName)
        (fun st k v st2 hn hk => (jsonField_next_frame P st st2 k v hn).2.1 hk)
        d.tail Locals.init st1 d1 hloop hK
    · exact jsonLoop_frame P _ (fun st => st.tu.Username)
        (fun st k v st2 hn hk => (jsonField_next_frame P st st2 k v hn).2.2.1 hk)
        d.tail Locals.init st1 d1 hloop hK
    · exact jsonLoop_frame P _ (fun st => st.tu.PhotoURL)
        (fun st k v st2 hn hk => (jsonField_next_frame P st st2 k v hn).2.2.2 hk)
        d.tail Locals.init st1 d1 hloop hK

set_option maxRecDepth 100000 in
theorem absent_optional_fields_zero_witness :
    ConvertAndVerifyJSON insertionSorter testURLParse testJSONMissing testBotTokenHash
      = .returned (⟨.Unix 1512345678, [], 12345678, [], none, []⟩, none)
    ∧ ∀ r : ParseResult, parseUserFromJSON testURLParse testJSONMissing = .returned r →
      r.err = none →
      r.tu.FirstName = [] ∧ r.tu.LastName = [] ∧ r.tu.Username = [] ∧ r.tu.PhotoURL = none :=
  ⟨by decide, fun r h hok =>
    have hh := (absent_optional_fields_zero testURLParse).2 testJSONMissing r h hok
    ⟨hh.1 (by decide), hh.2.1 (by decide), hh.2.2.1 (by decide), hh.2.2.2 (by decide)⟩⟩

/-- C8: in a form, a single `hash` value that is not 64 bytes long or holds a byte that is
not a hexadecimal digit makes `ConvertAndVerifyForm` return an error that is neither nil nor
`ErrInvalidHash`, whatever the secret. On a JSON object with such a `hash` string
`ConvertAndVerifyJSON` never returns nil or `ErrInvalidHash` either, but it does not always
return: on `{"id":"x","hash":"zz"}` the type assertion on `id` panics before the hash is
looked at. -/
theorem malformed_hash_form_error_json_panic (S : SliceSorter) (P : GoString → Option URL)
    (key : List Nat) :
    (∀ (f : List (GoString × List GoString)) (v : GoString), (str "hash", [v]) ∈ f →
      (v.length ≠ 64 ∨ ¬ AllHex v) →
      ∃ e, (ConvertAndVerifyForm S P f key).2 = some e ∧ e ≠ .ErrInvalidHash)
    ∧ (∀ (ms : List (Token × Token)) (v : GoString), ScalarMembers ms →
      (Token.string (str "hash"), Token.string v) ∈ ms → (v.length ≠ 64 ∨ ¬ AllHex v) →
      ConvertAndVerifyJSON S P (objectScript ms) key = .panicked
      ∨ ∃ u e, ConvertAndVerifyJSON S P (objectScript ms) key = .returned (u, some e)
          ∧ e ≠ .ErrInvalidHash)
    ∧ wrongTypeThenBadHash
        = objectScript [(.string (str "id"), .string (str "x")),
            (.string (str "hash"), .string (str "zz"))]
    ∧ ConvertAndVerifyJSON S P wrongTypeThenBadHash key = .panicked := by
  refine ⟨?_, ?_, rfl, ?_⟩
  · intro f v hmem hv
    have hfail : ParseFailure (parseUserFromForm P f) :=
      formLoop_failure_of_mem P (str "hash", [v])
        (fun st rest => formLoop_malformed_hash P v hv st rest) f Locals.init hmem
    obtain ⟨e, he, hne⟩ := ConvertAndVerifyForm_of_failure S P f key hfail
    exact ⟨e, by rw [he], hne⟩
  · intro ms v hsc hmem hv
    rcases parseUserFromJSON_malformed_hash P v hv ms hsc hmem with hp | ⟨r, hp, e, he, hne⟩
    · exact Or.inl (by rw [ConvertAndVerifyJSON_of_parse, hp])
    · exact Or.inr ⟨r.tu, e, by rw [ConvertAndVerifyJSON_of_parse, hp]; simp only [he], hne⟩
  · have hp : parseUserFromJSON P wrongTypeThenBadHash = .panicked := by
      simp [parseUserFromJSON, wrongTypeThenBadHash, Decoder.Token, jsonLoop, Decoder.More,
        jsonField]
    simp [ConvertAndVerifyJSON, hp]

/-- C9: a form in which a recognized field is mapped to no value or to more than one value
makes `ConvertAndVerifyForm` return an error that is neither nil nor `ErrInvalidHash`,
whatever the shared secret. -/
theorem form_not_single_value_error (S : SliceSorter) (P : GoString → Option URL)
    (f : List (GoString × List GoString)) (key : List Nat) (k : GoString)
    (vs : List GoString) (_hk : k ∈ recognizedKeys) (hmem : (k, vs) ∈ f)
    (hvs : vs.length = 0 ∨ vs.length > 1) :
    ∃ e, (ConvertAndVerifyForm S P f key).2 = some e ∧ e ≠ .ErrInvalidHash := by
  have hne : vs.length ≠ 1 := by omega
  have hfail : ParseFailure (parseUserFromForm P f) :=
    formLoop_failure_of_mem P (k, vs)
      (fun st rest => by
        rw [formLoop_not_single P k vs hne st rest]
        exact ⟨_, rfl, by simp⟩)
      f Locals.init hmem
  obtain ⟨e, he, hne⟩ := ConvertAndVerifyForm_of_failure S P f key hfail
  exact ⟨e, by rw [he], hne⟩

theorem form_not_single_value_error_witness :
    str "id" ∈ recognizedKeys
    ∧ (str "id", [str "1", str "2"]) ∈ [(str "id", [str "1", str "2"])]
    ∧ ∃ e, (ConvertAndVerifyForm insertionSorter testURLParse
        [(str "id", [str "1", str "2"])] testBotTokenHash).2 = some e ∧ e ≠ .ErrInvalidHash :=
  ⟨by decide, by simp,
    form_not_single_value_error insertionSorter testURLParse _ testBotTokenHash (str "id")
      [str "1", str "2"] (by decide) (by simp) (Or.inr (by decide))⟩

set_option maxRecDepth 100000 in
/-- Counterexample to C10 as stated: the valid test form extended with the unrecognized key
`utm_source` mapped to two values (as the query `utm_source=a&utm_source=b` gives) is
rejected with `ErrNotSingleValue`, while the form itself is verified with a nil error. -/
theorem form_unrecognized_not_ignored :
    str "utm_source" ∉ recognizedKeys
    ∧ (ConvertAndVerifyForm insertionSorter testURLParse
        ((str "utm_source", [str "a", str "b"]) :: testForm testHash) testBotTokenHash).2
        = some .ErrNotSingleValue
    ∧ (ConvertAndVerifyForm insertionSorter testURLParse
        (testForm testHash ++ [(str "utm_source", [str "a", str "b"])]) testBotTokenHash).2
        = some .ErrNotSingleValue
    ∧ ConvertAndVerifyForm insertionSorter testURLParse (testForm testHash) testBotTokenHash
        = (testUser, none) := by
  decide

/-- C10, as amended: an unrecognized key submitted with exactly one value is ignored by the
form adapter. Wherever the `range` loop meets the entry, `ConvertAndVerifyForm` returns the
same `User` and the same error as on the form without it. -/
theorem form_unrecognized_single_ignored (S : SliceSorter) (P : GoString → Option URL)
    (key : List Nat) (f1 f2 : List (GoString × List GoString)) (k v : GoString)
    (hk : k ∉ recognizedKeys) :
    ConvertAndVerifyForm S P (f1 ++ (k, [v]) :: f2) key
      = ConvertAndVerifyForm S P (f1 ++ f2) key := by
  unfold ConvertAndVerifyForm parseUserFromForm
  rw [formLoop_skip_unrecognized P k v hk f1 f2]

set_option maxRecDepth 100000 in
theorem form_unrecognized_single_ignored_witness :
    str "utm_source" ∉ recognizedKeys
    ∧ ConvertAndVerifyForm insertionSorter testURLParse
        ([] ++ (str "utm_source", [str "x"]) :: testForm testHash) testBotTokenHash
      = ConvertAndVerifyForm insertionSorter testURLParse ([] ++ testForm testHash)
          testBotTokenHash :=
  ⟨by decide,
    form_unrecognized_single_ignored insertionSorter testURLParse testBotTokenHash []
      (testForm testHash) (str "utm_source") (str "x") (by decide)⟩

/-- C11: a recognized field with a scalar value of the wrong JSON type makes the type
assertion of its case panic. On a JSON object holding such a member `ConvertAndVerifyJSON`
never returns nil or `ErrInvalidHash`, but it returns an error only when an earlier member
is rejected first; when the member comes first, as in `{"id":"x"}`, the call panics and
returns nothing. -/
theorem json_wrong_type_panics (S : SliceSorter) (P : GoString → Option URL)
    (key : List Nat) :
    (∀ (ms : List (Token × Token)) (k v : Token), ScalarMembers ms → (k, v) ∈ ms →
      WrongType k v →
      ConvertAndVerifyJSON S P (objectScript ms) key = .panicked
      ∨ ∃ u e, ConvertAndVerifyJSON S P (objectScript ms) key = .returned (u, some e)
          ∧ e ≠ .ErrInvalidHash)
    ∧ (∀ (ms : List (Token × Token)) (k v : Token), ScalarMembers ((k, v) :: ms) →
      WrongType k v →
      ConvertAndVerifyJSON S P (objectScript ((k, v) :: ms)) key = .panicked)
    ∧ ConvertAndVerifyJSON S P wrongTypeID key = .panicked := by
  have hfirst : ∀ (ms : List (Token × Token)) (k v : Token), ScalarMembers ((k, v) :: ms) →
      WrongType k v →
      ConvertAndVerifyJSON S P (objectScript ((k, v) :: ms)) key = .panicked := by
    intro ms k v hsc hw
    have hkv := hsc (k, v) (List.mem_cons_self _ _)
    have hloop : jsonLoop P (memberSteps ((k, v) :: ms) ++ [.tok (.delim 125)]) Locals.init
        = .panicked := by
      have := jsonLoop_step P k v (memberSteps ms ++ [.tok (.delim 125)]) Locals.init
        hkv.1 hkv.2
      rw [jsonField_wrongType P _ k v hw] at this
      simpa [memberSteps] using this
    rw [ConvertAndVerifyJSON_of_parse]
    have := parseUserFromJSON_of_loop_panic P _ hloop
    unfold objectScript
    rw [this]
  refine ⟨?_, hfirst, ?_⟩
  · intro ms k v hsc hmem hw
    apply ConvertAndVerifyJSON_of_loop_stop
    rw [objectScript_tail]
    exact jsonLoop_stops_at P k v
      (fun st st1 h => by rw [jsonField_wrongType P st k v hw] at h; cases h)
      _ ms Locals.init hsc hmem
  · refine hfirst [] _ _ ?_ ?_
    · intro kv hkv
      simp only [List.mem_singleton] at hkv
      subst hkv
      exact ⟨fun c h => (by cases h), fun c h => (by cases h)⟩
    · exact Or.inl ⟨Or.inl rfl, fun x h => (by cases h)⟩

/-- C12: when the first token of the input is not the opening brace of an object (the
input is empty, starts with another value such as the string `"food"`, or is not JSON),
`ConvertAndVerifyJSON` returns an error that is neither nil nor `ErrInvalidHash`. -/
theorem json_not_object_error (S : SliceSorter) (P : GoString → Option URL) (d : Decoder)
    (key : List Nat) (h : (Decoder.Token d).1 ≠ .ok (.delim 123)) :
    ∃ u e, ConvertAndVerifyJSON S P d key = .returned (u, some e) ∧ e ≠ .ErrInvalidHash := by
  have hp : ∃ r, parseUserFromJSON P d = .returned r ∧ ParseFailure r := by
    unfold parseUserFromJSON
    simp only
    split
    · exact ⟨_, rfl, _, rfl, by simp⟩
    · exact ⟨_, rfl, _, rfl, by simp⟩
    · rename_i t d0 htok
      split
      · exact ⟨_, rfl, _, rfl, by simp⟩
      · rename_i ht
        have ht1 : t = .delim 123 := by simpa using ht
        rw [htok, ht1] at h
        exact absurd rfl h
  obtain ⟨r, hr, e, he, hne⟩ := hp
  refine ⟨r.tu, e, ?_, hne⟩
  rw [ConvertAndVerifyJSON_of_parse, hr]
  simp only [he]

theorem json_not_object_error_witness :
    (∃ u e, ConvertAndVerifyJSON insertionSorter testURLParse [] testBotTokenHash
        = .returned (u, some e) ∧ e ≠ .ErrInvalidHash)
    ∧ (∃ u e, ConvertAndVerifyJSON insertionSorter testURLParse [.tok (.string (str "food"))]
        testBotTokenHash = .returned (u, some e) ∧ e ≠ .ErrInvalidHash)
    ∧ (∃ u e, ConvertAndVerifyJSON insertionSorter testURLParse
        [.err (.other (str "invalid character 'o' in literal false (expecting 'a')")) true]
        testBotTokenHash = .returned (u, some e) ∧ e ≠ .ErrInvalidHash) :=
  ⟨json_not_object_error insertionSorter testURLParse [] testBotTokenHash
      (by simp [Decoder.Token]),
    json_not_object_error insertionSorter testURLParse _ testBotTokenHash
      (by simp [Decoder.Token]),
    json_not_object_error insertionSorter testURLParse _ testBotTokenHash
      (by simp [Decoder.Token])⟩

/-- C13: a member whose value begins with an object or array delimiter is rejected with a
formatted error where the loop reaches it; on a JSON object holding such a member
`ConvertAndVerifyJSON` never returns nil or `ErrInvalidHash`. It does not always return: on
`{"id":"x","auth_date":{}}` the type assertion on `id` panics before the nested value is
met. -/
theorem json_nested_value_error_or_panic (S : SliceSorter) (P : GoString → Option URL)
    (key : List Nat) :
    (∀ (ms : List (Token × Token)) (k : Token) (c : Nat) (rest : Decoder),
      ScalarMembers ms → (∀ c, k ≠ .delim c) →
      ConvertAndVerifyJSON S P
          (.tok (.delim 123) :: (memberSteps ms ++ .tok k :: .tok (.delim c) :: rest)) key
        = .panicked
      ∨ ∃ u e, ConvertAndVerifyJSON S P
          (.tok (.delim 123) :: (memberSteps ms ++ .tok k :: .tok (.delim c) :: rest)) key
          = .returned (u, some e) ∧ e ≠ .ErrInvalidHash)
    ∧ (∀ (k : Token) (c : Nat) (rest : Decoder), (∀ c, k ≠ .delim c) →
      ConvertAndVerifyJSON S P (.tok (.delim 123) :: .tok k :: .tok (.delim c) :: rest) key
        = .returned (User.zero,
            some (.Errorf "expected value, got delimeter: %v" [.token (.delim c)])))
    ∧ ConvertAndVerifyJSON S P wrongTypeThenNested key = .panicked := by
  refine ⟨?_, ?_, ?_⟩
  · intro ms k c rest hsc hk
    apply ConvertAndVerifyJSON_of_loop_stop
    exact jsonLoop_stops_at_delim P k c hk rest ms Locals.init hsc
  · intro k c rest hk
    rw [ConvertAndVerifyJSON_of_parse,
      parseUserFromJSON_of_loop_exit P _ _ (jsonLoop_value_delim P k c rest Locals.init hk)]
    rfl
  · have hp : parseUserFromJSON P wrongTypeThenNested = .panicked := by
      simp [parseUserFromJSON, wrongTypeThenNested, Decoder.Token, jsonLoop, Decoder.More,
        jsonField]
    simp [ConvertAndVerifyJSON, hp]

/-- C14: an error of the parse is returned as it is, with the `User` parsed so far, whatever
the shared secret and whatever `validate` would answer: the result does not depend on the
key, on the sorting, or on the function called as `validate`. -/
theorem parse_failure_independent_of_secret (S : SliceSorter) (P : GoString → Option URL) :
    (∀ (f : List (GoString × List GoString)) (k1 k2 : List Nat),
      (parseUserFromForm P f).err ≠ none →
      ConvertAndVerifyForm S P f k1 = ConvertAndVerifyForm S P f k2
      ∧ ConvertAndVerifyForm S P f k1
          = ((parseUserFromForm P f).tu, (parseUserFromForm P f).err)
      ∧ ∀ vld : List pair → List Nat → List Nat → Bool,
          ConvertAndVerifyFormWith vld P f k1 = ConvertAndVerifyForm S P f k2)
    ∧ (∀ (d : Decoder) (r : ParseResult) (k1 k2 : List Nat),
      parseUserFromJSON P d = .returned r → r.err ≠ none →
      ConvertAndVerifyJSON S P d k1 = ConvertAndVerifyJSON S P d k2
      ∧ ConvertAndVerifyJSON S P d k1 = .returned (r.tu, r.err)
      ∧ ∀ vld : List pair → List Nat → List Nat → Bool,
          ConvertAndVerifyJSONWith vld P d k1 = ConvertAndVerifyJSON S P d k2)
    ∧ (∀ (f : List (GoString × List GoString)) (k : List Nat),
      ConvertAndVerifyForm S P f k = ConvertAndVerifyFormWith (validate S) P f k)
    ∧ (∀ (d : Decoder) (k : List Nat),
      ConvertAndVerifyJSON S P d k = ConvertAndVerifyJSONWith (validate S) P d k) := by
  refine ⟨?_, ?_, fun _ _ => rfl, fun _ _ => rfl⟩
  · intro f k1 k2 herr
    obtain ⟨e, he⟩ := Option.ne_none_iff_exists'.1 herr
    have h : ∀ k, ConvertAndVerifyForm S P f k = ((parseUserFromForm P f).tu, some e) := by
      intro k
      rw [ConvertAndVerifyForm_of_parse, he]
    refine ⟨by rw [h k1, h k2], by rw [h k1, he], fun vld => ?_⟩
    rw [h k2]
    unfold ConvertAndVerifyFormWith
    simp only [he]
  · intro d r k1 k2 hp herr
    obtain ⟨e, he⟩ := Option.ne_none_iff_exists'.1 herr
    have h : ∀ k, ConvertAndVerifyJSON S P d k = .returned (r.tu, some e) := by
      intro k
      rw [ConvertAndVerifyJSON_of_parse, hp]
      simp only [he]
    refine ⟨by rw [h k1, h k2], by rw [h k1, he], fun vld => ?_⟩
    rw [h k2]
    unfold ConvertAndVerifyJSONWith
    rw [hp]
    simp only [he]

/-- Counterexample to C15 as stated: the accepted form `id=007` puts the pair `id=007` in
the list although the parsed integer is 7, whose decimal text is `7`; the accepted JSON
`{"id":-0}` puts `id=-0` although the parsed integer is 0. -/
theorem pair_value_not_canonical :
    parseUserFromForm testURLParse [(str "id", [str "007"])]
      = ⟨{ User.zero with ID := 7 }, [⟨str "id", str "007"⟩], List.replicate 32 0, none⟩
    ∧ FormatInt 7 = str "7"
    ∧ decide (str "007" = FormatInt 7) = false
    ∧ parseUserFromJSON testURLParse negativeZeroID
      = .returned ⟨User.zero, [⟨str "id", str "-0"⟩], List.replicate 32 0, none⟩
    ∧ FormatInt 0 = str "0" := by
  decide

/-- C15, as amended: after an accepted parse the pairs hold the submitted texts as they
were submitted. For a form they are the single values of the entries under the six field
names; for JSON they are the literal texts of the numbers and the strings of the members. -/
theorem pairs_hold_submitted_text (P : GoString → Option URL) :
    (∀ f : List (GoString × List GoString), (parseUserFromForm P f).err = none →
      (parseUserFromForm P f).ps = formPairs f
      ∧ (∀ v, (str "id", [v]) ∈ f → (⟨str "id", v⟩ : pair) ∈ (parseUserFromForm P f).ps)
      ∧ (∀ v, (str "auth_date", [v]) ∈ f →
          (⟨str "auth_date", v⟩ : pair) ∈ (parseUserFromForm P f).ps))
    ∧ (∀ (d : Decoder) (r : ParseResult), parseUserFromJSON P d = .returned r →
      r.err = none → r.ps = scriptPairs d.tail)
    ∧ (∀ (x : GoString) (rest : Decoder),
      scriptPairs (.tok (.string (str "id")) :: .tok (.number x) :: rest)
        = ⟨str "id", x⟩ :: scriptPairs rest
      ∧ scriptPairs (.tok (.string (str "auth_date")) :: .tok (.number x) :: rest)
        = ⟨str "auth_date", x⟩ :: scriptPairs rest) := by
  refine ⟨?_, ?_, ?_⟩
  · intro f hok
    have hps : (parseUserFromForm P f).ps = formPairs f := by
      have := formLoop_ps P f Locals.init hok
      simpa [parseUserFromForm, Locals.init] using this
    refine ⟨hps, fun v hv => ?_, fun v hv => ?_⟩
    · rw [hps]
      exact formPairs_mem f _ v (by decide) hv
    · rw [hps]
      exact formPairs_mem f _ v (by decide) hv
  · intro d r h hok
    exact (parseUserFromJSON_ps P d r h).1 hok
  · intro x rest
    have h1 : str "id" = str "id" ∨ str "id" = str "auth_date" := Or.inl rfl
    have h2 : str "auth_date" = str "id" ∨ str "auth_date" = str "auth_date" := Or.inr rfl
    constructor
    · simp only [scriptPairs, memberPair, if_pos h1]
      rfl
    · simp only [scriptPairs, memberPair, if_pos h2]
      rfl

/-- C16: an `auth_date` with a fractional part is not truncated but rejected. Every form
whose `auth_date` holds a `.` makes `ConvertAndVerifyForm` return an error that is neither
nil nor `ErrInvalidHash`, a JSON object with such a number is never accepted, and on
`auth_date=1512345678.5` the parse returns the syntax error of `strconv.ParseInt`. -/
theorem auth_date_fraction_rejected (S : SliceSorter) (P : GoString → Option URL)
    (key : List Nat) :
    (∀ (f : List (GoString × List GoString)) (v : GoString), (str "auth_date", [v]) ∈ f →
      46 ∈ v → ∃ e, (ConvertAndVerifyForm S P f key).2 = some e ∧ e ≠ .ErrInvalidHash)
    ∧ (∀ (ms : List (Token × Token)) (x : GoString), ScalarMembers ms →
      (Token.string (str "auth_date"), Token.number x) ∈ ms → 46 ∈ x →
      ConvertAndVerifyJSON S P (objectScript ms) key = .panicked
      ∨ ∃ u e, ConvertAndVerifyJSON S P (objectScript ms) key = .returned (u, some e)
          ∧ e ≠ .ErrInvalidHash)
    ∧ parseUserFromForm P fractionalAuthDate
      = ⟨User.zero, [], List.replicate 32 0,
          some (.NumError (str "1512345678.5") .ErrSyntax)⟩
    ∧ ConvertAndVerifyForm S P fractionalAuthDate key
      = (User.zero, some (.NumError (str "1512345678.5") .ErrSyntax)) := by
  have hparse : parseUserFromForm P fractionalAuthDate
      = ⟨User.zero, [], List.replicate 32 0,
          some (.NumError (str "1512345678.5") .ErrSyntax)⟩ := by
    have hp : ParseInt (str "1512345678.5") = (0, some .ErrSyntax) := by decide
    simp [parseUserFromForm, fractionalAuthDate, formLoop, formField_auth_date, hp,
      Locals.init, sha256Size]
  refine ⟨?_, ?_, hparse, ?_⟩
  · intro f v hmem hdot
    have hfail : ParseFailure (parseUserFromForm P f) :=
      formLoop_failure_of_mem P (str "auth_date", [v])
        (fun st rest => by
          have hne := ParseInt_dot v hdot
          rcases hp : ParseInt v with ⟨i, e⟩
          rw [hp] at hne
          cases e with
          | none => exact absurd rfl hne
          | some e =>
            have hf : formField P st (str "auth_date") v
                = .exit ⟨st.tu, [], st.expectedMAC, some (.NumError v e)⟩ := by
              rw [formField_auth_date, hp]
            have : formLoop P ((str "auth_date", [v]) :: rest) st
                = ⟨st.tu, [], st.expectedMAC, some (.NumError v e)⟩ := by
              simp [formLoop, hf]
            rw [this]
            exact ⟨_, rfl, by simp⟩)
        f Locals.init hmem
    obtain ⟨e, he, hne⟩ := ConvertAndVerifyForm_of_failure S P f key hfail
    exact ⟨e, by rw [he], hne⟩
  · intro ms x hsc hmem hdot
    apply ConvertAndVerifyJSON_of_loop_stop
    rw [objectScript_tail]
    refine jsonLoop_stops_at P _ _ (fun st st1 h => ?_) _ ms Locals.init hsc hmem
    rw [jsonField_auth_date_number] at h
    have hne := ParseInt_dot x hdot
    rcases hp : ParseInt x with ⟨i, e⟩
    rw [hp] at hne h
    cases e with
    | none => exact absurd rfl hne
    | some e => cases h
  · rw [ConvertAndVerifyForm_of_parse, hparse]

/-- Counterexample to C17 as stated: the JSON text `{"id":1,"id":2}` is accepted and the
pair list returned holds two pairs with the key `id`. -/
theorem json_duplicate_member_pairs :
    parseUserFromJSON testURLParse duplicateID
      = .returned ⟨{ User.zero with ID := 2 }, [⟨str "id", str "1"⟩, ⟨str "id", str "2"⟩],
          List.replicate 32 0, none⟩
    ∧ decide (KeysDistinct [(⟨str "id", str "1"⟩ : pair), ⟨str "id", str "2"⟩]) = false := by
  decide

/-- C17, as amended: the pair list returned for a form (a map, so with distinct keys) has
pairwise distinct keys, and so has the pair list returned for a JSON input whose member
names are pairwise distinct. -/
theorem pairs_keys_distinct (P : GoString → Option URL) :
    (∀ f : List (GoString × List GoString), (formKeys f).Nodup →
      KeysDistinct (parseUserFromForm P f).ps)
    ∧ (∀ (d : Decoder) (r : ParseResult), parseUserFromJSON P d = .returned r →
      (memberKeys d.tail).Nodup → KeysDistinct r.ps) := by
  constructor
  · intro f hnd
    cases herr : (parseUserFromForm P f).err with
    | some e =>
      have : (parseUserFromForm P f).ps = [] :=
        formLoop_failure_ps P f Locals.init (by
          have h1 : (formLoop P f Locals.init).err = some e := herr
          rw [h1]; simp)
      rw [this]
      exact List.nodup_nil
    | none =>
      have hps : (parseUserFromForm P f).ps = formPairs f := by
        have := formLoop_ps P f Locals.init herr
        simpa [parseUserFromForm, Locals.init] using this
      rw [hps]
      exact (formPairs_keys_sublist f).nodup hnd
  · intro d r h hnd
    cases herr : r.err with
    | some e =>
      rw [(parseUserFromJSON_ps P d r h).2 (by rw [herr]; simp)]
      exact List.nodup_nil
    | none =>
      rw [(parseUserFromJSON_ps P d r h).1 herr]
      have hsub := scriptPairs_keys_sublist d.tail.length d.tail (Nat.le_refl _)
      have hnd1 := hsub.nodup hnd
      have : (List.map (fun p : pair => Token.string p.key) (scriptPairs d.tail))
          = ((scriptPairs d.tail).map pair.key).map Token.string := by
        rw [List.map_map]
        rfl
      rw [this] at hnd1
      exact hnd1.of_map _

/-- C18: for every input, every pair in the list a parse function returns has one of the
six field names as its key, and `hash` is not among them; the pairs of a form are the same
with and without its `hash` entry. -/
theorem pairs_keys_recognized (P : GoString → Option URL) :
    str "hash" ∉ pairKeys
    ∧ (∀ (f : List (GoString × List GoString)), ∀ p ∈ (parseUserFromForm P f).ps,
        p.key ∈ pairKeys ∧ p.key ≠ str "hash")
    ∧ (∀ (d : Decoder) (r : ParseResult), parseUserFromJSON P d = .returned r →
        ∀ p ∈ r.ps, p.key ∈ pairKeys ∧ p.key ≠ str "hash")
    ∧ (∀ (f1 f2 : List (GoString × List GoString)) (vs : List GoString),
        formPairs (f1 ++ (str "hash", vs) :: f2) = formPairs (f1 ++ f2)) := by
  have hhash : str "hash" ∉ pairKeys := by decide
  have hne : ∀ k, k ∈ pairKeys → k ≠ str "hash" := fun k hk he => hhash (he ▸ hk)
  refine ⟨hhash, ?_, ?_, ?_⟩
  · intro f p hp
    cases herr : (parseUserFromForm P f).err with
    | some e =>
      have : (parseUserFromForm P f).ps = [] :=
        formLoop_failure_ps P f Locals.init (by
          have h1 : (formLoop P f Locals.init).err = some e := herr
          rw [h1]; simp)
      rw [this] at hp
      simp at hp
    | none =>
      have hps : (parseUserFromForm P f).ps = formPairs f := by
        have := formLoop_ps P f Locals.init herr
        simpa [parseUserFromForm, Locals.init] using this
      rw [hps] at hp
      have := (mem_formPairs f p hp).1
      exact ⟨this, hne _ this⟩
  · intro d r h p hp
    cases herr : r.err with
    | some e =>
      rw [(parseUserFromJSON_ps P d r h).2 (by rw [herr]; simp)] at hp
      simp at hp
    | none =>
      rw [(parseUserFromJSON_ps P d r h).1 herr] at hp
      have := mem_scriptPairs_key d.tail.length d.tail (Nat.le_refl _) p hp
      exact ⟨this, hne _ this⟩
  · intro f1 f2 vs
    rw [formPairs_append, formPairs_append, formPairs_cons_hash]

/-- C23: a form without a `hash` key is treated exactly as the same form with `hash` set to
64 characters `0`: the expected tag stays at its initial 32 zero bytes, and
`ConvertAndVerifyForm` returns the same `User` and the same error, wherever the `range`
loop meets the added entry. -/
theorem absent_hash_as_zero_hash (S : SliceSorter) (P : GoString → Option URL)
    (key : List Nat) (f1 f2 : List (GoString × List GoString))
    (hno : str "hash" ∉ formKeys (f1 ++ f2)) :
    ConvertAndVerifyForm S P (f1 ++ (str "hash", [zeroHash]) :: f2) key
      = ConvertAndVerifyForm S P (f1 ++ f2) key
    ∧ ((parseUserFromForm P (f1 ++ f2)).err = none →
        (parseUserFromForm P (f1 ++ f2)).expectedMAC = List.replicate 32 0) := by
  constructor
  · have hno1 : str "hash" ∉ formKeys f1 := by
      intro h
      apply hno
      simp only [formKeys, List.map_append, List.mem_append] at h ⊢
      exact Or.inl h
    unfold ConvertAndVerifyForm parseUserFromForm
    rw [formLoop_zero_hash P f1 f2 hno1 Locals.init (by simp [Locals.init, sha256Size])]
  · intro hok
    exact (parseUserFromForm_fields P (f1 ++ f2) hok).1.2.2.2.2.2.2 hno

set_option maxRecDepth 100000 in
theorem absent_hash_as_zero_hash_witness :
    str "hash" ∉ formKeys ([] ++ testFormNoHash)
    ∧ ConvertAndVerifyForm insertionSorter testURLParse
        ([] ++ (str "hash", [zeroHash]) :: testFormNoHash) testBotTokenHash
      = (testUser, some .ErrInvalidHash)
    ∧ ConvertAndVerifyForm insertionSorter testURLParse
        ([] ++ (str "hash", [zeroHash]) :: testFormNoHash) testBotTokenHash
      = ConvertAndVerifyForm insertionSorter testURLParse ([] ++ testFormNoHash)
          testBotTokenHash :=
  ⟨by decide, by decide,
    (absent_hash_as_zero_hash insertionSorter testURLParse testBotTokenHash []
      testFormNoHash (by decide)).1⟩

end V2

end TelegramWidget
